import Mathlib

/-!
# 0-db data log: a shallow embedding of `src/data.c`

The data log is a directory of segment files `zdb-data-NNNNN`.  The embedding
keeps the file system as an explicit value (`World`), file descriptors as
records holding the file they name and their offset (`Fd`), and every C
function of `data.c` as a Lean function passing the root and the world along.

`data.h` is not among the sources: the sizes of the two packed structs, the
byte offsets of the entry-header fields and `DATA_MAXSIZE` are therefore the
fields of a `Layout` value every function takes as its first argument.
-/

namespace ZeroDB

/-! ## Bytes, little-endian integers, buffers -/

/-- One byte. -/
abbrev Byte := Fin 256

/-- The `w` low bytes of `n`, least significant first (x86 store of a `w`-byte integer). -/
def toLE : Nat → Nat → List Byte
  | 0, _ => []
  | w + 1, n => ⟨n % 256, Nat.mod_lt n (by decide)⟩ :: toLE w (n / 256)

/-- The integer whose little-endian bytes are given (x86 load). -/
def ofLE : List Byte → Nat
  | [] => 0
  | b :: bs => b.val + 256 * ofLE bs

/-- Bytes `off .. off + n - 1` of a buffer (fewer when the buffer ends before). -/
def peek (buf : List Byte) (off n : Nat) : List Byte :=
  (buf.drop off).take n

/-- Overwrite the bytes of `buf` starting at `off` with `bs` (`memcpy` into a struct). -/
def poke (buf : List Byte) (off : Nat) (bs : List Byte) : List Byte :=
  buf.take off ++ bs ++ buf.drop (off + bs.length)

/-! ## The declarations of `data.h` -/

/-- What `data.h` declares and `data.c` uses: `sizeof(data_header_t)`,
`sizeof(data_entry_header_t)` (the flexible member `id` starts there, the
struct being packed), the offsets of the five fixed fields of an entry header
(`uint8_t idlength`, `uint32_t datalength`, `size_t previous`,
`uint32_t integrity`, `uint8_t flags`), the bytes of a segment header for a
creation time and a file id, and `DATA_MAXSIZE`. -/
structure Layout where
  sizeof_data_header_t : Nat
  sizeof_data_entry_header_t : Nat
  off_idlength : Nat
  off_datalength : Nat
  off_previous : Nat
  off_integrity : Nat
  off_flags : Nat
  data_header : Nat → Nat → List Byte
  DATA_MAXSIZE : Nat

/-- Two byte ranges `[a, a + n)` and `[b, b + m)` do not meet. -/
def disjoint (a n b m : Nat) : Prop := a + n ≤ b ∨ b + m ≤ a

instance (a n b m : Nat) : Decidable (disjoint a n b m) := by
  unfold disjoint; exact inferInstance

/-- A layout a C compiler can produce: the five fields lie inside the fixed
part of the entry header and do not overlap, the segment header starts with
the four magic bytes and `data_header` yields exactly `sizeof(data_header_t)`
bytes. -/
structure Layout.wf (L : Layout) : Prop where
  idlength_in : L.off_idlength + 1 ≤ L.sizeof_data_entry_header_t
  datalength_in : L.off_datalength + 4 ≤ L.sizeof_data_entry_header_t
  previous_in : L.off_previous + 8 ≤ L.sizeof_data_entry_header_t
  integrity_in : L.off_integrity + 4 ≤ L.sizeof_data_entry_header_t
  flags_in : L.off_flags + 1 ≤ L.sizeof_data_entry_header_t
  id_dl : disjoint L.off_idlength 1 L.off_datalength 4
  id_pr : disjoint L.off_idlength 1 L.off_previous 8
  id_in : disjoint L.off_idlength 1 L.off_integrity 4
  id_fl : disjoint L.off_idlength 1 L.off_flags 1
  dl_pr : disjoint L.off_datalength 4 L.off_previous 8
  dl_in : disjoint L.off_datalength 4 L.off_integrity 4
  dl_fl : disjoint L.off_datalength 4 L.off_flags 1
  pr_in : disjoint L.off_previous 8 L.off_integrity 4
  pr_fl : disjoint L.off_previous 8 L.off_flags 1
  in_fl : disjoint L.off_integrity 4 L.off_flags 1
  magic_in : 4 ≤ L.sizeof_data_header_t
  header_len : ∀ created fileid, (L.data_header created fileid).length = L.sizeof_data_header_t

/-- Modelled from the spec: the flag bit `DATA_ENTRY_DELETED` of `data.h`
(not among the sources); the spec gives "bit 0 = deleted". -/
def DATA_ENTRY_DELETED : Nat := 1

/-- Modelled from the spec: the segment file format of section 6, whose
declaration `data.h` is not among the sources.  `SegmentHeader (11 bytes)`;
`EntryHeader (minimum 19 bytes + idlength)` with the fields, in this order,
`idlength` 1 byte, `datalength` 4, `previous` 8, `integrity` 4, `flags` 1,
so that the last of the 19 bytes carries no field; `DATA_MAXSIZE` 8 MiB.
The 11 header bytes are the magic, the version, the creation time and the
file id (the `opened` field, always 0, finds no room in 11 bytes). -/
def specLayout : Layout where
  sizeof_data_header_t := 11
  sizeof_data_entry_header_t := 19
  off_idlength := 0
  off_datalength := 1
  off_previous := 5
  off_integrity := 13
  off_flags := 17
  data_header := fun created fileid =>
    [68, 65, 84, 48] ++ toLE 1 1 ++ toLE 4 created ++ toLE 2 fileid
  DATA_MAXSIZE := 8 * 1024 * 1024

/-! ### Entry headers as raw bytes

A `data_entry_header_t` value is kept as the `sizeof(data_entry_header_t)`
bytes of the struct, so that reading a header from a file and writing it back
moves every byte, whether a field covers it or not. -/

/-- Field `idlength` of a header value (and likewise the four other fields). -/
def hdr_idlength (L : Layout) (h : List Byte) : Nat := ofLE (peek h L.off_idlength 1)
def hdr_datalength (L : Layout) (h : List Byte) : Nat := ofLE (peek h L.off_datalength 4)
def hdr_previous (L : Layout) (h : List Byte) : Nat := ofLE (peek h L.off_previous 8)
def hdr_integrity (L : Layout) (h : List Byte) : Nat := ofLE (peek h L.off_integrity 4)
def hdr_flags (L : Layout) (h : List Byte) : Nat := ofLE (peek h L.off_flags 1)

/-- Assignment to the field `idlength` (and likewise the four other fields). -/
def set_idlength (L : Layout) (h : List Byte) (v : Nat) : List Byte := poke h L.off_idlength (toLE 1 v)
def set_datalength (L : Layout) (h : List Byte) (v : Nat) : List Byte := poke h L.off_datalength (toLE 4 v)
def set_previous (L : Layout) (h : List Byte) (v : Nat) : List Byte := poke h L.off_previous (toLE 8 v)
def set_integrity (L : Layout) (h : List Byte) (v : Nat) : List Byte := poke h L.off_integrity (toLE 4 v)
def set_flags (L : Layout) (h : List Byte) (v : Nat) : List Byte := poke h L.off_flags (toLE 1 v)

/-! ## The CRC32C instructions and `data_crc32` -/

/-- One bit of the reflected CRC-32C (Castagnoli, 0x82F63B78) division. -/
def crc_shift (c : Nat) : Nat :=
  if c % 2 = 1 then (c / 2) ^^^ 0x82F63B78 else c / 2

/-- That division step, `n` times. -/
def crc_bits : Nat → Nat → Nat
  | 0, c => c
  | n + 1, c => crc_bits n (crc_shift c)

/-- The SSE4.2 instruction `crc32 r32, r/m8`. -/
def _mm_crc32_u8 (crc v : Nat) : Nat := crc_bits 8 (crc ^^^ v)

/-- The SSE4.2 instruction `crc32 r64, r/m64`. -/
def _mm_crc32_u64 (crc v : Nat) : Nat := crc_bits 64 (crc ^^^ v)

/-- First loop of `data_crc32`: `for(i = 0; i < length - 8; i += 8)`, on the
bytes not consumed yet (`i < length - 8` in signed arithmetic says that more
than 8 bytes remain).  Returns the hash and the bytes left for the second
loop.  The fuel is the number of bytes, each round consuming eight. -/
def data_crc32_words : Nat → Nat → List Byte → Nat × List Byte
  | 0, hash, bytes => (hash, bytes)
  | fuel + 1, hash, bytes =>
    if 8 < bytes.length then
      data_crc32_words fuel (_mm_crc32_u64 hash (ofLE (bytes.take 8)) % 2 ^ 32) (bytes.drop 8)
    else (hash, bytes)

/-- Function `data_crc32` of `data.c`: 8-byte words, then single bytes. -/
def data_crc32 (bytes : List Byte) : Nat :=
  let r := data_crc32_words bytes.length 0 bytes
  (r.2.foldl (fun hash b => _mm_crc32_u8 hash b.val) r.1) % 2 ^ 32

/-! ## Files, descriptors, system calls -/

/-- The bytes of a file. -/
abbrev File := List Byte

/-- The part of the machine `data.c` talks to: the segment files of the data
directory by file id (`zdb-data-%05u`), the clock read by `time(NULL)`, the
number of `fsync` calls made so far, and whether the file system is mounted
read-only. -/
structure World where
  files : Nat → Option File
  now : Nat
  fsyncs : Nat
  rofs : Bool

/-- An open file descriptor: the file it names, its offset, and its open
flags `O_APPEND` and `O_RDWR`. -/
structure Fd where
  file : Nat
  pos : Nat
  append : Bool
  writable : Bool
deriving DecidableEq, Repr

/-- The bytes of a segment file (none when it does not exist). -/
def World.content (w : World) (id : Nat) : File := (w.files id).getD []

/-- The size of a segment file. -/
def World.size (w : World) (id : Nat) : Nat := (w.content id).length

/-- The two values of `errno` the model tells apart. -/
inductive Errno
  | EROFS
  | ENOENT
deriving DecidableEq, Repr

/-- System call `open(path, flags, 0600)` on the segment file `id`. -/
def sys_open (w : World) (id : Nat) (creat rdwr append : Bool) : Except Errno Fd × World :=
  if rdwr && w.rofs then (.error .EROFS, w)
  else match w.files id with
    | some _ => (.ok ⟨id, 0, append, rdwr⟩, w)
    | none =>
      if creat then
        (.ok ⟨id, 0, append, rdwr⟩, { w with files := Function.update w.files id (some []) })
      else (.error .ENOENT, w)

/-- System call `lseek(fd, off, SEEK_SET)`: the new offset and the descriptor. -/
def sys_lseek_set (fd : Fd) (off : Nat) : Nat × Fd := (off, { fd with pos := off })

/-- System call `lseek(fd, off, SEEK_CUR)`. -/
def sys_lseek_cur (fd : Fd) (off : Nat) : Nat × Fd := (fd.pos + off, { fd with pos := fd.pos + off })

/-- System call `lseek(fd, off, SEEK_END)`. -/
def sys_lseek_end (w : World) (fd : Fd) (off : Nat) : Nat × Fd :=
  (w.size fd.file + off, { fd with pos := w.size fd.file + off })

/-- System call `read(fd, buf, n)` on a regular file: the bytes from the
offset of the descriptor, as many as there are up to `n`. -/
def sys_read (w : World) (fd : Fd) (n : Nat) : List Byte × Fd :=
  let bs := peek (w.content fd.file) fd.pos n
  (bs, { fd with pos := fd.pos + bs.length })

/-- What the kernel does with one `write`: it fails, or accepts at most `n`
bytes of the buffer. -/
inductive WriteOutcome
  | error
  | upto (n : Nat)
deriving DecidableEq, Repr

/-- The largest file offset (`off_t` is a signed 64-bit integer). -/
def OFF_MAX : Nat := 2 ^ 63 - 1

/-- The file after `bs` was written at offset `pos` (a gap past the end reads as zeros). -/
def file_pwrite (file : File) (pos : Nat) (bs : List Byte) : File :=
  if bs = [] then file
  else file.take pos ++ List.replicate (pos - file.length) 0 ++ bs ++ file.drop (pos + bs.length)

/-- System call `write(fd, buf, length)`: returns the number of bytes written
or -1 (`EBADF` on a read-only descriptor, `EFBIG` past the largest offset,
or the error the outcome dictates). -/
def sys_write (w : World) (fd : Fd) (buf : List Byte) (out : WriteOutcome) : Int × Fd × World :=
  match out with
  | .error => (-1, fd, w)
  | .upto n =>
    if fd.writable = false then (-1, fd, w)
    else
      let file := w.content fd.file
      let pos := if fd.append then file.length else fd.pos
      let bs := buf.take n
      if OFF_MAX < pos + bs.length then (-1, fd, w)
      else
        ((bs.length : Int), { fd with pos := pos + bs.length },
          { w with files := Function.update w.files fd.file (some (file_pwrite file pos bs)) })

/-- System call `fsync(fd)`, counted. -/
def sys_fsync (w : World) : World := { w with fsyncs := w.fsyncs + 1 }

/-! ## `data.c` -/

/-- The struct `data_root_t`: the directory is the world, `datafile` is the
file id the path buffer names. -/
structure data_root_t where
  datafile : Nat
  dataid : Nat
  datafd : Fd
  previous : Nat
  sync : Bool
  synctime : Nat
  lastsync : Nat
deriving DecidableEq, Repr

/-- The struct `data_payload_t`; `buffer = none` is the NULL buffer. -/
structure data_payload_t where
  buffer : Option (List Byte)
  length : Nat
deriving DecidableEq, Repr

/-- Function `data_sync`. -/
def data_sync (root : data_root_t) (w : World) : Int × data_root_t × World :=
  let w1 := sys_fsync w
  (1, { root with lastsync := w1.now }, w1)

/-- Function `data_sync_check`. -/
def data_sync_check (root : data_root_t) (w : World) : Int × data_root_t × World :=
  if root.sync then data_sync root w
  else if root.synctime = 0 then (0, root, w)
  else if ((w.now : Int) - (root.lastsync : Int)) > (root.synctime : Int) then data_sync root w
  else (0, root, w)

/-- Function `data_write`: returns 1 when the whole buffer was written. -/
def data_write (w : World) (fd : Fd) (buffer : List Byte) (syncer : Bool) (root : data_root_t)
    (out : WriteOutcome) : Int × Fd × data_root_t × World :=
  let (response, fd1, w1) := sys_write w fd buffer out
  if response < 0 then (0, fd1, root, w1)
  else if response ≠ (buffer.length : Int) then (0, fd1, root, w1)
  else if syncer then
    let (_, root1, w2) := data_sync_check root w1
    (1, fd1, root1, w2)
  else (1, fd1, root, w1)

/-- Function `data_open_id_mode` with `O_RDONLY` (`data_open_id`) or `O_RDWR`
(`data_get_dataid_rw`); `none` is the return value -1. -/
def data_open_id_mode (w : World) (id : Nat) (rdwr : Bool) : Option Fd × World :=
  match sys_open w id false rdwr false with
  | (.ok fd, w1) => (some fd, w1)
  | (.error _, w1) => (none, w1)

/-- Function `data_open_id`. -/
def data_open_id (w : World) (id : Nat) : Option Fd × World := data_open_id_mode w id false

/-- Function `data_get_dataid_rw`. -/
def data_get_dataid_rw (w : World) (id : Nat) : Option Fd × World := data_open_id_mode w id true

/-- Function `data_grab_dataid`: the descriptor of the root for the current
segment, a fresh read-only one for another segment. -/
def data_grab_dataid (root : data_root_t) (w : World) (dataid : Nat) : Option Fd × World :=
  if root.dataid ≠ dataid then data_open_id w dataid
  else (some root.datafd, w)

/-- Function `data_release_dataid`: a temporary descriptor is closed; the
descriptor of the root stays open, at the offset the caller left it. -/
def data_release_dataid (root : data_root_t) (dataid : Nat) (fd : Fd) : data_root_t :=
  if root.dataid ≠ dataid then root
  else { root with datafd := fd }

/-- Function `data_initialize`; `none` is the exit through `diep`. -/
def data_initialize (L : Layout) (filename : Nat) (root : data_root_t) (w : World)
    (out : WriteOutcome) : Option (data_root_t × World) :=
  match sys_open w filename true true false with
  | (.error e, w1) => if e = .EROFS then some (root, w1) else none
  | (.ok fd, w1) =>
    let header := L.data_header w1.now root.dataid
    let (ok, _, root1, w2) := data_write w1 fd header true root out
    if ok = 0 then none else some (root1, w2)

/-- Function `data_set_id`. -/
def data_set_id (root : data_root_t) : data_root_t := { root with datafile := root.dataid }

/-- The loop of `data_open_final`, one round per entry header read whole. -/
def data_open_final_loop (L : Layout) (w : World) : Nat → data_root_t → data_root_t
  | 0, root => root
  | fuel + 1, root =>
    let (header, fd1) := sys_read w root.datafd L.sizeof_data_entry_header_t
    if header.length = L.sizeof_data_entry_header_t then
      let (cur, fd2) := sys_lseek_cur fd1 0
      let previous := (cur + 2 ^ 64 - L.sizeof_data_header_t) % 2 ^ 64
      let (_, fd3) := sys_lseek_cur fd2 ((hdr_datalength L header + hdr_idlength L header) % 2 ^ 32)
      data_open_final_loop L w fuel { root with previous := previous, datafd := fd3 }
    else { root with datafd := fd1 }

/-- Function `data_open_final`; `none` is the exit through `diep`.  The loop
gets one round more than the file has bytes. -/
def data_open_final (L : Layout) (root : data_root_t) (w : World) : Option (data_root_t × World) :=
  let opened : Option (Fd × World) :=
    match sys_open w root.datafile true true true with
    | (.ok fd, w1) => some (fd, w1)
    | (.error e, w1) =>
      if e ≠ .EROFS then none
      else match sys_open w1 root.datafile false false false with
        | (.ok fd, w2) => some (fd, w2)
        | (.error _, _) => none
  match opened with
  | none => none
  | some (fd, w1) =>
    let (previous, fd1) := sys_lseek_set fd L.sizeof_data_header_t
    let root1 := { root with datafd := fd1, previous := previous }
    some (data_open_final_loop L w1 (w1.size fd.file + 1) root1, w1)

/-- Function `data_jump_next`. -/
def data_jump_next (L : Layout) (root : data_root_t) (w : World) (newid : Nat)
    (out : WriteOutcome) : Option (Nat × data_root_t × World) :=
  let root1 := data_set_id { root with dataid := newid }
  match data_initialize L root1.datafile root1 w out with
  | none => none
  | some (root2, w1) =>
    match data_open_final L root2 w1 with
    | none => none
    | some (root3, w2) => some (root3.dataid, root3, w2)

/-- Function `data_length_from_offset`. -/
def data_length_from_offset (L : Layout) (w : World) (fd : Fd) (offset : Nat) : Nat × Fd :=
  let (_, fd1) := sys_lseek_set fd offset
  let (header, fd2) := sys_read w fd1 L.sizeof_data_entry_header_t
  if header.length ≠ L.sizeof_data_entry_header_t then (0, fd2)
  else (hdr_datalength L header, fd2)

/-- Function `data_get_real`. -/
def data_get_real (L : Layout) (w : World) (fd : Fd) (offset length idlength : Nat) :
    data_payload_t × Fd :=
  let go (fd : Fd) (length : Nat) : data_payload_t × Fd :=
    let (_, fd1) := sys_lseek_set fd (offset + L.sizeof_data_entry_header_t + idlength)
    let (buffer, fd2) := sys_read w fd1 length
    if buffer.length ≠ length then (⟨none, length⟩, fd2)
    else (⟨some buffer, length⟩, fd2)
  if length = 0 then
    let (length1, fd1) := data_length_from_offset L w fd offset
    if length1 = 0 then (⟨none, 0⟩, fd1)
    else go fd1 length1
  else go fd length

/-- Function `data_get`. -/
def data_get (L : Layout) (root : data_root_t) (w : World) (offset length dataid idlength : Nat) :
    data_payload_t × data_root_t × World :=
  match data_grab_dataid root w dataid with
  | (none, w1) => (⟨none, 0⟩, root, w1)
  | (some fd, w1) =>
    let (payload, fd1) := data_get_real L w1 fd offset length idlength
    (payload, data_release_dataid root dataid fd1, w1)

/-- Function `data_check_real`: 1 when the CRC of the payload read back is
the one of the header, 0 when it is not, -1 when a read comes short. -/
def data_check_real (L : Layout) (w : World) (fd : Fd) (offset : Nat) : Int × Fd :=
  let (_, fd1) := sys_lseek_set fd offset
  let (header, fd2) := sys_read w fd1 L.sizeof_data_entry_header_t
  if header.length ≠ L.sizeof_data_entry_header_t then (-1, fd2)
  else
    let (_, fd3) := sys_lseek_cur fd2 (hdr_idlength L header)
    let (buffer, fd4) := sys_read w fd3 (hdr_datalength L header)
    if buffer.length ≠ hdr_datalength L header then (-1, fd4)
    else
      let integrity := data_crc32 buffer
      (if integrity = hdr_integrity L header then 1 else 0, fd4)

/-- Function `data_check`. -/
def data_check (L : Layout) (root : data_root_t) (w : World) (offset dataid : Nat) :
    Int × data_root_t × World :=
  match data_grab_dataid root w dataid with
  | (none, w1) => (-1, root, w1)
  | (some fd, w1) =>
    let (value, fd1) := data_check_real L w1 fd offset
    (value, data_release_dataid root dataid fd1, w1)

/-- The header `data_insert` fills in its malloc'ed buffer: the five
assignments to the fields, in the order of the source (the bytes no field
covers are taken to be zero). -/
def data_insert_header (L : Layout) (idlength datalength previous integrity : Nat) : List Byte :=
  let header := List.replicate L.sizeof_data_entry_header_t (0 : Byte)
  let header := set_idlength L header idlength
  let header := set_datalength L header datalength
  let header := set_previous L header previous
  let header := set_integrity L header integrity
  set_flags L header 0

/-- Function `data_insert`: the key `id` and the payload `data` carry their
lengths (`idlength` is a `uint8_t`, `datalength` a `uint32_t`); the two
outcomes are those of the header write and of the payload write.  The buffer
of the first write is the header followed by the key (`memcpy` to
`header->id`). -/
def data_insert (L : Layout) (root : data_root_t) (w : World) (data id : List Byte)
    (out1 out2 : WriteOutcome) : Nat × data_root_t × World :=
  let (offset, fd0) := sys_lseek_end w root.datafd 0
  let header := data_insert_header L id.length data.length root.previous (data_crc32 data) ++ id
  let (ok1, fd1, root1, w1) := data_write w fd0 header false { root with datafd := fd0 } out1
  if ok1 = 0 then (0, { root1 with datafd := fd1 }, w1)
  else
    let (ok2, fd2, root2, w2) := data_write w1 fd1 data true { root1 with datafd := fd1 } out2
    if ok2 = 0 then (0, { root2 with datafd := fd2 }, w2)
    else (offset, { root2 with datafd := fd2, previous := offset }, w2)

/-- Function `data_next_offset`. -/
def data_next_offset (root : data_root_t) (w : World) : Nat × data_root_t :=
  let (offset, fd) := sys_lseek_end w root.datafd 0
  (offset, { root with datafd := fd })

/-- Function `data_match_real`: the data length of the header when the entry
at `offset` has the key `id`, 0 otherwise. -/
def data_match_real (L : Layout) (w : World) (fd : Fd) (id : List Byte) (offset : Nat) : Nat × Fd :=
  let (_, fd1) := sys_lseek_set fd offset
  let (header, fd2) := sys_read w fd1 L.sizeof_data_entry_header_t
  if header.length ≠ L.sizeof_data_entry_header_t then (0, fd2)
  else if hdr_idlength L header ≠ id.length then (0, fd2)
  else if hdr_flags L header &&& DATA_ENTRY_DELETED ≠ 0 then (0, fd2)
  else if hdr_datalength L header > L.DATA_MAXSIZE then (0, fd2)
  else
    let (keycheck, fd3) := sys_read w fd2 id.length
    if keycheck.length ≠ id.length then (0, fd3)
    else if keycheck ≠ id then (0, fd3)
    else (hdr_datalength L header, fd3)

/-- Function `data_match`. -/
def data_match (L : Layout) (root : data_root_t) (w : World) (id : List Byte) (offset dataid : Nat) :
    Nat × data_root_t × World :=
  match data_grab_dataid root w dataid with
  | (none, w1) => (0, root, w1)
  | (some fd, w1) =>
    let (length, fd1) := data_match_real L w1 fd id offset
    (length, data_release_dataid root dataid fd1, w1)

/-- Function `data_delete_real`. -/
def data_delete_real (L : Layout) (w : World) (fd : Fd) (offset : Nat) (out : WriteOutcome) :
    Int × Fd × World :=
  let (_, fd1) := sys_lseek_set fd offset
  let (header, fd2) := sys_read w fd1 L.sizeof_data_entry_header_t
  if header.length ≠ L.sizeof_data_entry_header_t then (0, fd2, w)
  else
    let header := set_flags L header (hdr_flags L header ||| DATA_ENTRY_DELETED)
    let (_, fd3) := sys_lseek_set fd2 offset
    let (response, fd4, w1) := sys_write w fd3 header out
    if response ≠ (L.sizeof_data_entry_header_t : Int) then (0, fd4, w1)
    else (1, fd4, w1)

/-- Function `data_delete`. -/
def data_delete (L : Layout) (root : data_root_t) (w : World) (offset dataid : Nat)
    (out : WriteOutcome) : Int × data_root_t × World :=
  match data_get_dataid_rw w dataid with
  | (none, w1) => (0, root, w1)
  | (some fd, w1) =>
    let (value, _, w2) := data_delete_real L w1 fd offset out
    (value, root, w2)

/-- The argument `settings` of `data_init`. -/
structure settings_t where
  sync : Bool
  synctime : Nat

/-- Function `data_init`; `none` is the exit through `diep`. -/
def data_init (L : Layout) (settings : settings_t) (w : World) (dataid : Nat)
    (out : WriteOutcome) : Option (data_root_t × World) :=
  let root : data_root_t :=
    { datafile := 0, dataid := dataid, datafd := ⟨0, 0, false, false⟩, previous := 0,
      sync := settings.sync, synctime := settings.synctime, lastsync := 0 }
  let root := data_set_id root
  match data_initialize L root.datafile root w out with
  | none => none
  | some (root1, w1) => data_open_final L root1 w1

/-! ## Vocabulary of the statements -/

/-- The outcome lets a write of `len` bytes go through whole. -/
def WriteOutcome.complete : WriteOutcome → Nat → Bool
  | .error, _ => false
  | .upto n, len => decide (len ≤ n)

/-- The file `c` holds at offset `o` the header bytes `hdr`, then the key
`id`, then the payload `data`. -/
def EntryAt (L : Layout) (c : File) (o : Nat) (hdr id data : List Byte) : Prop :=
  hdr.length = L.sizeof_data_entry_header_t ∧
    ∃ pre post, c = pre ++ hdr ++ id ++ data ++ post ∧ pre.length = o

/-- An empty data directory on a writable file system, the clock at 100. -/
def emptyWorld : World := { files := fun _ => none, now := 100, fsyncs := 0, rofs := false }

/-- The root `data_init` returns for segment 0 of the empty directory (spec
layout, no sync): the descriptor is in append mode, past the header. -/
def freshRoot : data_root_t :=
  { datafile := 0, dataid := 0, datafd := ⟨0, 11, true, true⟩, previous := 11,
    sync := false, synctime := 0, lastsync := 0 }

/-- The directory `data_init` leaves: segment 0 holds its 11 header bytes. -/
def freshWorld : World :=
  { files := Function.update (fun _ => none) 0 (some (specLayout.data_header 100 0)),
    now := 100, fsyncs := 0, rofs := false }

/-- The key "hello". -/
def helloKey : List Byte := [104, 101, 108, 108, 111]

/-- The payload "world". -/
def worldData : List Byte := [119, 111, 114, 108, 100]

/-- A payload one byte longer than the 8 MiB of `DATA_MAXSIZE`. -/
@[irreducible] def bigData : List Byte := List.replicate (8 * 1024 * 1024 + 1) 0

/-- The state after "hello"/"world" was inserted into the fresh segment. -/
def helloInserted : Nat × data_root_t × World :=
  data_insert specLayout freshRoot freshWorld worldData helloKey (.upto 24) (.upto 5)

/-- The state after the entry at offset 11 was then deleted. -/
def helloDeleted : Int × data_root_t × World :=
  data_delete specLayout helloInserted.2.1 helloInserted.2.2 11 0 (.upto 19)

/-! ## Histories of calls -/

/-- The root and the world between two calls. -/
abbrev State := data_root_t × World

/-- One call of the data log by its owner, or the clock moving on. -/
inductive Op
  | insert (data id : List Byte) (out1 out2 : WriteOutcome)
  | get (offset length dataid idlength : Nat)
  | check (offset dataid : Nat)
  | lookup (id : List Byte) (offset dataid : Nat)
  | delete (offset dataid : Nat) (out : WriteOutcome)
  | jump (newid : Nat) (out : WriteOutcome)
  | tick (seconds : Nat)

/-- The state after one call, and for a `data_insert` that did not return 0
the segment it wrote to and the offset it returned; `none` when the process
exits through `diep`. -/
def step (L : Layout) (st : State) : Op → Option (State × Option (Nat × Nat))
  | .insert data id out1 out2 =>
    let r := data_insert L st.1 st.2 data id out1 out2
    some (r.2, if r.1 = 0 then none else some (st.1.dataid, r.1))
  | .get offset length dataid idlength =>
    some ((data_get L st.1 st.2 offset length dataid idlength).2, none)
  | .check offset dataid => some ((data_check L st.1 st.2 offset dataid).2, none)
  | .lookup id offset dataid => some ((data_match L st.1 st.2 id offset dataid).2, none)
  | .delete offset dataid out => some ((data_delete L st.1 st.2 offset dataid out).2, none)
  | .jump newid out =>
    match data_jump_next L st.1 st.2 newid out with
    | none => none
    | some r => some (r.2, none)
  | .tick seconds => some ((st.1, { st.2 with now := st.2.now + seconds }), none)

/-- A history of calls: the final state and, oldest first, the segment and
offset of every `data_insert` that did not return 0. -/
def run (L : Layout) : List Op → State → Option (State × List (Nat × Nat))
  | [], st => some (st, [])
  | op :: ops, st =>
    match step L st op with
    | none => none
    | some (st1, r) =>
      match run L ops st1 with
      | none => none
      | some (st2, log) => some (st2, r.toList ++ log)

/-- A state the log never leaves: the descriptor of the root names the
current segment, and on a writable file system it is open for writing and
the segment holds at least its header. -/
def Inv (L : Layout) (st : State) : Prop :=
  st.1.datafd.file = st.1.dataid ∧
  (st.2.rofs = false → st.1.datafd.writable = true ∧
    L.sizeof_data_header_t ≤ st.2.size st.1.dataid)

/-- One state follows another through calls that keep the current segment. -/
def Same (st st1 : State) : Prop :=
  (∃ pos prev ls, st1.1 = { st.1 with datafd := { st.1.datafd with pos := pos },
                                      previous := prev, lastsync := ls }) ∧
  st1.2.rofs = st.2.rofs ∧ ∀ i, st.2.size i ≤ st1.2.size i

/-- The walk of the back-pointer chain: from offset `o`, read the entry
header there, stop at `sizeof(data_header_t)` (the first entry), otherwise go
on at the `previous` field of the header.  Yields the offsets visited, most
recent first; `fuel` bounds the number of headers read. -/
def chain (L : Layout) (file : File) : Nat → Nat → List Nat
  | 0, _ => []
  | fuel + 1, o =>
    let header := peek file o L.sizeof_data_entry_header_t
    if header.length ≠ L.sizeof_data_entry_header_t then []
    else if o = L.sizeof_data_header_t then [o]
    else o :: chain L file fuel (hdr_previous L header)

/-- Calls of `data_insert` one after the other, each with its payload, key
and write outcomes: the final state and the offsets returned, oldest first;
`none` as soon as one of them returns 0. -/
def insert_all (L : Layout) :
    List (List Byte × List Byte × WriteOutcome × WriteOutcome) → State → Option (State × List Nat)
  | [], st => some (st, [])
  | (data, id, out1, out2) :: rest, st =>
    let r := data_insert L st.1 st.2 data id out1 out2
    if r.1 = 0 then none
    else
      match insert_all L rest r.2 with
      | none => none
      | some (st1, offs) => some (st1, r.1 :: offs)

/-- The link the back pointers make between an entry at `b` and the entry
before it at `a`, in a file: `a` is below `b`, the header at `b` lies in the
file and its `previous` field is `a`. -/
def Linked (L : Layout) (file : File) (b a : Nat) : Prop :=
  a < b ∧ b + L.sizeof_data_entry_header_t ≤ file.length ∧
    hdr_previous L (peek file b L.sizeof_data_entry_header_t) = a

/-- What the inserts into a fresh segment keep true, for the offsets `l`
returned so far, most recent first: `previous` is the most recent offset (or
`sizeof(data_header_t)` before the first insert), consecutive entries are
linked, every entry header lies in the file at or after the segment header,
the oldest entry is at `sizeof(data_header_t)` and stores that value, and the
file, which is only its header before the first insert, stays below the
largest offset. -/
def ChainInv (L : Layout) (st : State) (l : List Nat) : Prop :=
  st.1.previous = (l.head?).getD L.sizeof_data_header_t ∧
  List.Chain' (Linked L (st.2.content st.1.dataid)) l ∧
  (∀ o ∈ l, L.sizeof_data_header_t ≤ o ∧
    o + L.sizeof_data_entry_header_t ≤ (st.2.content st.1.dataid).length) ∧
  (∀ o1 ∈ l.getLast?, o1 = L.sizeof_data_header_t ∧
    hdr_previous L (peek (st.2.content st.1.dataid) o1 L.sizeof_data_entry_header_t)
      = L.sizeof_data_header_t) ∧
  L.sizeof_data_header_t ≤ (st.2.content st.1.dataid).length ∧
  (st.2.content st.1.dataid).length ≤ OFF_MAX ∧
  (l = [] → (st.2.content st.1.dataid).length = L.sizeof_data_header_t)

/-- Two inserts into the fresh segment: "hello"/"world", then "world"/"hello". -/
def twoItems : List (List Byte × List Byte × WriteOutcome × WriteOutcome) :=
  [(worldData, helloKey, .upto 24, .upto 5), (helloKey, worldData, .upto 24, .upto 5)]

/-- The state after the second of the two inserts. -/
def twoInserted : Nat × data_root_t × World :=
  data_insert specLayout helloInserted.2.1 helloInserted.2.2 helloKey worldData (.upto 24) (.upto 5)

/-- The sync policy of `data_sync_check` asks for an `fsync`: the root is in
sync-always mode, or its period is not zero and more than the period has
passed on the clock since `lastsync`. -/
def sync_due (root : data_root_t) (w : World) : Prop :=
  root.sync = true ∨
    (root.synctime ≠ 0 ∧ ((w.now : Int) - (root.lastsync : Int)) > (root.synctime : Int))

instance (root : data_root_t) (w : World) : Decidable (sync_due root w) := by
  unfold sync_due; exact inferInstance

/-- The clock of the world set to `t`. -/
def World.at (w : World) (t : Nat) : World := { w with now := t }

/-- The fresh root in sync-always mode. -/
def syncRoot : data_root_t := { freshRoot with sync := true }

/-- The state after "hello"/"world" was inserted in sync-always mode. -/
def syncInserted : Nat × data_root_t × World :=
  data_insert specLayout syncRoot freshWorld worldData helloKey (.upto 24) (.upto 5)

/-- The segment 0 of `helloInserted` opened again by `data_init` when the
clock shows 200. -/
def helloReopened : Option (data_root_t × World) :=
  data_init specLayout ⟨false, 0⟩ (helloInserted.2.2.at 200) 0 (.upto 11)

/-- The rollover of `helloInserted` to segment 1, which does not exist. -/
def helloJumped : Option (Nat × data_root_t × World) :=
  data_jump_next specLayout helloInserted.2.1 helloInserted.2.2 1 (.upto 11)

/-! ## `branches.c` -/

/-- Modelled from the spec: the struct `index_entry_t`, declared in `index.h`,
which is not among the sources, with the fields `branches.c` reads and
writes; `ns` is the field `namespace` (an opaque pointer, compared by
address), `next` is the link, `none` the NULL pointer. -/
structure index_entry_t where
  ns : Nat
  idlength : Nat
  id : List Byte
  next : Option Nat
deriving DecidableEq, Repr

/-- The memory of the entries: an `index_entry_t *` that is not NULL is an
address of this memory. -/
abbrev Heap := Nat → index_entry_t

/-- Modelled from the spec: the struct `index_branch_t`, declared in
`index_branch.h`, which is not among the sources, with the three fields
`branches.c` uses; the counter `length` is a natural number, whatever its
width. -/
structure index_branch_t where
  length : Nat
  list : Option Nat
  last : Option Nat
deriving DecidableEq, Repr

/-- The array `index_branch_t **`: each slot is NULL or the bucket it owns.
A pointer to a bucket is the slot that holds it; the array is not bounds
checked, in C as here. -/
abbrev Branches := Nat → Option index_branch_t

/-- Modelled from the spec: the struct `index_root_t`, declared in `index.h`,
which is not among the sources, with the two fields `index_entry_get` reads;
`branches = none` is the NULL array. -/
structure index_root_t where
  branches : Option Branches
  ns : Nat

/-- The two globals of `branches.c`. -/
structure Buckets where
  buckets_branches : Nat
  buckets_mask : Nat
deriving DecidableEq, Repr

/-- The initial values of the globals: `(1 << 24)` and `(1 << 24) - 1`. -/
def Buckets.default : Buckets := ⟨2 ^ 24, 2 ^ 24 - 1⟩

/-- The value of type `int` (32 bits, two's complement) that a value wraps to. -/
def wrap_int (v : Int) : Int := (v + 2 ^ 31) % 2 ^ 32 - 2 ^ 31

/-- Function `index_set_buckets_bits`: the value returned (an `int`) and the
globals.  `1 << bits` is computed in `int`: for `bits = 31` the result
follows two's complement, as the compilers of the project produce it; a
shift by 32 or more has no value, and the result is `none`. -/
def index_set_buckets_bits (bits : Nat) : Option (Int × Buckets) :=
  if 32 ≤ bits then none
  else
    let shifted : Int := wrap_int (2 ^ bits)
    let buckets_branches : Nat := (shifted % 2 ^ 32).toNat
    let buckets_mask : Nat := (wrap_int (shifted - 1) % 2 ^ 32).toNat
    some (wrap_int (buckets_branches : Int), ⟨buckets_branches, buckets_mask⟩)

/-- First loop of `index_key_hash`: `for(i = 0; i < idlength - 8; i += 8)`, on
the bytes not consumed yet.  The fuel is the number of bytes. -/
def index_key_hash_words : Nat → Nat → List Byte → Nat × List Byte
  | 0, hash, id => (hash, id)
  | fuel + 1, hash, id =>
    if 8 < id.length then
      index_key_hash_words fuel (_mm_crc32_u64 hash (ofLE (id.take 8)) % 2 ^ 32) (id.drop 8)
    else (hash, id)

/-- Function `index_key_hash`; the key is its `idlength` bytes. -/
def index_key_hash (B : Buckets) (id : List Byte) : Nat :=
  let r := index_key_hash_words id.length 0 id
  let hash := (r.2.foldl (fun hash b => _mm_crc32_u8 hash b.val) r.1) % 2 ^ 32
  hash &&& B.buckets_mask

/-- Function `index_buckets_init`: `calloc` gives an array of NULL slots. -/
def index_buckets_init : Branches := fun _ => none

/-- Function `index_branch_init`: the bucket and the array. -/
def index_branch_init (branches : Branches) (branchid : Nat) : index_branch_t × Branches :=
  let branch : index_branch_t := { length := 0, list := none, last := none }
  (branch, Function.update branches branchid (some branch))

/-- Function `index_branch_get`. -/
def index_branch_get (branches : Option Branches) (branchid : Nat) : Option index_branch_t :=
  match branches with
  | none => none
  | some bs => bs branchid

/-- Function `index_branch_get_allocate`. -/
def index_branch_get_allocate (branches : Branches) (branchid : Nat) :
    index_branch_t × Branches :=
  match branches branchid with
  | none => index_branch_init branches branchid
  | some branch => (branch, branches)

/-- Function `index_branch_append`: the pointer returned, the array and the
memory of the entries.  The bucket is written through its pointer, so the
slot holds the result. -/
def index_branch_append (h : Heap) (branches : Option Branches) (branchid : Nat) (entry : Nat) :
    Option Nat × Option Branches × Heap :=
  match branches with
  | none => (none, none, h)
  | some bs =>
    let (branch, bs1) := index_branch_get_allocate bs branchid
    let branch := { branch with length := branch.length + 1 }
    let branch := if branch.list = none then { branch with list := some entry } else branch
    let h1 := match branch.last with
      | some last => Function.update h last { h last with next := some entry }
      | none => h
    let branch := { branch with last := some entry }
    let h2 := Function.update h1 entry { h1 entry with next := none }
    (some entry, some (Function.update bs1 branchid (some branch)), h2)

/-- Function `index_branch_remove`: the pointer returned, the bucket that
`branch` points to, and the memory of the entries. -/
def index_branch_remove (h : Heap) (branch : index_branch_t) (entry : Nat)
    (previous : Option Nat) : Nat × index_branch_t × Heap :=
  let branch := if branch.list = some entry then { branch with list := (h entry).next } else branch
  let h1 := match previous with
    | some p => Function.update h p { h p with next := (h entry).next }
    | none => h
  let branch := if branch.last = some entry then { branch with last := previous } else branch
  let branch := { branch with length := branch.length - 1 }
  (entry, branch, h1)

/-- The loop of `index_entry_get`, from the pointer `entry`; `memcmp` compares
the first `idlength` bytes.  The outer `none` says that the fuel ran out
before the end of the list. -/
def index_entry_get_loop (h : Heap) (ns : Nat) (id : List Byte) :
    Nat → Option Nat → Option (Option Nat)
  | _, none => some none
  | 0, some _ => none
  | fuel + 1, some entry =>
    if (h entry).idlength ≠ id.length then index_entry_get_loop h ns id fuel (h entry).next
    else if (h entry).ns ≠ ns then index_entry_get_loop h ns id fuel (h entry).next
    else if (h entry).id.take id.length = id then some (some entry)
    else index_entry_get_loop h ns id fuel (h entry).next

/-- Function `index_entry_get`; the key is its `idlength` bytes. -/
def index_entry_get (B : Buckets) (h : Heap) (root : index_root_t) (id : List Byte)
    (fuel : Nat) : Option (Option Nat) :=
  let branchkey := index_key_hash B id
  match index_branch_get root.branches branchkey with
  | none => some none
  | some branch => index_entry_get_loop h root.ns id fuel branch.list

/-! ## Vocabulary of the statements on the index -/

/-- The list that starts at the pointer `start` is `ptrs`, in order, and ends
with NULL. -/
def Chain (h : Heap) : Option Nat → List Nat → Prop
  | start, [] => start = none
  | start, p :: ps => start = some p ∧ Chain h (h p).next ps

instance decidableChain (h : Heap) : (s : Option Nat) → (ptrs : List Nat) → Decidable (Chain h s ptrs)
  | s, [] => inferInstanceAs (Decidable (s = none))
  | s, p :: ps =>
    @instDecidableAnd _ _ (inferInstanceAs (Decidable (s = some p)))
      (decidableChain h (h p).next ps)

/-- A well-formed bucket with the chain `ptrs`: `list` starts the chain,
`last` is its last node (NULL when it is empty) and `length` counts it. -/
def BranchOK (h : Heap) (b : index_branch_t) (ptrs : List Nat) : Prop :=
  Chain h b.list ptrs ∧ b.last = ptrs.getLast? ∧ b.length = ptrs.length

/-- The entry at `p` is the one `index_entry_get` looks for. -/
def entry_matches (h : Heap) (ns : Nat) (id : List Byte) (p : Nat) : Bool :=
  decide ((h p).idlength = id.length) && decide ((h p).ns = ns) &&
    decide ((h p).id.take id.length = id)

/-- A well-formed index: every allocated bucket is well formed with the chain
`chains i`, a slot that is NULL has no chain, and no node is in two chains. -/
def IndexOK (h : Heap) (bs : Branches) (chains : Nat → List Nat) : Prop :=
  (∀ i, match bs i with
    | some b => BranchOK h b (chains i)
    | none => chains i = []) ∧
  ∀ i j, i ≠ j → ∀ p, p ∈ chains i → p ∉ chains j

/-- The bucket at slot `branchid` after `index_branch_remove` wrote through
the pointer to it. -/
def index_remove_at (h : Heap) (bs : Branches) (branchid : Nat) (entry : Nat)
    (previous : Option Nat) : Branches × Heap :=
  match bs branchid with
  | none => (bs, h)
  | some b =>
    let r := index_branch_remove h b entry previous
    (Function.update bs branchid (some r.2.1), r.2.2)

/-- The states of the index reachable from the zero-initialised array by
appending entries that are in no chain and by removing an entry of a bucket
with its predecessor in the chain. -/
inductive IndexReach : Branches → Heap → Prop
  | init (h : Heap) : IndexReach index_buckets_init h
  | append (bs : Branches) (h : Heap) (branchid e : Nat) :
      IndexReach bs h →
      (∀ i b ptrs, bs i = some b → Chain h b.list ptrs → e ∉ ptrs) →
      IndexReach ((index_branch_append h (some bs) branchid e).2.1.getD bs)
        (index_branch_append h (some bs) branchid e).2.2
  | remove (bs : Branches) (h : Heap) (branchid e : Nat) (b : index_branch_t)
      (pre post : List Nat) :
      IndexReach bs h → bs branchid = some b → Chain h b.list (pre ++ e :: post) →
      IndexReach (index_remove_at h bs branchid e pre.getLast?).1
        (index_remove_at h bs branchid e pre.getLast?).2

/-- The entries at the pointers `es` appended in order, each to the bucket of
its key. -/
def append_all (B : Buckets) : List Nat → Option Branches × Heap → Option Branches × Heap
  | [], st => st
  | e :: es, st =>
    let r := index_branch_append st.2 st.1 (index_key_hash B (st.2 e).id) e
    append_all B es (r.2.1, r.2.2)

/-- The sum of the fields `length` of the buckets of the array. -/
def total_length (B : Buckets) (bs : Branches) : Nat :=
  ((List.range B.buckets_branches).map (fun i => match bs i with
    | some b => b.length
    | none => 0)).sum

/-- Three entries in memory: "hello" and "world" in the namespace 7, and
"hello" in the namespace 8. -/
def demoHeap : Heap := fun p =>
  match p with
  | 1 => { ns := 7, idlength := 5, id := helloKey, next := none }
  | 2 => { ns := 7, idlength := 5, id := worldData, next := none }
  | 3 => { ns := 8, idlength := 5, id := helloKey, next := none }
  | _ => { ns := 0, idlength := 0, id := [], next := none }

/-- The globals after `index_set_buckets_bits(1)`: two buckets. -/
def demoBuckets : Buckets := ⟨2, 1⟩

/-- The index after the entries at 3, 1 and 2 were appended in that order. -/
def demoIndex : Option Branches × Heap :=
  append_all demoBuckets [3, 1, 2] (some index_buckets_init, demoHeap)

/-- The memory after `index_branch_append` linked `e` behind `last`. -/
def append_heap (h : Heap) (last : Option Nat) (e : Nat) : Heap :=
  Function.update
    (match last with
      | some l => Function.update h l { h l with next := some e }
      | none => h)
    e { (match last with
      | some l => Function.update h l { h l with next := some e }
      | none => h) e with next := none }

/-- The memory after `index_branch_remove` linked `previous` to the successor
of `e`. -/
def unlink_heap (h : Heap) (previous : Option Nat) (e : Nat) : Heap :=
  match previous with
  | some q => Function.update h q { h q with next := (h e).next }
  | none => h

/-- The bucket of a slot, the empty bucket for a slot that is NULL. -/
def bucket_of (bs : Branches) (i : Nat) : index_branch_t :=
  (bs i).getD { length := 0, list := none, last := none }

/-- The entries of `es` whose key is hashed to the bucket `i`, in the order
of `es`. -/
def bucket_chain (B : Buckets) (h : Heap) (es : List Nat) (i : Nat) : List Nat :=
  es.filter (fun p => decide (index_key_hash B (h p).id = i))

/-! ## The CRC in the words of the spec -/

/-- One bit of the CRC-32C of the spec (Castagnoli polynomial, reflected):
the register moves one bit to the right, and the polynomial is added when
the bit that left was 1. -/
def crc32c_bit (crc : Nat) : Nat :=
  if crc &&& 1 = 1 then (crc >>> 1) ^^^ 0x82F63B78 else crc >>> 1

/-- The single-byte CRC32C step of the spec: the byte is added to the low
bits of the register, then eight bits are divided out. -/
def crc32c_byte (crc : Nat) (b : Byte) : Nat :=
  Nat.iterate crc32c_bit 8 (crc ^^^ b.val)

/-- The CRC of the spec: the single-byte step folded over all the bytes in
order, from the initial value 0. -/
def crc32c_bytewise (bytes : List Byte) : Nat :=
  bytes.foldl crc32c_byte 0

/-! ## States of the sync-timed scenario -/

/-- The root `data_init` returns for segment 0 of the empty directory with
sync off and a period of 1 second: the header write has synced at time 100. -/
def timedRoot : data_root_t := { freshRoot with synctime := 1, lastsync := 100 }

/-- The directory that `data_init` leaves then: one `fsync` was made. -/
def timedWorld : World := { freshWorld with fsyncs := 1 }

/-- The first insert of the scenario. -/
def timedFirst : Nat × data_root_t × World :=
  data_insert specLayout timedRoot timedWorld worldData helloKey (.upto 24) (.upto 5)

/-- The second insert of the scenario, 2 seconds later. -/
def timedSecond : Nat × data_root_t × World :=
  data_insert specLayout timedFirst.2.1 (timedFirst.2.2.at (timedFirst.2.2.now + 2))
    helloKey worldData (.upto 24) (.upto 5)

/-! # Lemmas -/

theorem toLE_length (w n : Nat) : (toLE w n).length = w := by
  induction w generalizing n with
  | zero => rfl
  | succ w ih => simp [toLE, ih]

theorem ofLE_toLE (w n : Nat) : ofLE (toLE w n) = n % 256 ^ w := by
  induction w generalizing n with
  | zero => simp [toLE, ofLE, Nat.mod_one]
  | succ w ih =>
    simp only [toLE, ofLE, ih]
    rw [pow_succ, Nat.mul_comm (256 ^ w) 256, Nat.mod_mul]

theorem peek_length_le (buf : List Byte) (off n : Nat) : (peek buf off n).length ≤ n := by
  simp [peek, List.length_take]

theorem peek_mid (pre x post : List Byte) (o n : Nat) (ho : o = pre.length) (hn : n = x.length) :
    peek (pre ++ x ++ post) o n = x := by
  subst ho hn
  simp [peek]

theorem peek_mid2 (pre x post : List Byte) (o n : Nat) (ho : o = pre.length) (hn : n = x.length) :
    peek (pre ++ (x ++ post)) o n = x := by
  subst ho hn
  simp [peek]

theorem peek_end (pre x : List Byte) (o n : Nat) (ho : o = pre.length) (hn : n = x.length) :
    peek (pre ++ x) o n = x := by
  subst ho hn
  simp [peek]

theorem poke_length (buf bs : List Byte) (off : Nat) (h : off + bs.length ≤ buf.length) :
    (poke buf off bs).length = buf.length := by
  simp [poke, List.length_take, List.length_drop]
  omega

theorem peek_poke_same (buf bs : List Byte) (off n : Nat) (h : off + bs.length ≤ buf.length)
    (hn : n = bs.length) : peek (poke buf off bs) off n = bs := by
  unfold poke
  rw [List.append_assoc]
  exact peek_mid2 _ _ _ _ _ (by simp; omega) hn

theorem peek_poke_disj (buf bs : List Byte) (off o n : Nat) (h : off + bs.length ≤ buf.length)
    (hd : disjoint o n off bs.length) : peek (poke buf off bs) o n = peek buf o n := by
  apply List.ext_getElem?
  intro i
  unfold disjoint at hd
  simp only [peek, poke]
  by_cases hi : i < n
  · rw [List.getElem?_take_of_lt hi, List.getElem?_take_of_lt hi, List.getElem?_drop, List.getElem?_drop]
    rcases hd with hd | hd
    · rw [List.append_assoc, List.getElem?_append_left (by simp; omega)]
      rw [List.getElem?_take_of_lt (by omega)]
    · rw [List.getElem?_append_right (by simp; omega)]
      simp only [List.length_append, List.length_take, List.getElem?_drop]
      congr 1
      omega
  · simp [List.getElem?_take, hi]

theorem get_set_same (h : List Byte) (off w v : Nat) (hin : off + w ≤ h.length) :
    ofLE (peek (poke h off (toLE w v)) off w) = v % 256 ^ w := by
  rw [peek_poke_same _ _ _ _ (by simpa [toLE_length] using hin) (by simp [toLE_length]), ofLE_toLE]

theorem get_set_disj (h : List Byte) (off w v o n : Nat) (hin : off + w ≤ h.length)
    (hd : disjoint o n off w) :
    peek (poke h off (toLE w v)) o n = peek h o n :=
  peek_poke_disj _ _ _ _ _ (by simpa [toLE_length] using hin) (by simpa [toLE_length] using hd)

theorem set_length (h : List Byte) (off w v : Nat) (hin : off + w ≤ h.length) :
    (poke h off (toLE w v)).length = h.length :=
  poke_length _ _ _ (by simpa [toLE_length] using hin)

theorem disjoint_symm {a n b m : Nat} (h : disjoint a n b m) : disjoint b m a n := by
  unfold disjoint at *; omega

section header
variable {L : Layout} (hL : L.wf)
include hL

theorem set_idlength_spec (h : List Byte) (v : Nat) (hh : h.length = L.sizeof_data_entry_header_t) :
    (set_idlength L h v).length = L.sizeof_data_entry_header_t ∧
    hdr_idlength L (set_idlength L h v) = v % 256 ^ 1 ∧
    hdr_datalength L (set_idlength L h v) = hdr_datalength L h ∧
    hdr_previous L (set_idlength L h v) = hdr_previous L h ∧
    hdr_integrity L (set_idlength L h v) = hdr_integrity L h ∧
    hdr_flags L (set_idlength L h v) = hdr_flags L h := by
  have hin : L.off_idlength + 1 ≤ h.length := by rw [hh]; exact hL.idlength_in
  refine ⟨?_, ?_, ?_, ?_, ?_, ?_⟩
  · rw [set_idlength, set_length _ _ _ _ hin, hh]
  · rw [hdr_idlength, set_idlength, get_set_same _ _ _ _ hin]
  · rw [hdr_datalength, set_idlength, get_set_disj _ _ _ _ _ _ hin (disjoint_symm hL.id_dl), hdr_datalength]
  · rw [hdr_previous, set_idlength, get_set_disj _ _ _ _ _ _ hin (disjoint_symm hL.id_pr), hdr_previous]
  · rw [hdr_integrity, set_idlength, get_set_disj _ _ _ _ _ _ hin (disjoint_symm hL.id_in), hdr_integrity]
  · rw [hdr_flags, set_idlength, get_set_disj _ _ _ _ _ _ hin (disjoint_symm hL.id_fl), hdr_flags]

theorem set_datalength_spec (h : List Byte) (v : Nat) (hh : h.length = L.sizeof_data_entry_header_t) :
    (set_datalength L h v).length = L.sizeof_data_entry_header_t ∧
    hdr_idlength L (set_datalength L h v) = hdr_idlength L h ∧
    hdr_datalength L (set_datalength L h v) = v % 256 ^ 4 ∧
    hdr_previous L (set_datalength L h v) = hdr_previous L h ∧
    hdr_integrity L (set_datalength L h v) = hdr_integrity L h ∧
    hdr_flags L (set_datalength L h v) = hdr_flags L h := by
  have hin : L.off_datalength + 4 ≤ h.length := by rw [hh]; exact hL.datalength_in
  refine ⟨?_, ?_, ?_, ?_, ?_, ?_⟩
  · rw [set_datalength, set_length _ _ _ _ hin, hh]
  · rw [hdr_idlength, set_datalength, get_set_disj _ _ _ _ _ _ hin (hL.id_dl), hdr_idlength]
  · rw [hdr_datalength, set_datalength, get_set_same _ _ _ _ hin]
  · rw [hdr_previous, set_datalength, get_set_disj _ _ _ _ _ _ hin (disjoint_symm hL.dl_pr), hdr_previous]
  · rw [hdr_integrity, set_datalength, get_set_disj _ _ _ _ _ _ hin (disjoint_symm hL.dl_in), hdr_integrity]
  · rw [hdr_flags, set_datalength, get_set_disj _ _ _ _ _ _ hin (disjoint_symm hL.dl_fl), hdr_flags]

theorem set_previous_spec (h : List Byte) (v : Nat) (hh : h.length = L.sizeof_data_entry_header_t) :
    (set_previous L h v).length = L.sizeof_data_entry_header_t ∧
    hdr_idlength L (set_previous L h v) = hdr_idlength L h ∧
    hdr_datalength L (set_previous L h v) = hdr_datalength L h ∧
    hdr_previous L (set_previous L h v) = v % 256 ^ 8 ∧
    hdr_integrity L (set_previous L h v) = hdr_integrity L h ∧
    hdr_flags L (set_previous L h v) = hdr_flags L h := by
  have hin : L.off_previous + 8 ≤ h.length := by rw [hh]; exact hL.previous_in
  refine ⟨?_, ?_, ?_, ?_, ?_, ?_⟩
  · rw [set_previous, set_length _ _ _ _ hin, hh]
  · rw [hdr_idlength, set_previous, get_set_disj _ _ _ _ _ _ hin (hL.id_pr), hdr_idlength]
  · rw [hdr_datalength, set_previous, get_set_disj _ _ _ _ _ _ hin (hL.dl_pr), hdr_datalength]
  · rw [hdr_previous, set_previous, get_set_same _ _ _ _ hin]
  · rw [hdr_integrity, set_previous, get_set_disj _ _ _ _ _ _ hin (disjoint_symm hL.pr_in), hdr_integrity]
  · rw [hdr_flags, set_previous, get_set_disj _ _ _ _ _ _ hin (disjoint_symm hL.pr_fl), hdr_flags]

theorem set_integrity_spec (h : List Byte) (v : Nat) (hh : h.length = L.sizeof_data_entry_header_t) :
    (set_integrity L h v).length = L.sizeof_data_entry_header_t ∧
    hdr_idlength L (set_integrity L h v) = hdr_idlength L h ∧
    hdr_datalength L (set_integrity L h v) = hdr_datalength L h ∧
    hdr_previous L (set_integrity L h v) = hdr_previous L h ∧
    hdr_integrity L (set_integrity L h v) = v % 256 ^ 4 ∧
    hdr_flags L (set_integrity L h v) = hdr_flags L h := by
  have hin : L.off_integrity + 4 ≤ h.length := by rw [hh]; exact hL.integrity_in
  refine ⟨?_, ?_, ?_, ?_, ?_, ?_⟩
  · rw [set_integrity, set_length _ _ _ _ hin, hh]
  · rw [hdr_idlength, set_integrity, get_set_disj _ _ _ _ _ _ hin (hL.id_in), hdr_idlength]
  · rw [hdr_datalength, set_integrity, get_set_disj _ _ _ _ _ _ hin (hL.dl_in), hdr_datalength]
  · rw [hdr_previous, set_integrity, get_set_disj _ _ _ _ _ _ hin (hL.pr_in), hdr_previous]
  · rw [hdr_integrity, set_integrity, get_set_same _ _ _ _ hin]
  · rw [hdr_flags, set_integrity, get_set_disj _ _ _ _ _ _ hin (disjoint_symm hL.in_fl), hdr_flags]

theorem set_flags_spec (h : List Byte) (v : Nat) (hh : h.length = L.sizeof_data_entry_header_t) :
    (set_flags L h v).length = L.sizeof_data_entry_header_t ∧
    hdr_idlength L (set_flags L h v) = hdr_idlength L h ∧
    hdr_datalength L (set_flags L h v) = hdr_datalength L h ∧
    hdr_previous L (set_flags L h v) = hdr_previous L h ∧
    hdr_integrity L (set_flags L h v) = hdr_integrity L h ∧
    hdr_flags L (set_flags L h v) = v % 256 ^ 1 := by
  have hin : L.off_flags + 1 ≤ h.length := by rw [hh]; exact hL.flags_in
  refine ⟨?_, ?_, ?_, ?_, ?_, ?_⟩
  · rw [set_flags, set_length _ _ _ _ hin, hh]
  · rw [hdr_idlength, set_flags, get_set_disj _ _ _ _ _ _ hin (hL.id_fl), hdr_idlength]
  · rw [hdr_datalength, set_flags, get_set_disj _ _ _ _ _ _ hin (hL.dl_fl), hdr_datalength]
  · rw [hdr_previous, set_flags, get_set_disj _ _ _ _ _ _ hin (hL.pr_fl), hdr_previous]
  · rw [hdr_integrity, set_flags, get_set_disj _ _ _ _ _ _ hin (hL.in_fl), hdr_integrity]
  · rw [hdr_flags, set_flags, get_set_same _ _ _ _ hin]

theorem data_insert_header_spec (idl dl pr crc : Nat) :
    (data_insert_header L idl dl pr crc).length = L.sizeof_data_entry_header_t ∧
    hdr_idlength L (data_insert_header L idl dl pr crc) = idl % 256 ^ 1 ∧
    hdr_datalength L (data_insert_header L idl dl pr crc) = dl % 256 ^ 4 ∧
    hdr_previous L (data_insert_header L idl dl pr crc) = pr % 256 ^ 8 ∧
    hdr_integrity L (data_insert_header L idl dl pr crc) = crc % 256 ^ 4 ∧
    hdr_flags L (data_insert_header L idl dl pr crc) = 0 := by
  have h0 : (List.replicate L.sizeof_data_entry_header_t (0 : Byte)).length
      = L.sizeof_data_entry_header_t := List.length_replicate _ _
  have h1 := set_idlength_spec hL _ idl h0
  have h2 := set_datalength_spec hL _ dl h1.1
  have h3 := set_previous_spec hL _ pr h2.1
  have h4 := set_integrity_spec hL _ crc h3.1
  have h5 := set_flags_spec hL _ 0 h4.1
  simp only [data_insert_header]
  refine ⟨h5.1, ?_, ?_, ?_, ?_, ?_⟩
  · rw [h5.2.1, h4.2.1, h3.2.1, h2.2.1, h1.2.1]
  · rw [h5.2.2.1, h4.2.2.1, h3.2.2.1, h2.2.2.1]
  · rw [h5.2.2.2.1, h4.2.2.2.1, h3.2.2.2.1]
  · rw [h5.2.2.2.2.1, h4.2.2.2.2.1]
  · rw [h5.2.2.2.2.2]; rfl

end header

theorem file_pwrite_end (file bs : List Byte) : file_pwrite file file.length bs = file ++ bs := by
  unfold file_pwrite
  split
  · simp [*]
  · simp

theorem data_sync_check_eq (root : data_root_t) (w : World) :
    ∃ r ls fs, data_sync_check root w = (r, { root with lastsync := ls }, { w with fsyncs := fs }) := by
  unfold data_sync_check data_sync sys_fsync
  split
  · exact ⟨_, _, _, rfl⟩
  · split
    · exact ⟨_, _, _, rfl⟩
    · split
      · exact ⟨_, _, _, rfl⟩
      · exact ⟨_, _, _, rfl⟩

/-- A write at the end of the file -/
theorem sys_write_end (w : World) (fd : Fd) (buf : List Byte) (out : WriteOutcome)
    (hpos : fd.append = true ∨ fd.pos = w.size fd.file) :
    (out.complete buf.length = true ∧ fd.writable = true ∧ w.size fd.file + buf.length ≤ OFF_MAX ∧
      sys_write w fd buf out = ((buf.length : Int), { fd with pos := w.size fd.file + buf.length },
        { w with files := Function.update w.files fd.file (some (w.content fd.file ++ buf)) })) ∨
    ((out.complete buf.length = false ∨ fd.writable = false ∨ OFF_MAX < w.size fd.file + buf.length) ∧
      (sys_write w fd buf out).1 ≠ (buf.length : Int)) := by
  have hp : (if fd.append = true then (w.content fd.file).length else fd.pos) = w.size fd.file := by
    rcases hpos with h | h
    · simp [h, World.size]
    · split
      · rfl
      · exact h
  cases out with
  | error => right; simp [WriteOutcome.complete, sys_write]
  | upto n =>
    unfold sys_write
    simp only [hp]
    cases hw : fd.writable with
    | false => right; simp
    | true =>
      simp only [Bool.true_eq_false, if_false]
      by_cases hn : buf.length ≤ n
      · have ht : buf.take n = buf := List.take_of_length_le hn
        simp only [ht]
        by_cases hb : OFF_MAX < w.size fd.file + buf.length
        · right; simp [hb]
        · left
          simp only [hb, if_false]
          refine ⟨by simp [WriteOutcome.complete, hn], trivial, by omega, ?_⟩
          simp [World.size, file_pwrite_end, ← hw]
      · right
        refine ⟨Or.inl (by simp [WriteOutcome.complete, hn]), ?_⟩
        have hl : (buf.take n).length = n := by simp [List.length_take]; omega
        rw [hl]
        by_cases hb : OFF_MAX < w.size fd.file + n
        · simp [hb]
        · simp only [hb, if_false]
          intro h
          have : n = buf.length := by exact_mod_cast h
          omega

theorem data_write_end (w : World) (fd : Fd) (buf : List Byte) (syncer : Bool) (root : data_root_t)
    (out : WriteOutcome) (hpos : fd.append = true ∨ fd.pos = w.size fd.file) :
    (out.complete buf.length = true ∧ fd.writable = true ∧ w.size fd.file + buf.length ≤ OFF_MAX ∧
      ∃ ls fs, data_write w fd buf syncer root out =
        (1, { fd with pos := w.size fd.file + buf.length }, { root with lastsync := ls },
          { w with files := Function.update w.files fd.file (some (w.content fd.file ++ buf)),
                   fsyncs := fs })) ∨
    ((out.complete buf.length = false ∨ fd.writable = false ∨ OFF_MAX < w.size fd.file + buf.length) ∧
      (data_write w fd buf syncer root out).1 = 0) := by
  rcases sys_write_end w fd buf out hpos with ⟨h1, h2, h3, h4⟩ | ⟨h1, h2⟩
  · left
    refine ⟨h1, h2, h3, ?_⟩
    unfold data_write
    rw [h4]
    simp only [Int.natCast_nonneg, not_lt.mpr, if_false, ne_eq, not_true_eq_false]
    cases syncer with
    | false => exact ⟨root.lastsync, w.fsyncs, rfl⟩
    | true =>
      obtain ⟨r, ls, fs, h⟩ := data_sync_check_eq root
        { w with files := Function.update w.files fd.file (some (w.content fd.file ++ buf)) }
      exact ⟨ls, fs, by simp [h]⟩
  · right
    refine ⟨h1, ?_⟩
    unfold data_write
    generalize sys_write w fd buf out = r at h2
    obtain ⟨response, fd1, w1⟩ := r
    simp only at h2 ⊢
    split
    · rfl
    · simp [h2]

theorem size_update (w : World) (f : Nat) (c : File) (fs : Nat) :
    World.size { w with files := Function.update w.files f (some c), fsyncs := fs } f = c.length := by
  simp [World.size, World.content]

theorem content_update (w : World) (f : Nat) (c : File) (fs : Nat) :
    World.content { w with files := Function.update w.files f (some c), fsyncs := fs } f = c := by
  simp [World.content]

/-- What `data_insert` does: either both writes go through, and the result
is the old size of the file, the file grown by header, key and payload; or
one of them does not and the result is 0. -/
theorem data_insert_cases (L : Layout) (root : data_root_t) (w : World) (data id : List Byte)
    (out1 out2 : WriteOutcome) :
    let f := root.datafd.file
    let hdr := data_insert_header L id.length data.length root.previous (data_crc32 data) ++ id
    let cond := out1.complete hdr.length = true ∧ out2.complete data.length = true ∧
      root.datafd.writable = true ∧ w.size f + hdr.length + data.length ≤ OFF_MAX
    (cond ∧
      ∃ ls fs, data_insert L root w data id out1 out2 =
        (w.size f,
         { root with datafd := { root.datafd with pos := w.size f + hdr.length + data.length },
                     previous := w.size f, lastsync := ls },
         { w with files := Function.update w.files f (some (w.content f ++ hdr ++ data)),
                  fsyncs := fs })) ∨
    (¬ cond ∧ (data_insert L root w data id out1 out2).1 = 0) := by
  intro f hdr cond
  unfold data_insert
  simp only [sys_lseek_end, Nat.add_zero]
  rcases data_write_end w { root.datafd with pos := w.size root.datafd.file } hdr false
      { root with datafd := { root.datafd with pos := w.size root.datafd.file } } out1
      (Or.inr rfl) with ⟨h1, h2, h3, ls1, fs1, h4⟩ | ⟨h1, h2⟩
  · simp only [hdr] at h4
    rw [h4]
    simp only [one_ne_zero, if_false]
    rcases data_write_end
        { w with files := Function.update w.files root.datafd.file
                    (some (w.content root.datafd.file ++ hdr)), fsyncs := fs1 }
        { root.datafd with pos := w.size root.datafd.file + hdr.length } data true
        { root with datafd := { root.datafd with pos := w.size root.datafd.file + hdr.length },
                    lastsync := ls1 } out2
        (Or.inr (by simp [World.size, World.content])) with ⟨g1, g2, g3, ls2, fs2, g4⟩ | ⟨g1, g2⟩
    · left
      simp only [size_update, content_update, List.length_append] at g3 g4
      have hb : w.size f + hdr.length + data.length ≤ OFF_MAX := by
        simp only [f, World.size] at *; simp at *; omega
      refine ⟨⟨h1, g1, h2, hb⟩, ls2, fs2, ?_⟩
      simp only [hdr] at g4
      rw [g4]
      simp [f, hdr, World.size, Nat.add_assoc]
    · right
      simp only [hdr] at g2
      rw [if_pos g2]
      refine ⟨?_, rfl⟩
      rintro ⟨c1, c2, c3, c4⟩
      simp only [size_update, List.length_append] at g1
      rcases g1 with g1 | g1 | g1
      · rw [c2] at g1; exact Bool.noConfusion g1
      · have : root.datafd.writable = false := g1
        rw [c3] at this; exact Bool.noConfusion this
      · simp only [f, World.size] at *; simp at *; omega
  · right
    simp only [hdr] at h2
    rw [if_pos h2]
    refine ⟨?_, rfl⟩
    rintro ⟨c1, c2, c3, c4⟩
    rcases h1 with h1 | h1 | h1
    · rw [c1] at h1; exact Bool.noConfusion h1
    · have : root.datafd.writable = false := h1
      rw [c3] at this; exact Bool.noConfusion this
    · have : OFF_MAX < w.size f + hdr.length := h1
      omega

theorem EntryAt.read_hdr {L : Layout} {c : File} {o : Nat} {hdr id data : List Byte}
    (h : EntryAt L c o hdr id data) : peek c o L.sizeof_data_entry_header_t = hdr := by
  obtain ⟨hl, pre, post, rfl, rfl⟩ := h
  rw [List.append_assoc, List.append_assoc]
  exact peek_mid _ _ _ _ _ rfl hl.symm

theorem EntryAt.read_id {L : Layout} {c : File} {o : Nat} {hdr id data : List Byte}
    (h : EntryAt L c o hdr id data) : peek c (o + L.sizeof_data_entry_header_t) id.length = id := by
  obtain ⟨hl, pre, post, rfl, rfl⟩ := h
  rw [List.append_assoc (pre ++ hdr ++ id)]
  exact peek_mid _ _ _ _ _ (by simp [hl]) rfl

theorem EntryAt.read_data {L : Layout} {c : File} {o : Nat} {hdr id data : List Byte}
    (h : EntryAt L c o hdr id data) :
    peek c (o + L.sizeof_data_entry_header_t + id.length) data.length = data := by
  obtain ⟨hl, pre, post, rfl, rfl⟩ := h
  exact peek_mid _ _ _ _ _ (by simp [hl, Nat.add_assoc]) rfl

theorem EntryAt.append {L : Layout} {c : File} {o : Nat} {hdr id data : List Byte}
    (h : EntryAt L c o hdr id data) (more : List Byte) : EntryAt L (c ++ more) o hdr id data := by
  obtain ⟨hl, pre, post, rfl, rfl⟩ := h
  exact ⟨hl, pre, post ++ more, by simp, rfl⟩

theorem EntryAt.of_append (L : Layout) (c hdr id data : List Byte)
    (hl : hdr.length = L.sizeof_data_entry_header_t) :
    EntryAt L (c ++ (hdr ++ id) ++ data) c.length hdr id data :=
  ⟨hl, c, [], by simp, rfl⟩

theorem EntryAt.bound {L : Layout} {c : File} {o : Nat} {hdr id data : List Byte}
    (h : EntryAt L c o hdr id data) :
    o + L.sizeof_data_entry_header_t + id.length + data.length ≤ c.length := by
  obtain ⟨hl, pre, post, rfl, rfl⟩ := h
  simp [hl]; omega

/-! ### The three readers on an entry -/

theorem data_get_real_entry {L : Layout} (w : World) (fd : Fd) (o : Nat) (hdr id data : List Byte)
    (h : EntryAt L (w.content fd.file) o hdr id data) (hdl : data = [] → hdr_datalength L hdr = 0) :
    (data_get_real L w fd o data.length id.length).1
      = ⟨if data = [] then none else some data, data.length⟩ := by
  unfold data_get_real
  by_cases hd : data = []
  · subst hd
    simp [data_length_from_offset, sys_lseek_set, sys_read, h.read_hdr, h.1, hdl rfl]
  · have hne : data.length ≠ 0 := by simpa using hd
    simp [hne, hd, sys_lseek_set, sys_read, h.read_data]

theorem data_check_real_entry {L : Layout} (w : World) (fd : Fd) (o : Nat) (hdr id data : List Byte)
    (h : EntryAt L (w.content fd.file) o hdr id data) (hdl : hdr_datalength L hdr = data.length)
    (hid : hdr_idlength L hdr = id.length) :
    (data_check_real L w fd o).1 = if data_crc32 data = hdr_integrity L hdr then 1 else 0 := by
  unfold data_check_real
  simp [sys_lseek_set, sys_lseek_cur, sys_read, h.read_hdr, h.1, hdl, hid, h.read_data]

theorem data_match_real_entry {L : Layout} (w : World) (fd : Fd) (o : Nat) (hdr id data key : List Byte)
    (h : EntryAt L (w.content fd.file) o hdr id data) (hdl : hdr_datalength L hdr = data.length)
    (hid : hdr_idlength L hdr = id.length) :
    (data_match_real L w fd key o).1 =
      if key = id ∧ hdr_flags L hdr &&& DATA_ENTRY_DELETED = 0 ∧ data.length ≤ L.DATA_MAXSIZE
      then data.length else 0 := by
  unfold data_match_real
  simp only [sys_lseek_set, sys_read, h.read_hdr, h.1, hdl, hid, ne_eq, not_true_eq_false, if_false]
  by_cases hk : id.length = key.length
  · rw [← hk, h.read_id]
    by_cases hf : hdr_flags L hdr &&& DATA_ENTRY_DELETED = 0
    · by_cases hm : L.DATA_MAXSIZE < data.length
      · have hm2 : ¬ data.length ≤ L.DATA_MAXSIZE := by omega
        simp [hf, hm, hm2, hk]
      · have hm2 : data.length ≤ L.DATA_MAXSIZE := by omega
        by_cases he : key = id
        · subst he; simp [hf, hm, hm2]
        · have he2 : ¬ id = key := fun h => he h.symm
          simp [hf, hm, hm2, he, he2, hk]
    · simp [hf, hk]
  · have : key ≠ id := fun e => hk (by rw [e])
    simp [hk, this]

theorem data_sync_check_root (root : data_root_t) (w : World) :
    (data_sync_check root w).2.1 = { root with lastsync := (data_sync_check root w).2.1.lastsync } := by
  obtain ⟨r, ls, fs, h⟩ := data_sync_check_eq root w
  rw [h]

theorem data_sync_check_world (root : data_root_t) (w : World) :
    (data_sync_check root w).2.2 = { w with fsyncs := (data_sync_check root w).2.2.fsyncs } := by
  obtain ⟨r, ls, fs, h⟩ := data_sync_check_eq root w
  rw [h]

theorem file_pwrite_length (file bs : List Byte) (pos : Nat) :
    file.length ≤ (file_pwrite file pos bs).length := by
  unfold file_pwrite
  split
  · exact Nat.le_refl _
  · simp [List.length_take, List.length_drop]
    omega

/-- Every `write` either changes nothing or rewrites the one file of the descriptor. -/
theorem sys_write_cases (w : World) (fd : Fd) (buf : List Byte) (out : WriteOutcome) :
    sys_write w fd buf out = (-1, fd, w) ∨
    ∃ bs pos, fd.writable = true ∧ sys_write w fd buf out =
      ((bs.length : Int), { fd with pos := pos + bs.length },
        { w with files := Function.update w.files fd.file (some (file_pwrite (w.content fd.file) pos bs)) }) := by
  cases out with
  | error => left; rfl
  | upto n =>
    unfold sys_write
    simp only
    cases hw : fd.writable with
    | false => left; simp
    | true =>
      simp only [Bool.true_eq_false, if_false]
      generalize (if fd.append = true then (w.content fd.file).length else fd.pos) = p
      by_cases hb : OFF_MAX < p + (buf.take n).length
      · left; rw [if_pos hb]
      · right; exact ⟨buf.take n, p, trivial, by rw [if_neg hb]⟩

/-- The effect of `data_write` on descriptor, root and world, whatever it returns. -/
theorem data_write_frame (w : World) (fd : Fd) (buf : List Byte) (syncer : Bool) (root : data_root_t)
    (out : WriteOutcome) :
    ∃ r pos ls fs, (data_write w fd buf syncer root out = (r, { fd with pos := pos },
        { root with lastsync := ls }, { w with fsyncs := fs }) ∨
      ∃ p bs, fd.writable = true ∧ data_write w fd buf syncer root out = (r, { fd with pos := pos },
        { root with lastsync := ls },
        { w with files := Function.update w.files fd.file (some (file_pwrite (w.content fd.file) p bs)), fsyncs := fs })) := by
  unfold data_write
  rcases sys_write_cases w fd buf out with h | ⟨bs, p, hw, h⟩
  · rw [h]
    exact ⟨0, fd.pos, root.lastsync, w.fsyncs, Or.inl (by simp)⟩
  · rw [h]
    simp only
    split
    · exact ⟨0, _, root.lastsync, w.fsyncs, Or.inr ⟨p, bs, hw, rfl⟩⟩
    · split
      · exact ⟨0, _, root.lastsync, w.fsyncs, Or.inr ⟨p, bs, hw, rfl⟩⟩
      · split
        · obtain ⟨r, ls, fs, hs⟩ := data_sync_check_eq root
            { w with files := Function.update w.files fd.file (some (file_pwrite (w.content fd.file) p bs)) }
          rw [hs]
          exact ⟨1, _, ls, fs, Or.inr ⟨p, bs, hw, rfl⟩⟩
        · exact ⟨1, _, root.lastsync, w.fsyncs, Or.inr ⟨p, bs, hw, rfl⟩⟩

theorem data_insert_frame (L : Layout) (root : data_root_t) (w : World) (data id : List Byte)
    (out1 out2 : WriteOutcome) :
    ∃ r pos prev ls fs, (data_insert L root w data id out1 out2 =
        (r, { root with datafd := { root.datafd with pos := pos }, previous := prev, lastsync := ls },
          { w with fsyncs := fs }) ∨
      ∃ c, root.datafd.writable = true ∧ (w.content root.datafd.file).length ≤ c.length ∧
        data_insert L root w data id out1 out2 =
        (r, { root with datafd := { root.datafd with pos := pos }, previous := prev, lastsync := ls },
          { w with files := Function.update w.files root.datafd.file (some c), fsyncs := fs })) := by
  unfold data_insert
  simp only [sys_lseek_end]
  obtain ⟨r1, pos1, ls1, fs1, h1⟩ := data_write_frame w
    { root.datafd with pos := w.size root.datafd.file + 0 }
    (data_insert_header L id.length data.length root.previous (data_crc32 data) ++ id) false
    { root with datafd := { root.datafd with pos := w.size root.datafd.file + 0 } } out1
  rcases h1 with h1 | ⟨p1, bs1, hw1, h1⟩
  · rw [h1]
    simp only
    split
    · exact ⟨0, pos1, root.previous, ls1, fs1, Or.inl rfl⟩
    · obtain ⟨r2, pos2, ls2, fs2, h2⟩ := data_write_frame { w with fsyncs := fs1 }
        { root.datafd with pos := pos1 } data true
        { root with datafd := { root.datafd with pos := pos1 }, lastsync := ls1 } out2
      rcases h2 with h2 | ⟨p2, bs2, hw2, h2⟩
      · rw [h2]
        simp only
        split
        · exact ⟨0, pos2, root.previous, ls2, fs2, Or.inl rfl⟩
        · exact ⟨_, pos2, _, ls2, fs2, Or.inl rfl⟩
      · rw [h2]
        simp only
        split
        · exact ⟨0, pos2, root.previous, ls2, fs2, Or.inr ⟨_, hw2, file_pwrite_length _ _ _, rfl⟩⟩
        · exact ⟨_, pos2, _, ls2, fs2, Or.inr ⟨_, hw2, file_pwrite_length _ _ _, rfl⟩⟩
  · rw [h1]
    simp only
    have hc1 := file_pwrite_length (w.content root.datafd.file) bs1 p1
    split
    · exact ⟨0, pos1, root.previous, ls1, fs1, Or.inr ⟨_, hw1, hc1, rfl⟩⟩
    · obtain ⟨r2, pos2, ls2, fs2, h2⟩ := data_write_frame
        { w with files := Function.update w.files root.datafd.file (some (file_pwrite (w.content root.datafd.file) p1 bs1)), fsyncs := fs1 }
        { root.datafd with pos := pos1 } data true
        { root with datafd := { root.datafd with pos := pos1 }, lastsync := ls1 } out2
      rcases h2 with h2 | ⟨p2, bs2, hw2, h2⟩
      · rw [h2]
        simp only
        split
        · exact ⟨0, pos2, root.previous, ls2, fs2, Or.inr ⟨_, hw1, hc1, rfl⟩⟩
        · exact ⟨_, pos2, _, ls2, fs2, Or.inr ⟨_, hw1, hc1, rfl⟩⟩
      · rw [h2]
        simp only [content_update, Function.update_idem]
        have hc2 := file_pwrite_length (file_pwrite (w.content root.datafd.file) p1 bs1) bs2 p2
        split
        · exact ⟨0, pos2, root.previous, ls2, fs2, Or.inr ⟨_, hw1, Nat.le_trans hc1 hc2, rfl⟩⟩
        · exact ⟨_, pos2, _, ls2, fs2, Or.inr ⟨_, hw1, Nat.le_trans hc1 hc2, rfl⟩⟩

theorem data_insert_root (L : Layout) (root : data_root_t) (w : World) (data id : List Byte)
    (out1 out2 : WriteOutcome) :
    ∃ pos prev ls, (data_insert L root w data id out1 out2).2.1
      = { root with datafd := { root.datafd with pos := pos }, previous := prev, lastsync := ls } := by
  obtain ⟨r, pos, prev, ls, fs, h | ⟨c, _, _, h⟩⟩ := data_insert_frame L root w data id out1 out2
  · exact ⟨pos, prev, ls, by rw [h]⟩
  · exact ⟨pos, prev, ls, by rw [h]⟩

theorem data_insert_ok (L : Layout) (root : data_root_t) (w : World) (data id : List Byte)
    (out1 out2 : WriteOutcome) (hok : (data_insert L root w data id out1 out2).1 ≠ 0) :
    ∃ ls fs pos, data_insert L root w data id out1 out2 =
        (w.size root.datafd.file,
         { root with datafd := { root.datafd with pos := pos },
                     previous := w.size root.datafd.file, lastsync := ls },
         { w with files := Function.update w.files root.datafd.file
                    (some (w.content root.datafd.file ++
                      (data_insert_header L id.length data.length root.previous (data_crc32 data)
                        ++ id) ++ data)),
                  fsyncs := fs }) := by
  rcases data_insert_cases L root w data id out1 out2 with ⟨_, ls, fs, h⟩ | ⟨_, h⟩
  · exact ⟨ls, fs, _, h⟩
  · exact absurd h hok

theorem data_get_current (L : Layout) (root : data_root_t) (w : World) (o len idl : Nat) :
    (data_get L root w o len root.dataid idl).1 = (data_get_real L w root.datafd o len idl).1 := by
  simp [data_get, data_grab_dataid]

theorem data_check_current (L : Layout) (root : data_root_t) (w : World) (o : Nat) :
    (data_check L root w o root.dataid).1 = (data_check_real L w root.datafd o).1 := by
  simp [data_check, data_grab_dataid]

theorem data_match_current (L : Layout) (root : data_root_t) (w : World) (key : List Byte) (o : Nat) :
    (data_match L root w key o root.dataid).1 = (data_match_real L w root.datafd key o).1 := by
  simp [data_match, data_grab_dataid]

theorem data_crc32_mod (data : List Byte) : data_crc32 data % 256 ^ 4 = data_crc32 data := by
  unfold data_crc32
  norm_num

theorem data_insert_succeeds (L : Layout) (root : data_root_t) (w : World) (data id : List Byte)
    (out1 out2 : WriteOutcome)
    (h1 : out1.complete
      ((data_insert_header L id.length data.length root.previous (data_crc32 data)).length
        + id.length) = true)
    (h2 : out2.complete data.length = true) (h3 : root.datafd.writable = true)
    (h4 : w.size root.datafd.file
      + ((data_insert_header L id.length data.length root.previous (data_crc32 data)).length
        + id.length) + data.length ≤ OFF_MAX) :
    (data_insert L root w data id out1 out2).1 = w.size root.datafd.file := by
  rcases data_insert_cases L root w data id out1 out2 with ⟨_, ls, fs, h⟩ | ⟨hn, _⟩
  · rw [h]
  · exact absurd ⟨by simpa using h1, h2, h3, by simpa using h4⟩ hn

theorem specLayout_wf : specLayout.wf := by
  constructor <;> first | decide | (intros; simp [specLayout, toLE])

set_option maxRecDepth 100000 in
theorem data_init_fresh :
    (data_init specLayout ⟨false, 0⟩ emptyWorld 0 (.upto 11)) = some (freshRoot, freshWorld) := by
  simp [data_init, data_initialize, data_open_final, data_set_id, sys_open, emptyWorld, data_write,
    sys_write, data_sync_check, file_pwrite, specLayout, toLE, OFF_MAX, World.content,
    sys_lseek_set, World.size, data_open_final_loop, sys_read, peek, freshRoot, freshWorld]

theorem bigData_length : bigData.length = 8388609 := by
  unfold bigData
  exact List.length_replicate _ _

theorem triple_eta {α β γ : Type} (x : α × β × γ) : x = (x.1, x.2.1, x.2.2) := rfl

theorem freshWorld_size : freshWorld.size 0 = 11 := by
  simp [freshWorld, World.size, World.content, specLayout, toLE]

theorem file_pwrite_inplace (c bs : List Byte) (o : Nat) (h : o + bs.length ≤ c.length) :
    file_pwrite c o bs = poke c o bs := by
  unfold file_pwrite poke
  split
  · rename_i hb; subst hb; simp
  · have : o - c.length = 0 := by omega
    simp [this]

theorem peek_length_eq {c : List Byte} {o n : Nat} (h : (peek c o n).length = n) (hn : 0 < n) :
    o + n ≤ c.length := by
  simp [peek, List.length_take, List.length_drop] at h
  omega

theorem poke_getElem? (file bs : List Byte) (o i : Nat) (h : o + bs.length ≤ file.length) :
    (poke file o bs)[i]? = if o ≤ i ∧ i < o + bs.length then bs[i - o]? else file[i]? := by
  unfold poke
  have hto : (List.take o file).length = o := by simp; omega
  by_cases h1 : i < o
  · rw [if_neg (by omega), List.append_assoc, List.getElem?_append_left (by rw [hto]; exact h1)]
    exact List.getElem?_take_of_lt h1
  · by_cases h2 : i < o + bs.length
    · rw [if_pos ⟨by omega, h2⟩, List.getElem?_append_left (by simp; omega),
        List.getElem?_append_right (by rw [hto]; omega), hto]
    · rw [if_neg (by omega), List.getElem?_append_right (by simp; omega)]
      simp only [List.length_append, hto, List.getElem?_drop]
      congr 1
      omega

theorem sys_write_whole (w : World) (fd : Fd) (buf : List Byte) (out : WriteOutcome)
    (ha : fd.append = false) (h : (sys_write w fd buf out).1 = (buf.length : Int)) :
    sys_write w fd buf out = ((buf.length : Int), { fd with pos := fd.pos + buf.length },
      { w with files := Function.update w.files fd.file (some (file_pwrite (w.content fd.file) fd.pos buf)) }) := by
  cases out with
  | error => simp [sys_write] at h
  | upto n =>
    unfold sys_write at h ⊢
    simp only [ha, Bool.false_eq_true, if_false] at h ⊢
    cases hw : fd.writable with
    | false => simp [hw] at h
    | true =>
      simp only [hw, Bool.true_eq_false, if_false] at h ⊢
      by_cases hbig : OFF_MAX < fd.pos + (buf.take n).length
      · rw [if_pos hbig] at h; simp at h
      · rw [if_neg hbig] at h ⊢
        simp only at h
        have hl : (buf.take n).length = buf.length := by exact_mod_cast h
        have ht : buf.take n = buf := by
          apply List.take_of_length_le
          simp [List.length_take] at hl
          omega
        rw [ht]

theorem EntryAt.poke_hdr {L : Layout} {c : File} {o : Nat} {hdr id data : List Byte}
    (h : EntryAt L c o hdr id data) (hdr1 : List Byte)
    (hl : hdr1.length = L.sizeof_data_entry_header_t) :
    EntryAt L (poke c o hdr1) o hdr1 id data := by
  obtain ⟨hl0, pre, post, rfl, rfl⟩ := h
  refine ⟨hl, pre, post, ?_, rfl⟩
  unfold poke
  simp [hl, hl0, List.take_append_eq_append_take, List.drop_append_eq_append_drop]

theorem or_deleted_and (x : Nat) :
    ((x ||| DATA_ENTRY_DELETED) % 256 ^ 1) &&& DATA_ENTRY_DELETED ≠ 0 := by
  have : (x ||| 1) % 2 = 1 := by simp
  simp only [DATA_ENTRY_DELETED, Nat.and_one_is_mod, pow_one]
  omega

/-- What a call of `data_delete` that returns 1 has done. -/
theorem data_delete_ok {L : Layout} (hL : L.wf) (root : data_root_t) (w : World) (o dataid : Nat)
    (out : WriteOutcome) (h : (data_delete L root w o dataid out).1 = 1) :
    (peek (w.content dataid) o L.sizeof_data_entry_header_t).length = L.sizeof_data_entry_header_t ∧
    (w.files dataid).isSome = true ∧
    data_delete L root w o dataid out = (1, root,
      { w with files := Function.update w.files dataid (some (poke (w.content dataid) o (set_flags L (peek (w.content dataid) o L.sizeof_data_entry_header_t) (hdr_flags L (peek (w.content dataid) o L.sizeof_data_entry_header_t) ||| DATA_ENTRY_DELETED)))) }) := by
  have hE : 0 < L.sizeof_data_entry_header_t := by have := hL.flags_in; omega
  unfold data_delete data_get_dataid_rw data_open_id_mode sys_open at h ⊢
  cases hr : w.rofs with
  | true => simp [hr] at h
  | false =>
    simp only [hr, Bool.and_false, Bool.true_and, Bool.false_eq_true, if_false] at h ⊢
    cases hf : w.files dataid with
    | none => simp [hf] at h
    | some c0 =>
      simp only [hf] at h ⊢
      unfold data_delete_real at h ⊢
      simp only [sys_lseek_set, sys_read] at h ⊢
      by_cases hlen : (peek (w.content dataid) o L.sizeof_data_entry_header_t).length
          = L.sizeof_data_entry_header_t
      · simp only [hlen, ne_eq, not_true_eq_false, if_false] at h ⊢
        have hb := peek_length_eq hlen hE
        have hs := (set_flags_spec hL _ (hdr_flags L (peek (w.content dataid) o
          L.sizeof_data_entry_header_t) ||| DATA_ENTRY_DELETED) hlen).1
        generalize hh : set_flags L (peek (w.content dataid) o L.sizeof_data_entry_header_t)
          (hdr_flags L (peek (w.content dataid) o L.sizeof_data_entry_header_t)
            ||| DATA_ENTRY_DELETED) = hdr1 at h hs ⊢
        refine ⟨trivial, rfl, ?_⟩
        by_cases hresp : (sys_write w ⟨dataid, o, false, true⟩ hdr1 out).1
            = (L.sizeof_data_entry_header_t : Int)
        · have hw := sys_write_whole w ⟨dataid, o, false, true⟩ hdr1 out rfl (by rw [hresp, hs])
          rw [hw]
          simp only [hs, not_true_eq_false, if_false]
          rw [file_pwrite_inplace _ _ _ (by rw [hs]; exact hb), hr]
        · rw [if_pos hresp] at h
          simp at h
      · simp [hlen] at h

/-- The same, with the new world described by what it holds. -/
theorem data_delete_world {L : Layout} (hL : L.wf) (root : data_root_t) (w : World) (o dataid : Nat)
    (out : WriteOutcome) (root1 : data_root_t) (w1 : World)
    (h : data_delete L root w o dataid out = (1, root1, w1)) :
    (peek (w.content dataid) o L.sizeof_data_entry_header_t).length = L.sizeof_data_entry_header_t ∧
    root1 = root ∧ (w1.files dataid).isSome = true ∧ (w.files dataid).isSome = true ∧
    w1.content dataid = poke (w.content dataid) o
      (set_flags L (peek (w.content dataid) o L.sizeof_data_entry_header_t)
        (hdr_flags L (peek (w.content dataid) o L.sizeof_data_entry_header_t)
          ||| DATA_ENTRY_DELETED)) ∧
    (∀ s, s ≠ dataid → w1.files s = w.files s) ∧ w1.rofs = w.rofs := by
  obtain ⟨hlen, hex, heq⟩ := data_delete_ok hL root w o dataid out (by rw [h])
  rw [heq] at h
  simp only [Prod.mk.injEq, true_and] at h
  obtain ⟨rfl, rfl⟩ := h
  refine ⟨hlen, rfl, ?_, hex, content_update _ _ _ _, ?_, rfl⟩
  · show (Function.update w.files dataid _ dataid).isSome = true
    rw [Function.update_same]; rfl
  · intro s hs
    show Function.update w.files dataid _ s = _
    rw [Function.update_noteq hs]

theorem data_open_id_world (w : World) (id : Nat) : (data_open_id w id).2 = w := by
  unfold data_open_id data_open_id_mode sys_open
  simp only [Bool.false_and, Bool.false_eq_true, if_false]
  cases w.files id <;> rfl

theorem data_open_id_some (w : World) (id : Nat) (h : (w.files id).isSome = true) :
    (data_open_id w id).1 = some ⟨id, 0, false, false⟩ := by
  unfold data_open_id data_open_id_mode sys_open
  simp only [Bool.false_and, Bool.false_eq_true, if_false]
  cases hf : w.files id with
  | none => rw [hf] at h; exact absurd h (by simp)
  | some c => rfl

/-- The descriptor a reader gets for a segment that exists names that segment. -/
theorem data_grab_dataid_some (root : data_root_t) (w : World) (dataid : Nat)
    (hroot : root.datafd.file = root.dataid) (h : (w.files dataid).isSome = true) :
    ∃ fd, fd.file = dataid ∧ data_grab_dataid root w dataid = (some fd, w) := by
  unfold data_grab_dataid
  by_cases hd : root.dataid = dataid
  · simp only [hd, ne_eq, not_true_eq_false, if_false]
    exact ⟨root.datafd, by rw [hroot, hd], rfl⟩
  · simp only [ne_eq, hd, not_false_eq_true, if_true]
    exact ⟨⟨dataid, 0, false, false⟩, rfl, Prod.ext (data_open_id_some w dataid h)
      (data_open_id_world w dataid)⟩

theorem data_match_value (L : Layout) (root : data_root_t) (w : World) (key : List Byte)
    (o dataid : Nat) (hroot : root.datafd.file = root.dataid) (h : (w.files dataid).isSome = true) :
    ∃ fd, fd.file = dataid ∧
      (data_match L root w key o dataid).1 = (data_match_real L w fd key o).1 := by
  obtain ⟨fd, hf, hg⟩ := data_grab_dataid_some root w dataid hroot h
  exact ⟨fd, hf, by simp [data_match, hg]⟩

theorem data_check_value (L : Layout) (root : data_root_t) (w : World)
    (o dataid : Nat) (hroot : root.datafd.file = root.dataid) (h : (w.files dataid).isSome = true) :
    ∃ fd, fd.file = dataid ∧
      (data_check L root w o dataid).1 = (data_check_real L w fd o).1 := by
  obtain ⟨fd, hf, hg⟩ := data_grab_dataid_some root w dataid hroot h
  exact ⟨fd, hf, by simp [data_check, hg]⟩

theorem data_get_value (L : Layout) (root : data_root_t) (w : World)
    (o len dataid idl : Nat) (hroot : root.datafd.file = root.dataid)
    (h : (w.files dataid).isSome = true) :
    ∃ fd, fd.file = dataid ∧
      (data_get L root w o len dataid idl).1 = (data_get_real L w fd o len idl).1 := by
  obtain ⟨fd, hf, hg⟩ := data_grab_dataid_some root w dataid hroot h
  exact ⟨fd, hf, by simp [data_get, hg]⟩

/-- Function `data_match` reads only: the world is the same, and of the root
only the descriptor can differ. -/
theorem data_match_frame (L : Layout) (root : data_root_t) (w : World) (key : List Byte)
    (o dataid : Nat) :
    (data_match L root w key o dataid).2.2 = w ∧
    ∃ fd, (data_match L root w key o dataid).2.1 = { root with datafd := fd } := by
  unfold data_match data_grab_dataid data_release_dataid
  by_cases hd : root.dataid = dataid
  · rw [if_neg (by simp [hd])]
    simp only
    rw [if_neg (by simp [hd])]
    exact ⟨trivial, _, rfl⟩
  · rw [if_pos hd]
    have hw := data_open_id_world w dataid
    generalize data_open_id w dataid = r at hw
    obtain ⟨ofd, w1⟩ := r
    simp only at hw
    subst hw
    cases ofd with
    | none => exact ⟨rfl, root.datafd, rfl⟩
    | some fd =>
      simp only
      rw [if_pos hd]
      exact ⟨trivial, root.datafd, rfl⟩

theorem data_match_real_deleted {L : Layout} (w : World) (fd : Fd) (key : List Byte) (o : Nat)
    (hfl : hdr_flags L (peek (w.content fd.file) o L.sizeof_data_entry_header_t)
      &&& DATA_ENTRY_DELETED ≠ 0) :
    (data_match_real L w fd key o).1 = 0 := by
  unfold data_match_real
  simp only [sys_lseek_set, sys_read]
  split_ifs <;> rfl

theorem peek_getElem? (file : List Byte) (o n j : Nat) (hj : j < n) :
    (peek file o n)[j]? = file[o + j]? := by
  unfold peek
  rw [List.getElem?_take_of_lt hj, List.getElem?_drop]

/-- What a successful `data_insert` leaves, in terms of what the world holds. -/
theorem data_insert_world {L : Layout} (hL : L.wf) (root : data_root_t) (w : World)
    (data id : List Byte) (out1 out2 : WriteOutcome) (o : Nat) (root1 : data_root_t) (w1 : World)
    (hins : data_insert L root w data id out1 out2 = (o, root1, w1)) (hok : o ≠ 0) :
    o = w.size root.datafd.file ∧
    (∃ pos ls, root1 =
      { root with datafd := { root.datafd with pos := pos }, previous := o, lastsync := ls }) ∧
    w1.content root.datafd.file = w.content root.datafd.file
      ++ (data_insert_header L id.length data.length root.previous (data_crc32 data) ++ id)
      ++ data ∧
    EntryAt L (w1.content root.datafd.file) o
      (data_insert_header L id.length data.length root.previous (data_crc32 data)) id data ∧
    (w1.files root.datafd.file).isSome = true ∧
    (∀ s, s ≠ root.datafd.file → w1.files s = w.files s) ∧ w1.rofs = w.rofs ∧
    w1.size root.datafd.file ≤ OFF_MAX := by
  have hcases := data_insert_cases L root w data id out1 out2
  simp only at hcases
  rcases hcases with ⟨⟨_, _, _, hb⟩, ls, fs, h⟩ | ⟨_, h⟩
  · rw [h] at hins
    simp only [Prod.mk.injEq] at hins
    obtain ⟨rfl, rfl, rfl⟩ := hins
    have hs := data_insert_header_spec hL id.length data.length root.previous (data_crc32 data)
    have hc := content_update w root.datafd.file (w.content root.datafd.file
      ++ (data_insert_header L id.length data.length root.previous (data_crc32 data) ++ id)
      ++ data) fs
    refine ⟨rfl, ⟨_, ls, rfl⟩, hc, ?_, ?_, ?_, rfl, ?_⟩
    · rw [hc]
      exact EntryAt.of_append L (w.content root.datafd.file) _ id data hs.1
    · show (Function.update w.files root.datafd.file _ root.datafd.file).isSome = true
      rw [Function.update_same]; rfl
    · intro s hs
      show Function.update w.files root.datafd.file _ s = _
      rw [Function.update_noteq hs]
    · rw [size_update]
      simp only [List.length_append, World.size] at hb ⊢
      omega
  · rw [hins] at h
    exact absurd h hok

/-! ### What each call leaves alone -/

theorem data_match_real_fd (L : Layout) (w : World) (fd : Fd) (key : List Byte) (o : Nat) :
    ∃ p, (data_match_real L w fd key o).2 = { fd with pos := p } := by
  unfold data_match_real
  simp only [sys_lseek_set, sys_read]
  split_ifs <;> exact ⟨_, rfl⟩

theorem data_check_real_fd (L : Layout) (w : World) (fd : Fd) (o : Nat) :
    ∃ p, (data_check_real L w fd o).2 = { fd with pos := p } := by
  unfold data_check_real
  simp only [sys_lseek_set, sys_read, sys_lseek_cur]
  split_ifs <;> exact ⟨_, rfl⟩

theorem data_get_real_fd (L : Layout) (w : World) (fd : Fd) (o len idl : Nat) :
    ∃ p, (data_get_real L w fd o len idl).2 = { fd with pos := p } := by
  unfold data_get_real data_length_from_offset
  simp only [sys_lseek_set, sys_read]
  split_ifs <;> exact ⟨_, rfl⟩

theorem Same.inv {L : Layout} {st st1 : State} (h : Same st st1) (hi : Inv L st) : Inv L st1 := by
  obtain ⟨⟨pos, prev, ls, hr⟩, hro, hsz⟩ := h
  obtain ⟨h1, h2⟩ := hi
  refine ⟨by rw [hr]; exact h1, ?_⟩
  intro hrofs
  rw [hro] at hrofs
  obtain ⟨h3, h4⟩ := h2 hrofs
  refine ⟨by rw [hr]; exact h3, ?_⟩
  have := hsz st.1.dataid
  rw [hr]
  exact Nat.le_trans h4 this

theorem size_update_le (w : World) (f : Nat) (c : File) (fs : Nat)
    (h : (w.content f).length ≤ c.length) (i : Nat) :
    w.size i ≤ World.size { w with files := Function.update w.files f (some c), fsyncs := fs } i := by
  by_cases hi : i = f
  · subst hi
    rw [size_update]
    exact h
  · simp [World.size, World.content, Function.update_noteq hi]

theorem data_insert_same (L : Layout) (st : State) (data id : List Byte) (out1 out2 : WriteOutcome) :
    Same st (data_insert L st.1 st.2 data id out1 out2).2 := by
  obtain ⟨r, pos, prev, ls, fs, h | ⟨c, _, hc, h⟩⟩ :=
    data_insert_frame L st.1 st.2 data id out1 out2
  · rw [h]
    exact ⟨⟨pos, prev, ls, rfl⟩, rfl, fun i => Nat.le_refl _⟩
  · rw [h]
    exact ⟨⟨pos, prev, ls, rfl⟩, rfl, size_update_le _ _ _ _ hc⟩

theorem Same.refl_pos (st : State) (fd : Fd) (h : ∃ p, fd = { st.1.datafd with pos := p }) :
    Same st ({ st.1 with datafd := fd }, st.2) := by
  obtain ⟨p, rfl⟩ := h
  exact ⟨⟨p, st.1.previous, st.1.lastsync, rfl⟩, rfl, fun _ => Nat.le_refl _⟩

theorem Same.refl (st : State) : Same st (st.1, st.2) :=
  ⟨⟨st.1.datafd.pos, st.1.previous, st.1.lastsync, rfl⟩, rfl, fun _ => Nat.le_refl _⟩

theorem data_grab_dataid_cases (root : data_root_t) (w : World) (dataid : Nat) :
    (root.dataid = dataid ∧ data_grab_dataid root w dataid = (some root.datafd, w)) ∨
    (root.dataid ≠ dataid ∧ ∃ ofd, data_grab_dataid root w dataid = (ofd, w)) := by
  unfold data_grab_dataid
  by_cases hd : root.dataid = dataid
  · left; exact ⟨hd, by rw [if_neg (by simp [hd])]⟩
  · right
    refine ⟨hd, (data_open_id w dataid).1, ?_⟩
    rw [if_pos hd]
    exact Prod.ext rfl (data_open_id_world w dataid)

theorem data_match_same (L : Layout) (st : State) (key : List Byte) (o dataid : Nat) :
    Same st (data_match L st.1 st.2 key o dataid).2 := by
  unfold data_match data_release_dataid
  rcases data_grab_dataid_cases st.1 st.2 dataid with ⟨hd, hg⟩ | ⟨hd, ofd, hg⟩
  · rw [hg]
    simp only
    rw [if_neg (by simp [hd])]
    exact Same.refl_pos st _ (data_match_real_fd L st.2 st.1.datafd key o)
  · rw [hg]
    cases ofd with
    | none => exact Same.refl st
    | some fd =>
      simp only
      rw [if_pos hd]
      exact Same.refl st

theorem data_check_same (L : Layout) (st : State) (o dataid : Nat) :
    Same st (data_check L st.1 st.2 o dataid).2 := by
  unfold data_check data_release_dataid
  rcases data_grab_dataid_cases st.1 st.2 dataid with ⟨hd, hg⟩ | ⟨hd, ofd, hg⟩
  · rw [hg]
    simp only
    rw [if_neg (by simp [hd])]
    exact Same.refl_pos st _ (data_check_real_fd L st.2 st.1.datafd o)
  · rw [hg]
    cases ofd with
    | none => exact Same.refl st
    | some fd =>
      simp only
      rw [if_pos hd]
      exact Same.refl st

theorem data_get_same (L : Layout) (st : State) (o len dataid idl : Nat) :
    Same st (data_get L st.1 st.2 o len dataid idl).2 := by
  unfold data_get data_release_dataid
  rcases data_grab_dataid_cases st.1 st.2 dataid with ⟨hd, hg⟩ | ⟨hd, ofd, hg⟩
  · rw [hg]
    simp only
    rw [if_neg (by simp [hd])]
    exact Same.refl_pos st _ (data_get_real_fd L st.2 st.1.datafd o len idl)
  · rw [hg]
    cases ofd with
    | none => exact Same.refl st
    | some fd =>
      simp only
      rw [if_pos hd]
      exact Same.refl st

theorem data_get_dataid_rw_world (w : World) (id : Nat) :
    (data_get_dataid_rw w id).2 = w ∧
    ∀ fd, (data_get_dataid_rw w id).1 = some fd → fd = ⟨id, 0, false, true⟩ := by
  unfold data_get_dataid_rw data_open_id_mode sys_open
  cases hr : w.rofs with
  | true => simp
  | false =>
    cases hf : w.files id with
    | none => simp
    | some c =>
      simp only [Bool.and_false, Bool.false_eq_true, if_false]
      exact ⟨trivial, fun fd h => (Option.some.inj h).symm⟩

theorem data_delete_same (L : Layout) (st : State) (o dataid : Nat) (out : WriteOutcome) :
    Same st (data_delete L st.1 st.2 o dataid out).2 := by
  unfold data_delete
  obtain ⟨hw, hfd⟩ := data_get_dataid_rw_world st.2 dataid
  generalize data_get_dataid_rw st.2 dataid = r at hw hfd
  obtain ⟨ofd, w1⟩ := r
  simp only at hw hfd
  subst hw
  cases ofd with
  | none => exact Same.refl st
  | some fd =>
    simp only
    unfold data_delete_real
    simp only [sys_lseek_set, sys_read]
    split
    · exact Same.refl st
    · rcases sys_write_cases st.2 { fd with pos := o }
        (set_flags L (peek (st.2.content fd.file) o L.sizeof_data_entry_header_t)
          (hdr_flags L (peek (st.2.content fd.file) o L.sizeof_data_entry_header_t)
            ||| DATA_ENTRY_DELETED)) out with h | ⟨bs, p, _, h⟩
      · rw [h]
        split <;> exact Same.refl st
      · rw [h]
        have hs : Same st (st.1, { st.2 with files := Function.update st.2.files fd.file (some (file_pwrite (st.2.content fd.file) p bs)) }) :=
          ⟨⟨st.1.datafd.pos, st.1.previous, st.1.lastsync, rfl⟩, rfl,
            size_update_le _ _ _ _ (file_pwrite_length _ _ _)⟩
        split <;> exact hs

theorem data_open_final_loop_frame (L : Layout) (w : World) (fuel : Nat) (root : data_root_t) :
    ∃ pos prev, data_open_final_loop L w fuel root
      = { root with previous := prev, datafd := { root.datafd with pos := pos } } := by
  induction fuel generalizing root with
  | zero => exact ⟨root.datafd.pos, root.previous, rfl⟩
  | succ n ih =>
    unfold data_open_final_loop
    simp only [sys_read, sys_lseek_cur]
    split
    · obtain ⟨pos, prev, h⟩ := ih { root with
        previous := (root.datafd.pos + (peek (w.content root.datafd.file) root.datafd.pos
            L.sizeof_data_entry_header_t).length + 0 + 2 ^ 64 - L.sizeof_data_header_t) % 2 ^ 64,
        datafd := { root.datafd with pos := root.datafd.pos
          + (peek (w.content root.datafd.file) root.datafd.pos L.sizeof_data_entry_header_t).length
          + 0 + (hdr_datalength L (peek (w.content root.datafd.file) root.datafd.pos
              L.sizeof_data_entry_header_t)
            + hdr_idlength L (peek (w.content root.datafd.file) root.datafd.pos
              L.sizeof_data_entry_header_t)) % 2 ^ 32 } }
      rw [h]
      exact ⟨pos, prev, rfl⟩
    · exact ⟨_, root.previous, rfl⟩

theorem size_create (w : World) (f i : Nat) (h : w.files f = none) :
    World.size { w with files := Function.update w.files f (some []) } i = w.size i := by
  by_cases hi : i = f
  · subst hi; simp [World.size, World.content, h]
  · simp [World.size, World.content, Function.update_noteq hi]

theorem file_pwrite_zero_length (file bs : List Byte) :
    bs.length ≤ (file_pwrite file 0 bs).length := by
  unfold file_pwrite
  split
  · rename_i h; subst h; simp
  · simp

/-- What `data_initialize` leaves when it returns. -/
theorem data_initialize_spec {L : Layout} (hL : L.wf) (filename : Nat) (root : data_root_t)
    (w : World) (out : WriteOutcome) (root1 : data_root_t) (w1 : World)
    (h : data_initialize L filename root w out = some (root1, w1)) :
    (∃ ls, root1 = { root with lastsync := ls }) ∧ w1.rofs = w.rofs ∧
    (∀ i, w.size i ≤ w1.size i) ∧
    (w.rofs = false → L.sizeof_data_header_t ≤ w1.size filename) := by
  unfold data_initialize sys_open at h
  cases hr : w.rofs with
  | true =>
    simp only [hr, Bool.and_self, if_true] at h
    simp only [Option.some.injEq, Prod.mk.injEq] at h
    obtain ⟨rfl, rfl⟩ := h
    exact ⟨⟨root.lastsync, rfl⟩, hr, fun i => Nat.le_refl _, fun h => by simp at h⟩
  | false =>
    simp only [hr, Bool.and_false, Bool.false_eq_true, if_false, if_true] at h
    have key : ∀ w0 : World, w0.rofs = false → (∀ i, w.size i ≤ w0.size i) →
        (let x := data_write w0 ⟨filename, 0, false, true⟩ (L.data_header w0.now root.dataid)
            true root out
         (if x.1 = 0 then none else some (x.2.2.1, x.2.2.2)) = some (root1, w1)) →
        (∃ ls, root1 = { root with lastsync := ls }) ∧ w1.rofs = false ∧
          (∀ i, w.size i ≤ w1.size i) ∧ (false = false → L.sizeof_data_header_t ≤ w1.size filename) := by
      intro w0 hr0 hsz hx
      simp only at hx
      unfold data_write at hx
      rcases sys_write_cases w0 ⟨filename, 0, false, true⟩ (L.data_header w0.now root.dataid) out
        with hs | ⟨bs, p, _, hs⟩
      · rw [hs] at hx
        simp at hx
      · by_cases hresp : (sys_write w0 ⟨filename, 0, false, true⟩
            (L.data_header w0.now root.dataid) out).1
            = ((L.data_header w0.now root.dataid).length : Int)
        · have hwh := sys_write_whole w0 ⟨filename, 0, false, true⟩
            (L.data_header w0.now root.dataid) out rfl hresp
          rw [hwh] at hx
          simp only [Int.natCast_nonneg, not_lt.mpr, if_false, ne_eq, not_true_eq_false,
            if_true] at hx
          obtain ⟨r, ls, fs, hsc⟩ := data_sync_check_eq root
            { w0 with files := Function.update w0.files filename (some (file_pwrite (w0.content filename) 0 (L.data_header w0.now root.dataid))) }
          simp only at hsc
          rw [hsc] at hx
          simp only [one_ne_zero, if_false, Option.some.injEq, Prod.mk.injEq] at hx
          obtain ⟨rfl, rfl⟩ := hx
          refine ⟨⟨ls, rfl⟩, hr0, ?_, ?_⟩
          · intro i
            exact Nat.le_trans (hsz i) (size_update_le _ _ _ _ (file_pwrite_length _ _ _) i)
          · intro _
            rw [size_update, ← hL.header_len w0.now root.dataid]
            exact file_pwrite_zero_length _ _
        · exfalso
          generalize sys_write w0 ⟨filename, 0, false, true⟩
            (L.data_header w0.now root.dataid) out = sw at hx hresp
          obtain ⟨resp, fd1, w2⟩ := sw
          simp only at hx hresp
          split_ifs at hx <;> rename_i hz <;> exact hz rfl
    cases hf : w.files filename with
    | some c =>
      rw [hf] at h
      exact key w hr (fun i => Nat.le_refl _) h
    | none =>
      rw [hf] at h
      refine key { w with files := Function.update w.files filename (some []), rofs := false } rfl
        (fun i => ?_) h
      have := size_create w filename i hf
      simp only [World.size, World.content] at this ⊢
      rw [this]

/-- What `data_open_final` leaves when it returns. -/
theorem data_open_final_spec (L : Layout) (root : data_root_t) (w : World)
    (root1 : data_root_t) (w1 : World) (h : data_open_final L root w = some (root1, w1)) :
    root1.dataid = root.dataid ∧ root1.datafd.file = root.datafile ∧ w1.rofs = w.rofs ∧
    (∀ i, w1.size i = w.size i) ∧ (w.rofs = false → root1.datafd.writable = true) := by
  unfold data_open_final sys_open at h
  cases hr : w.rofs with
  | true =>
    simp only [hr, Bool.and_self, Bool.and_true, if_true, Bool.false_and, Bool.false_eq_true,
      if_false, ne_eq, not_true_eq_false] at h
    cases hf : w.files root.datafile with
    | none => rw [hf] at h; simp at h
    | some c =>
      rw [hf] at h
      simp only [sys_lseek_set, Option.some.injEq, Prod.mk.injEq] at h
      obtain ⟨h1, h2⟩ := h
      subst h2
      obtain ⟨pos, prev, hl⟩ := data_open_final_loop_frame L w (w.size root.datafile + 1)
        { root with datafd := ⟨root.datafile, L.sizeof_data_header_t, false, false⟩, previous := L.sizeof_data_header_t }
      rw [hl] at h1
      subst h1
      exact ⟨rfl, rfl, hr, fun i => rfl, fun h => by simp at h⟩
  | false =>
    simp only [hr, Bool.and_false, Bool.false_eq_true, if_false, if_true] at h
    cases hf : w.files root.datafile with
    | none =>
      rw [hf] at h
      simp only [sys_lseek_set, Option.some.injEq, Prod.mk.injEq] at h
      obtain ⟨h1, h2⟩ := h
      subst h2
      obtain ⟨pos, prev, hl⟩ := data_open_final_loop_frame L
        { w with files := Function.update w.files root.datafile (some []), rofs := false }
        (World.size { w with files := Function.update w.files root.datafile (some []), rofs := false } root.datafile + 1)
        { root with datafd := ⟨root.datafile, L.sizeof_data_header_t, true, true⟩, previous := L.sizeof_data_header_t }
      rw [hl] at h1
      subst h1
      refine ⟨rfl, rfl, rfl, fun i => ?_, fun _ => rfl⟩
      have := size_create w root.datafile i hf
      simp only [World.size, World.content] at this ⊢
      rw [this]
    | some c =>
      rw [hf] at h
      simp only [sys_lseek_set, Option.some.injEq, Prod.mk.injEq] at h
      obtain ⟨h1, h2⟩ := h
      subst h2
      obtain ⟨pos, prev, hl⟩ := data_open_final_loop_frame L w (w.size root.datafile + 1)
        { root with datafd := ⟨root.datafile, L.sizeof_data_header_t, true, true⟩, previous := L.sizeof_data_header_t }
      rw [hl] at h1
      subst h1
      exact ⟨rfl, rfl, hr, fun i => rfl, fun _ => rfl⟩

theorem data_jump_next_inv {L : Layout} (hL : L.wf) (st : State) (newid : Nat)
    (out : WriteOutcome) (r : Nat × data_root_t × World)
    (h : data_jump_next L st.1 st.2 newid out = some r) :
    Inv L r.2 ∧ r.2.2.rofs = st.2.rofs ∧ ∀ i, st.2.size i ≤ r.2.2.size i := by
  unfold data_jump_next data_set_id at h
  simp only at h
  cases hi : data_initialize L newid { st.1 with dataid := newid, datafile := newid } st.2 out with
  | none => rw [hi] at h; simp at h
  | some p =>
    obtain ⟨root2, w1⟩ := p
    rw [hi] at h
    simp only at h
    cases ho : data_open_final L root2 w1 with
    | none => rw [ho] at h; simp at h
    | some q =>
      obtain ⟨root3, w2⟩ := q
      rw [ho] at h
      simp only [Option.some.injEq] at h
      subst h
      obtain ⟨⟨ls, hr2⟩, hro1, hsz1, hH⟩ := data_initialize_spec hL _ _ _ _ _ _ hi
      obtain ⟨hd, hf, hro2, hsz2, hw⟩ := data_open_final_spec L _ _ _ _ ho
      have hd2 : root2.dataid = newid := by rw [hr2]
      have hf2 : root2.datafile = newid := by rw [hr2]
      refine ⟨⟨by simp only; rw [hf, hd, hd2, hf2], ?_⟩, by simp only; rw [hro2, hro1], ?_⟩
      · intro hrofs
        simp only at hrofs ⊢
        rw [hro2, hro1] at hrofs
        refine ⟨hw (by rw [hro1]; exact hrofs), ?_⟩
        rw [hd, hd2, hsz2]
        exact hH hrofs
      · intro i
        simp only
        rw [hsz2]
        exact hsz1 i

theorem data_init_inv {L : Layout} (hL : L.wf) (settings : settings_t) (w : World) (dataid : Nat)
    (out : WriteOutcome) (st : State) (h : data_init L settings w dataid out = some st) :
    Inv L st ∧ st.2.rofs = w.rofs := by
  unfold data_init data_set_id at h
  simp only at h
  generalize hroot : ({ datafile := dataid, dataid := dataid, datafd := ⟨0, 0, false, false⟩, previous := 0, sync := settings.sync, synctime := settings.synctime, lastsync := 0 } : data_root_t) = root at h
  cases hi : data_initialize L dataid root w out with
  | none => rw [hi] at h; simp at h
  | some p =>
    obtain ⟨root2, w1⟩ := p
    rw [hi] at h
    simp only at h
    obtain ⟨root3, w2⟩ := st
    obtain ⟨⟨ls, hr2⟩, hro1, hsz1, hH⟩ := data_initialize_spec hL _ _ _ _ _ _ hi
    obtain ⟨hd, hf, hro2, hsz2, hw⟩ := data_open_final_spec L _ _ _ _ h
    have hd2 : root2.dataid = dataid := by rw [hr2, ← hroot]
    have hf2 : root2.datafile = dataid := by rw [hr2, ← hroot]
    refine ⟨⟨by simp only; rw [hf, hd, hd2, hf2], ?_⟩, by simp only; rw [hro2, hro1]⟩
    intro hrofs
    simp only at hrofs ⊢
    rw [hro2, hro1] at hrofs
    refine ⟨hw (by rw [hro1]; exact hrofs), ?_⟩
    rw [hd, hd2, hsz2]
    exact hH hrofs

theorem Same.trans_size {st st1 : State} (h : Same st st1) :
    st1.2.rofs = st.2.rofs ∧ (∀ i, st.2.size i ≤ st1.2.size i) ∧ st1.1.dataid = st.1.dataid := by
  obtain ⟨⟨pos, prev, ls, hr⟩, hro, hsz⟩ := h
  exact ⟨hro, hsz, by rw [hr]⟩

/-- One call keeps the invariant and shrinks no file; an insert that did not
return 0 went to the current segment, below its new size. -/
theorem step_inv {L : Layout} (hL : L.wf) (st st1 : State) (op : Op) (r : Option (Nat × Nat))
    (h : step L st op = some (st1, r)) (hi : Inv L st) :
    Inv L st1 ∧ st1.2.rofs = st.2.rofs ∧ (∀ i, st.2.size i ≤ st1.2.size i) ∧
    ∀ p, r = some p → p.2 < st1.2.size p.1 := by
  cases op with
  | insert data id out1 out2 =>
    simp only [step, Option.some.injEq, Prod.mk.injEq] at h
    obtain ⟨h1, h2⟩ := h
    have hs := data_insert_same L st data id out1 out2
    rw [h1] at hs
    refine ⟨hs.inv hi, hs.trans_size.1, hs.trans_size.2.1, ?_⟩
    intro p hp
    rw [hp] at h2
    by_cases h0 : (data_insert L st.1 st.2 data id out1 out2).1 = 0
    · rw [if_pos h0] at h2; exact absurd h2 (by simp)
    · rw [if_neg h0] at h2
      have hp2 := Option.some.inj h2
      obtain ⟨ho, _, hc, _, _, _, _, _⟩ := data_insert_world hL st.1 st.2 data id out1 out2
        _ _ _ (triple_eta _) h0
      have hlen := (data_insert_header_spec hL id.length data.length st.1.previous
        (data_crc32 data)).1
      have hE : 0 < L.sizeof_data_entry_header_t := by have := hL.flags_in; omega
      rw [← hp2, ← h1]
      simp only
      rw [← hi.1]
      unfold World.size at ho ⊢
      rw [hc, ho]
      simp only [List.length_append, hlen]
      omega
  | get offset length dataid idlength =>
    simp only [step, Option.some.injEq, Prod.mk.injEq] at h
    obtain ⟨h1, h2⟩ := h
    have hs := data_get_same L st offset length dataid idlength
    rw [h1] at hs
    exact ⟨hs.inv hi, hs.trans_size.1, hs.trans_size.2.1, fun p hp => by rw [hp] at h2; simp at h2⟩
  | check offset dataid =>
    simp only [step, Option.some.injEq, Prod.mk.injEq] at h
    obtain ⟨h1, h2⟩ := h
    have hs := data_check_same L st offset dataid
    rw [h1] at hs
    exact ⟨hs.inv hi, hs.trans_size.1, hs.trans_size.2.1, fun p hp => by rw [hp] at h2; simp at h2⟩
  | lookup id offset dataid =>
    simp only [step, Option.some.injEq, Prod.mk.injEq] at h
    obtain ⟨h1, h2⟩ := h
    have hs := data_match_same L st id offset dataid
    rw [h1] at hs
    exact ⟨hs.inv hi, hs.trans_size.1, hs.trans_size.2.1, fun p hp => by rw [hp] at h2; simp at h2⟩
  | delete offset dataid out =>
    simp only [step, Option.some.injEq, Prod.mk.injEq] at h
    obtain ⟨h1, h2⟩ := h
    have hs := data_delete_same L st offset dataid out
    rw [h1] at hs
    exact ⟨hs.inv hi, hs.trans_size.1, hs.trans_size.2.1, fun p hp => by rw [hp] at h2; simp at h2⟩
  | jump newid out =>
    simp only [step] at h
    cases hj : data_jump_next L st.1 st.2 newid out with
    | none => rw [hj] at h; simp at h
    | some q =>
      rw [hj] at h
      simp only [Option.some.injEq, Prod.mk.injEq] at h
      obtain ⟨h1, h2⟩ := h
      obtain ⟨a, b, c⟩ := data_jump_next_inv hL st newid out q hj
      rw [h1] at a b c
      exact ⟨a, b, c, fun p hp => by rw [hp] at h2; simp at h2⟩
  | tick seconds =>
    simp only [step, Option.some.injEq, Prod.mk.injEq] at h
    obtain ⟨h1, h2⟩ := h
    subst h1
    exact ⟨hi, rfl, fun i => Nat.le_refl _, fun p hp => by rw [hp] at h2; simp at h2⟩

/-- A history keeps the invariant and shrinks no file, and every offset it
logged lies below the final size of its segment. -/
theorem run_inv {L : Layout} (hL : L.wf) (ops : List Op) (st st1 : State)
    (log : List (Nat × Nat)) (h : run L ops st = some (st1, log)) (hi : Inv L st) :
    Inv L st1 ∧ st1.2.rofs = st.2.rofs ∧ (∀ i, st.2.size i ≤ st1.2.size i) ∧
    ∀ p ∈ log, p.2 < st1.2.size p.1 := by
  induction ops generalizing st log with
  | nil =>
    simp only [run, Option.some.injEq, Prod.mk.injEq] at h
    obtain ⟨rfl, rfl⟩ := h
    exact ⟨hi, rfl, fun i => Nat.le_refl _, fun p hp => by simp at hp⟩
  | cons op ops ih =>
    simp only [run] at h
    cases hs : step L st op with
    | none => rw [hs] at h; simp at h
    | some x =>
      obtain ⟨st2, r⟩ := x
      rw [hs] at h
      simp only at h
      cases hr : run L ops st2 with
      | none => rw [hr] at h; simp at h
      | some y =>
        obtain ⟨st3, log2⟩ := y
        rw [hr] at h
        simp only [Option.some.injEq, Prod.mk.injEq] at h
        obtain ⟨rfl, rfl⟩ := h
        obtain ⟨a1, b1, c1, d1⟩ := step_inv hL st st2 op r hs hi
        obtain ⟨a2, b2, c2, d2⟩ := ih st2 log2 hr a1
        refine ⟨a2, by rw [b2, b1], fun i => Nat.le_trans (c1 i) (c2 i), ?_⟩
        intro p hp
        rcases List.mem_append.mp hp with hp | hp
        · cases r with
          | none => simp at hp
          | some q =>
            simp only [Option.toList_some, List.mem_singleton] at hp
            subst hp
            exact Nat.lt_of_lt_of_le (d1 p rfl) (c2 p.1)
        · exact d2 p hp

theorem freshWorld_rofs : emptyWorld.rofs = false := rfl

theorem sys_write_whole_ok (w : World) (fd : Fd) (buf : List Byte) (out : WriteOutcome)
    (ha : fd.append = false) (h : (sys_write w fd buf out).1 = (buf.length : Int)) :
    fd.pos + buf.length ≤ OFF_MAX := by
  cases out with
  | error => simp [sys_write] at h
  | upto n =>
    unfold sys_write at h
    simp only [ha, Bool.false_eq_true, if_false] at h
    cases hw : fd.writable with
    | false => simp [hw] at h
    | true =>
      simp only [hw, Bool.true_eq_false, if_false] at h
      by_cases hbig : OFF_MAX < fd.pos + (buf.take n).length
      · rw [if_pos hbig] at h; simp at h
      · rw [if_neg hbig] at h
        simp only at h
        have hl : (buf.take n).length = buf.length := by exact_mod_cast h
        omega

theorem data_write_ok_resp (w : World) (fd : Fd) (buf : List Byte) (syncer : Bool)
    (root : data_root_t) (out : WriteOutcome) (h : (data_write w fd buf syncer root out).1 ≠ 0) :
    (sys_write w fd buf out).1 = (buf.length : Int) := by
  unfold data_write at h
  by_contra hne
  generalize sys_write w fd buf out = r at h hne
  obtain ⟨resp, fd1, w1⟩ := r
  simp only at h hne
  split_ifs at h <;> exact h rfl

/-- On a writable file system `data_initialize` puts the header at the
start of the file, whatever the file held. -/
theorem data_initialize_content {L : Layout} (filename : Nat) (root : data_root_t)
    (w : World) (out : WriteOutcome) (root1 : data_root_t) (w1 : World) (hr : w.rofs = false)
    (h : data_initialize L filename root w out = some (root1, w1)) :
    w1.content filename = file_pwrite (w.content filename) 0 (L.data_header w.now root.dataid) ∧
    (L.data_header w.now root.dataid).length ≤ OFF_MAX ∧ (w1.files filename).isSome = true ∧
    w1.now = w.now := by
  unfold data_initialize sys_open at h
  simp only [hr, Bool.and_false, Bool.false_eq_true, if_false, if_true] at h
  have key : ∀ w0 : World, w0.content filename = w.content filename → w0.now = w.now →
      (let x := data_write w0 ⟨filename, 0, false, true⟩ (L.data_header w0.now root.dataid)
          true root out
       (if x.1 = 0 then none else some (x.2.2.1, x.2.2.2)) = some (root1, w1)) →
      w1.content filename = file_pwrite (w.content filename) 0 (L.data_header w.now root.dataid) ∧
      (L.data_header w.now root.dataid).length ≤ OFF_MAX ∧ (w1.files filename).isSome = true ∧
      w1.now = w.now := by
    intro w0 hc hn hx
    simp only at hx
    by_cases h0 : (data_write w0 ⟨filename, 0, false, true⟩ (L.data_header w0.now root.dataid)
        true root out).1 = 0
    · rw [if_pos h0] at hx; simp at hx
    · rw [if_neg h0] at hx
      have hresp := data_write_ok_resp _ _ _ _ _ _ h0
      have hwh := sys_write_whole w0 ⟨filename, 0, false, true⟩ _ out rfl hresp
      have hbd := sys_write_whole_ok w0 ⟨filename, 0, false, true⟩ _ out rfl hresp
      unfold data_write at hx
      rw [hwh] at hx
      simp only [Int.natCast_nonneg, not_lt.mpr, if_false, ne_eq, not_true_eq_false,
        if_true, Option.some.injEq, Prod.mk.injEq] at hx
      obtain ⟨r, ls, fs, hsc⟩ := data_sync_check_eq root
        { w0 with files := Function.update w0.files filename (some (file_pwrite (w0.content filename) 0 (L.data_header w0.now root.dataid))) }
      simp only at hsc
      rw [hsc] at hx
      obtain ⟨_, rfl⟩ := hx
      rw [content_update, hc]
      simp only [Nat.zero_add] at hbd
      rw [hn] at hbd ⊢
      refine ⟨rfl, hbd, ?_, rfl⟩
      show (Function.update w0.files filename _ filename).isSome = true
      rw [Function.update_same]; rfl
  cases hf : w.files filename with
  | some file =>
    rw [hf] at h
    exact key w rfl rfl h
  | none =>
    rw [hf] at h
    refine key { w with files := Function.update w.files filename (some []), rofs := false } ?_ rfl h
    simp [World.content, hf]

/-- On a writable file system `data_open_final` opens the existing file in
append mode and scans it from `sizeof(data_header_t)`. -/
theorem data_open_final_eq (L : Layout) (root : data_root_t) (w : World) (hr : w.rofs = false)
    (hf : (w.files root.datafile).isSome = true) :
    data_open_final L root w = some (data_open_final_loop L w (w.size root.datafile + 1)
      { root with datafd := ⟨root.datafile, L.sizeof_data_header_t, true, true⟩, previous := L.sizeof_data_header_t }, w) := by
  unfold data_open_final sys_open
  simp only [hr, Bool.and_false, Bool.false_eq_true, if_false]
  cases hfile : w.files root.datafile with
  | none => rw [hfile] at hf; simp at hf
  | some file => simp [sys_lseek_set]

/-- The scan stops where no whole entry header is left. -/
theorem data_open_final_loop_stop (L : Layout) (w : World) (fuel : Nat) (root : data_root_t)
    (h : (peek (w.content root.datafd.file) root.datafd.pos L.sizeof_data_entry_header_t).length
      ≠ L.sizeof_data_entry_header_t) :
    (data_open_final_loop L w (fuel + 1) root).previous = root.previous := by
  unfold data_open_final_loop
  simp only [sys_read]
  rw [if_neg h]

theorem peek_append_left (file more : List Byte) (o n : Nat) (h : o + n ≤ file.length) :
    peek (file ++ more) o n = peek file o n := by
  unfold peek
  rw [List.drop_append_of_le_length (by omega), List.take_append_of_le_length]
  simp [List.length_drop]; omega

theorem Linked.extend {L : Layout} {file : File} {b a : Nat} (h : Linked L file b a)
    (more : List Byte) : Linked L (file ++ more) b a := by
  obtain ⟨h1, h2, h3⟩ := h
  refine ⟨h1, by simp; omega, ?_⟩
  rw [peek_append_left _ _ _ _ h2]
  exact h3

/-- A successful insert extends the chain by the offset it returns. -/
theorem ChainInv.insert {L : Layout} (hL : L.wf) (st : State) (l : List Nat)
    (data id : List Byte) (out1 out2 : WriteOutcome) (o : Nat) (root1 : data_root_t) (w1 : World)
    (hc : ChainInv L st l) (hi : Inv L st)
    (hins : data_insert L st.1 st.2 data id out1 out2 = (o, root1, w1)) (hok : o ≠ 0) :
    ChainInv L (root1, w1) (o :: l) := by
  obtain ⟨c1, c2, c3, c4, c5, c6, c7⟩ := hc
  obtain ⟨ho, ⟨pos, ls, hr⟩, hcont, he, _, _, _, hmax⟩ :=
    data_insert_world hL st.1 st.2 data id out1 out2 o root1 w1 hins hok
  have hE : 0 < L.sizeof_data_entry_header_t := by have := hL.flags_in; omega
  have hs := data_insert_header_spec hL id.length data.length st.1.previous (data_crc32 data)
  rw [hi.1] at ho hcont he hmax
  have hd : root1.dataid = st.1.dataid := by rw [hr]
  unfold World.size at ho hmax
  generalize hfile : st.2.content st.1.dataid = file at *
  have hprev_lt : st.1.previous < 256 ^ 8 := by
    have h63 : OFF_MAX < 256 ^ 8 := by decide
    rw [c1]
    cases l with
    | nil => simp only [List.head?_nil, Option.getD_none]; omega
    | cons a rest =>
      simp only [List.head?_cons, Option.getD_some]
      have := (c3 a (List.mem_cons_self _ _)).2
      omega
  have hnew : hdr_previous L (peek (w1.content st.1.dataid) o L.sizeof_data_entry_header_t)
      = st.1.previous := by
    rw [he.read_hdr, hs.2.2.2.1, Nat.mod_eq_of_lt hprev_lt]
  have hbnd := he.bound
  have hmono : ∀ a b, Linked L file b a → Linked L (w1.content st.1.dataid) b a := by
    intro a b hl
    rw [hcont, List.append_assoc]
    exact hl.extend _
  have hlen : file.length ≤ (w1.content st.1.dataid).length := by
    rw [hcont]; simp
  have hpk : ∀ b, b + L.sizeof_data_entry_header_t ≤ file.length →
      peek (w1.content st.1.dataid) b L.sizeof_data_entry_header_t
        = peek file b L.sizeof_data_entry_header_t := by
    intro b hb
    rw [hcont, List.append_assoc]
    exact peek_append_left _ _ _ _ hb
  unfold ChainInv
  simp only [hd]
  refine ⟨by rw [hr]; rfl, ?_, ?_, ?_, by omega, hmax, fun h => by simp at h⟩
  · cases l with
    | nil => exact List.chain'_singleton _
    | cons a rest =>
      refine List.Chain'.cons ?_ (c2.imp (fun {a b} h => hmono b a h))
      have := (c3 a (List.mem_cons_self _ _)).2
      refine ⟨by omega, by omega, ?_⟩
      rw [hnew, c1]; rfl
  · intro b hb
    rcases List.mem_cons.mp hb with rfl | hb
    · exact ⟨by omega, by omega⟩
    · have := c3 b hb
      exact ⟨this.1, by omega⟩
  · intro o1 ho1
    cases l with
    | nil =>
      simp only [List.getLast?_singleton, Option.mem_def, Option.some.injEq] at ho1
      subst ho1
      have := c7 rfl
      refine ⟨by omega, ?_⟩
      rw [hnew, c1]; rfl
    | cons a rest =>
      rw [List.getLast?_cons_cons] at ho1
      have h4 := c4 o1 ho1
      have hmem : o1 ∈ a :: rest := List.mem_of_getLast?_eq_some ho1
      have := (c3 o1 hmem).2
      rw [hpk o1 this]
      exact h4

theorem insert_all_chain {L : Layout} (hL : L.wf)
    (items : List (List Byte × List Byte × WriteOutcome × WriteOutcome)) (st st1 : State)
    (l offs : List Nat) (h : insert_all L items st = some (st1, offs))
    (hc : ChainInv L st l) (hi : Inv L st) :
    ChainInv L st1 (offs.reverse ++ l) ∧ st1.1.dataid = st.1.dataid := by
  induction items generalizing st l offs with
  | nil =>
    simp only [insert_all, Option.some.injEq, Prod.mk.injEq] at h
    obtain ⟨rfl, rfl⟩ := h
    exact ⟨hc, rfl⟩
  | cons x rest ih =>
    obtain ⟨data, id, out1, out2⟩ := x
    simp only [insert_all] at h
    by_cases h0 : (data_insert L st.1 st.2 data id out1 out2).1 = 0
    · rw [if_pos h0] at h; simp at h
    · rw [if_neg h0] at h
      cases hr : insert_all L rest (data_insert L st.1 st.2 data id out1 out2).2 with
      | none => rw [hr] at h; simp at h
      | some y =>
        obtain ⟨st2, offs2⟩ := y
        rw [hr] at h
        simp only [Option.some.injEq, Prod.mk.injEq] at h
        obtain ⟨rfl, rfl⟩ := h
        have hc2 := ChainInv.insert hL st l data id out1 out2 _ _ _ hc hi (triple_eta _) h0
        have hs := data_insert_same L st data id out1 out2
        obtain ⟨a, b⟩ := ih _ _ _ hr hc2 (hs.inv hi)
        refine ⟨?_, by rw [b]; exact hs.trans_size.2.2⟩
        simpa using a

theorem insert_all_length {L : Layout}
    (items : List (List Byte × List Byte × WriteOutcome × WriteOutcome)) (st st1 : State)
    (offs : List Nat) (h : insert_all L items st = some (st1, offs)) :
    offs.length = items.length := by
  induction items generalizing st offs with
  | nil =>
    simp only [insert_all, Option.some.injEq, Prod.mk.injEq] at h
    obtain ⟨_, rfl⟩ := h
    rfl
  | cons x rest ih =>
    obtain ⟨data, id, out1, out2⟩ := x
    simp only [insert_all] at h
    by_cases h0 : (data_insert L st.1 st.2 data id out1 out2).1 = 0
    · rw [if_pos h0] at h; simp at h
    · rw [if_neg h0] at h
      cases hr : insert_all L rest (data_insert L st.1 st.2 data id out1 out2).2 with
      | none => rw [hr] at h; simp at h
      | some y =>
        obtain ⟨st2, offs2⟩ := y
        rw [hr] at h
        simp only [Option.some.injEq, Prod.mk.injEq] at h
        obtain ⟨rfl, rfl⟩ := h
        simp only [List.length_cons, Nat.add_right_cancel_iff]
        exact ih _ _ hr

/-- The state `data_init` makes of a segment that did not exist. -/
theorem data_init_new {L : Layout} (hL : L.wf) (settings : settings_t) (w0 : World)
    (dataid : Nat) (out0 : WriteOutcome) (st0 : State) (hfresh : w0.files dataid = none)
    (hrw : w0.rofs = false) (hinit : data_init L settings w0 dataid out0 = some st0) :
    ChainInv L st0 [] ∧ st0.1.dataid = dataid ∧
    st0.2.content dataid = L.data_header w0.now dataid := by
  have hE : 0 < L.sizeof_data_entry_header_t := by have := hL.flags_in; omega
  have hmagic := hL.magic_in
  unfold data_init data_set_id at hinit
  simp only at hinit
  generalize hroot : ({ datafile := dataid, dataid := dataid, datafd := ⟨0, 0, false, false⟩, previous := 0, sync := settings.sync, synctime := settings.synctime, lastsync := 0 } : data_root_t) = root at hinit
  cases hi : data_initialize L dataid root w0 out0 with
  | none => rw [hi] at hinit; simp at hinit
  | some p =>
    obtain ⟨root2, w1⟩ := p
    rw [hi] at hinit
    simp only at hinit
    obtain ⟨⟨ls, hr2⟩, hro1, _, _⟩ := data_initialize_spec hL _ _ _ _ _ _ hi
    obtain ⟨hcont, hbd, hsome, _⟩ := data_initialize_content _ _ _ _ _ _ hrw hi
    have hrd : root.dataid = dataid := by rw [← hroot]
    have hf2 : root2.datafile = dataid := by rw [hr2, ← hroot]
    have hd2 : root2.dataid = dataid := by rw [hr2, ← hroot]
    have hc0 : w0.content dataid = [] := by simp [World.content, hfresh]
    have hlenH := hL.header_len w0.now dataid
    rw [hc0, hrd] at hcont
    have hcont2 : w1.content dataid = L.data_header w0.now dataid := by
      rw [hcont]
      unfold file_pwrite
      rw [if_neg (by intro h; rw [h] at hlenH; simp at hlenH; omega)]
      simp
    rw [data_open_final_eq L root2 w1 (by rw [hro1, hrw]) (by rw [hf2]; exact hsome)] at hinit
    simp only [Option.some.injEq] at hinit
    subst hinit
    obtain ⟨pos, prev, hl⟩ := data_open_final_loop_frame L w1 (w1.size root2.datafile + 1)
      { root2 with datafd := ⟨root2.datafile, L.sizeof_data_header_t, true, true⟩, previous := L.sizeof_data_header_t }
    have hstop := data_open_final_loop_stop L w1 (w1.size root2.datafile)
      { root2 with datafd := ⟨root2.datafile, L.sizeof_data_header_t, true, true⟩, previous := L.sizeof_data_header_t }
      (by
        simp only [hf2, hcont2]
        have : (peek (L.data_header w0.now dataid) L.sizeof_data_header_t
            L.sizeof_data_entry_header_t).length = 0 := by
          simp [peek, List.length_take, List.length_drop, hlenH]
        omega)
    have hdid : (data_open_final_loop L w1 (w1.size root2.datafile + 1)
      { root2 with datafd := ⟨root2.datafile, L.sizeof_data_header_t, true, true⟩, previous := L.sizeof_data_header_t }).dataid = dataid := by
      rw [hl]; exact hd2
    refine ⟨?_, hdid, hcont2⟩
    unfold ChainInv
    simp only [hdid, hcont2, hlenH]
    rw [hrd, hlenH] at hbd
    exact ⟨hstop, List.chain'_nil, fun o ho => by simp at ho, fun o ho => by simp at ho,
      Nat.le_refl _, hbd, fun _ => trivial⟩

/-- Walking the links from the most recent entry visits the whole list. -/
theorem chain_walk {L : Layout} (hL : L.wf) (file : File) (l : List Nat)
    (h2 : List.Chain' (Linked L file) l)
    (h3 : ∀ o ∈ l, L.sizeof_data_header_t ≤ o ∧ o + L.sizeof_data_entry_header_t ≤ file.length)
    (h4 : ∀ o1 ∈ l.getLast?, o1 = L.sizeof_data_header_t)
    (h7 : l = [] → file.length = L.sizeof_data_header_t) (fuel : Nat) (hfuel : l.length ≤ fuel) :
    chain L file fuel ((l.head?).getD L.sizeof_data_header_t) = l := by
  have hE : 0 < L.sizeof_data_entry_header_t := by have := hL.flags_in; omega
  induction l generalizing fuel with
  | nil =>
    cases fuel with
    | zero => rfl
    | succ f =>
      simp only [List.head?_nil, Option.getD_none, chain]
      have : (peek file L.sizeof_data_header_t L.sizeof_data_entry_header_t).length = 0 := by
        simp [peek, List.length_take, List.length_drop, h7 rfl]
      rw [if_pos (by omega)]
  | cons b rest ih =>
    cases fuel with
    | zero => simp at hfuel
    | succ f =>
      simp only [List.head?_cons, Option.getD_some, chain]
      have hb := h3 b (List.mem_cons_self _ _)
      have hfull : (peek file b L.sizeof_data_entry_header_t).length
          = L.sizeof_data_entry_header_t := by
        simp [peek, List.length_take, List.length_drop]; omega
      rw [if_neg (by simp [hfull])]
      cases rest with
      | nil =>
        have := h4 b (by simp)
        rw [if_pos this]
      | cons a rest2 =>
        have hlink : Linked L file b a := (List.chain'_cons.mp h2).1
        have ha := h3 a (by simp)
        rw [if_neg (by have := hlink.1; omega), hlink.2.2]
        congr 1
        have := ih (List.chain'_cons.mp h2).2 (fun o ho => h3 o (List.mem_cons_of_mem _ ho))
          (fun o1 ho1 => h4 o1 (by rw [List.getLast?_cons_cons]; exact ho1))
          (fun h => by simp at h) f (by simp at hfuel ⊢; omega)
        simpa using this

/-- One round of the scan of `data_open_final` over a whole entry header. -/
theorem data_open_final_loop_step (L : Layout) (w : World) (fuel : Nat) (root : data_root_t)
    (hdr : List Byte)
    (hp : peek (w.content root.datafd.file) root.datafd.pos L.sizeof_data_entry_header_t = hdr)
    (hl : hdr.length = L.sizeof_data_entry_header_t) :
    data_open_final_loop L w (fuel + 1) root = data_open_final_loop L w fuel
      { root with previous := (root.datafd.pos + L.sizeof_data_entry_header_t + 2 ^ 64 - L.sizeof_data_header_t) % 2 ^ 64, datafd := { root.datafd with pos := root.datafd.pos + L.sizeof_data_entry_header_t + (hdr_datalength L hdr + hdr_idlength L hdr) % 2 ^ 32 } } := by
  conv_lhs => unfold data_open_final_loop
  simp only [sys_read, sys_lseek_cur, hp, hl, Nat.add_zero, if_true]

/-- The slip of `data_open_final`, for any layout: a segment that did not
exist is opened, one entry is inserted with success (so `previous` is its
offset, `sizeof(data_header_t)`), and the segment is opened again:
`previous` is then `sizeof(data_entry_header_t)` (modulo 2^64), the end of the
entry header less `sizeof(data_header_t)`. -/
theorem data_init_after_insert {L : Layout} (hL : L.wf) (settings settings2 : settings_t)
    (w0 : World) (dataid : Nat) (out0 out1 out2 out3 : WriteOutcome) (st0 st2 : State)
    (data id : List Byte) (o : Nat) (root1 : data_root_t) (w1 : World)
    (hfresh : w0.files dataid = none) (hrw : w0.rofs = false)
    (hid : id.length < 2 ^ 8) (hsum : data.length + id.length < 2 ^ 32)
    (hinit : data_init L settings w0 dataid out0 = some st0)
    (hins : data_insert L st0.1 st0.2 data id out1 out2 = (o, root1, w1)) (hok : o ≠ 0)
    (hreopen : data_init L settings2 w1 dataid out3 = some st2) :
    o = L.sizeof_data_header_t ∧ root1.previous = L.sizeof_data_header_t ∧
    st2.1.previous = L.sizeof_data_entry_header_t % 2 ^ 64 := by
  have hE : 0 < L.sizeof_data_entry_header_t := by have := hL.flags_in; omega
  obtain ⟨hc0, hd0, hcont0⟩ := data_init_new hL settings w0 dataid out0 st0 hfresh hrw hinit
  obtain ⟨hi0, hro0⟩ := data_init_inv hL settings w0 dataid out0 st0 hinit
  obtain ⟨ho, ⟨pos, ls, hr⟩, hcont, he, hsome, _, hro1, _⟩ :=
    data_insert_world hL st0.1 st0.2 data id out1 out2 o root1 w1 hins hok
  have hs := data_insert_header_spec hL id.length data.length st0.1.previous (data_crc32 data)
  rw [hi0.1, hd0] at ho hcont he hsome
  have hlen0 := hL.header_len w0.now dataid
  have hoH : o = L.sizeof_data_header_t := by
    rw [ho]; unfold World.size; rw [hcont0, hlen0]
  have hrw1 : w1.rofs = false := by rw [hro1, hro0, hrw]
  refine ⟨hoH, by rw [hr]; exact hoH, ?_⟩
  generalize data_insert_header L id.length data.length st0.1.previous (data_crc32 data) = hdr
    at hcont he hs
  unfold data_init data_set_id at hreopen
  simp only at hreopen
  generalize hroot : ({ datafile := dataid, dataid := dataid, datafd := ⟨0, 0, false, false⟩, previous := 0, sync := settings2.sync, synctime := settings2.synctime, lastsync := 0 } : data_root_t) = root at hreopen
  cases hi : data_initialize L dataid root w1 out3 with
  | none => rw [hi] at hreopen; simp at hreopen
  | some p =>
    obtain ⟨root2, w2⟩ := p
    rw [hi] at hreopen
    simp only at hreopen
    obtain ⟨⟨ls2, hr2⟩, hro2, _, _⟩ := data_initialize_spec hL _ _ _ _ _ _ hi
    obtain ⟨hcont2, _, hsome2, _⟩ := data_initialize_content _ _ _ _ _ _ hrw1 hi
    have hrd : root.dataid = dataid := by rw [← hroot]
    have hf2 : root2.datafile = dataid := by rw [hr2, ← hroot]
    have hlen2 := hL.header_len w1.now dataid
    rw [hrd] at hcont2
    have hne : L.data_header w1.now dataid ≠ [] := by
      intro h; rw [h] at hlen2; have := hL.magic_in; simp at hlen2; omega
    have hfile2 : w2.content dataid = L.data_header w1.now dataid ++ hdr ++ id ++ data := by
      rw [hcont2, hcont, hcont0]
      unfold file_pwrite
      rw [if_neg hne]
      simp [hlen2, hlen0]
    have he2 : EntryAt L (w2.content dataid) L.sizeof_data_header_t hdr id data :=
      ⟨hs.1, L.data_header w1.now dataid, [], by rw [hfile2]; simp, hlen2⟩
    rw [data_open_final_eq L root2 w2 (by rw [hro2, hrw1]) (by rw [hf2]; exact hsome2)] at hreopen
    simp only [Option.some.injEq] at hreopen
    subst hreopen
    simp only
    have hsize : w2.size root2.datafile
        = (L.sizeof_data_header_t + L.sizeof_data_entry_header_t + id.length + data.length - 1) + 1 := by
      rw [hf2]; unfold World.size; rw [hfile2]; simp [hlen2, hs.1]; omega
    rw [hsize]
    rw [data_open_final_loop_step L w2 _ _ hdr (by simp only [hf2]; exact he2.read_hdr) hs.1]
    rw [data_open_final_loop_stop]
    · simp only
      have : L.sizeof_data_header_t + L.sizeof_data_entry_header_t + 2 ^ 64 - L.sizeof_data_header_t
          = L.sizeof_data_entry_header_t + 2 ^ 64 := by omega
      rw [this, Nat.add_mod_right]
    · simp only [hf2]
      rw [hs.2.1, hs.2.2.1]
      have h1 : id.length % 256 ^ 1 = id.length := Nat.mod_eq_of_lt (by norm_num; exact hid)
      have h2 : data.length % 256 ^ 4 = data.length := Nat.mod_eq_of_lt (by norm_num; omega)
      rw [h1, h2, Nat.mod_eq_of_lt hsum]
      have : (peek (w2.content dataid) (L.sizeof_data_header_t + L.sizeof_data_entry_header_t
          + (data.length + id.length)) L.sizeof_data_entry_header_t).length = 0 := by
        rw [hfile2]
        simp [peek, List.length_take, List.length_drop, hlen2, hs.1]
        omega
      omega

/-- The scan of `data_open_final` ends by itself: once the fuel exceeds the
bytes left after the offset of the descriptor, more fuel changes nothing (each
round consumes a whole entry header). -/
theorem data_open_final_loop_fuel {L : Layout} (hL : L.wf) (w : World) (fuel : Nat)
    (root : data_root_t) (h : w.size root.datafd.file - root.datafd.pos < fuel) :
    data_open_final_loop L w (fuel + 1) root = data_open_final_loop L w fuel root := by
  have hE : 0 < L.sizeof_data_entry_header_t := by have := hL.flags_in; omega
  induction fuel generalizing root with
  | zero => omega
  | succ n ih =>
    by_cases hfull : (peek (w.content root.datafd.file) root.datafd.pos
        L.sizeof_data_entry_header_t).length = L.sizeof_data_entry_header_t
    · rw [data_open_final_loop_step L w (n + 1) root _ rfl hfull,
        data_open_final_loop_step L w n root _ rfl hfull]
      apply ih
      have := peek_length_eq hfull hE
      simp only [World.size] at h ⊢
      omega
    · conv_lhs => unfold data_open_final_loop
      conv_rhs => unfold data_open_final_loop
      simp only [sys_read]
      rw [if_neg hfull, if_neg hfull]

/-- What `data_sync_check` does, in one equation. -/
theorem data_sync_check_spec (root : data_root_t) (w : World) :
    ∃ r, data_sync_check root w = (r,
      { root with lastsync := if sync_due root w then w.now else root.lastsync },
      { w with fsyncs := w.fsyncs + if sync_due root w then 1 else 0 }) := by
  obtain ⟨datafile, dataid, datafd, previous, sync, synctime, lastsync⟩ := root
  unfold data_sync_check data_sync sys_fsync sync_due
  simp only
  by_cases h1 : sync = true
  · simp [h1]
  · by_cases h2 : synctime = 0
    · simp [h1, h2]
    · by_cases h3 : ((w.now : Int) - (lastsync : Int)) > (synctime : Int)
      · simp [h1, h2, h3]
      · simp [h1, h2, h3]

/-- A completed write at the end of the file, with the sync check spelled out. -/
theorem data_write_end_sync (w : World) (fd : Fd) (buf : List Byte) (syncer : Bool)
    (root : data_root_t) (out : WriteOutcome)
    (hpos : fd.append = true ∨ fd.pos = w.size fd.file)
    (h : (data_write w fd buf syncer root out).1 ≠ 0) :
    data_write w fd buf syncer root out =
      (1, { fd with pos := w.size fd.file + buf.length },
        { root with lastsync := if syncer = true ∧ sync_due root w then w.now else root.lastsync },
        { w with files := Function.update w.files fd.file (some (w.content fd.file ++ buf)), fsyncs := w.fsyncs + if syncer = true ∧ sync_due root w then 1 else 0 }) := by
  rcases sys_write_end w fd buf out hpos with ⟨h1, h2, h3, h4⟩ | ⟨h1, h2⟩
  · unfold data_write
    rw [h4]
    simp only [Int.natCast_nonneg, not_lt.mpr, if_false, ne_eq, not_true_eq_false]
    cases syncer with
    | false => simp
    | true =>
      obtain ⟨r, hs⟩ := data_sync_check_spec root
        { w with files := Function.update w.files fd.file (some (w.content fd.file ++ buf)) }
      simp only [if_true, hs]
      simp [sync_due]
  · exfalso
    apply h
    unfold data_write
    generalize sys_write w fd buf out = r at h2
    obtain ⟨response, fd1, w1⟩ := r
    simp only at h2 ⊢
    split
    · rfl
    · simp [h2]

/-- A write that `data_write` reports as failed leaves the root alone and
does not `fsync`. -/
theorem data_write_fail (w : World) (fd : Fd) (buf : List Byte) (syncer : Bool)
    (root : data_root_t) (out : WriteOutcome)
    (h : (data_write w fd buf syncer root out).1 = 0) :
    (data_write w fd buf syncer root out).2.2.1 = root ∧
    (data_write w fd buf syncer root out).2.2.2.fsyncs = w.fsyncs := by
  unfold data_write at h ⊢
  rcases sys_write_cases w fd buf out with h1 | ⟨bs, pos, _, h1⟩
  · rw [h1]; simp
  · rw [h1] at h ⊢
    simp only [Int.natCast_nonneg, not_lt.mpr, if_false] at h ⊢
    by_cases hb : (bs.length : Int) ≠ (buf.length : Int)
    · rw [if_pos hb]; exact ⟨rfl, rfl⟩
    · rw [if_neg hb] at h
      exfalso
      cases syncer <;> simp at h

/-- The sync bookkeeping of `data_insert`: when both writes go through, the
policy is evaluated once, on the root and the clock of the call; when one of
them does not, nothing is synced. -/
theorem data_insert_sync (L : Layout) (root : data_root_t) (w : World) (data id : List Byte)
    (out1 out2 : WriteOutcome) :
    let f := root.datafd.file
    let hdr := data_insert_header L id.length data.length root.previous (data_crc32 data) ++ id
    let cond := out1.complete hdr.length = true ∧ out2.complete data.length = true ∧
      root.datafd.writable = true ∧ w.size f + hdr.length + data.length ≤ OFF_MAX
    (cond →
      (data_insert L root w data id out1 out2).2.2.fsyncs
        = w.fsyncs + (if sync_due root w then 1 else 0) ∧
      (data_insert L root w data id out1 out2).2.1.lastsync
        = if sync_due root w then w.now else root.lastsync) ∧
    (¬ cond →
      (data_insert L root w data id out1 out2).2.2.fsyncs = w.fsyncs ∧
      (data_insert L root w data id out1 out2).2.1.lastsync = root.lastsync) := by
  intro f hdr cond
  unfold data_insert
  simp only [sys_lseek_end, Nat.add_zero]
  rcases data_write_end w { root.datafd with pos := w.size root.datafd.file } hdr false
      { root with datafd := { root.datafd with pos := w.size root.datafd.file } } out1
      (Or.inr rfl) with ⟨h1, h2, h3, ls1, fs1, h4⟩ | ⟨h1, h2⟩
  · have h5 := data_write_end_sync w { root.datafd with pos := w.size root.datafd.file } hdr false
      { root with datafd := { root.datafd with pos := w.size root.datafd.file } } out1
      (Or.inr rfl) (by rw [h4]; exact one_ne_zero)
    simp only [hdr, Bool.false_eq_true, false_and, if_false, Nat.add_zero] at h5
    rw [h5]
    simp only [one_ne_zero, if_false]
    rcases data_write_end
        { w with files := Function.update w.files root.datafd.file
                    (some (w.content root.datafd.file ++ hdr)) }
        { root.datafd with pos := w.size root.datafd.file + hdr.length } data true
        { root with datafd := { root.datafd with pos := w.size root.datafd.file + hdr.length } } out2
        (Or.inr (by simp [World.size, World.content])) with ⟨g1, g2, g3, ls2, fs2, g4⟩ | ⟨g1, g2⟩
    · have g5 := data_write_end_sync
        { w with files := Function.update w.files root.datafd.file
                    (some (w.content root.datafd.file ++ hdr)) }
        { root.datafd with pos := w.size root.datafd.file + hdr.length } data true
        { root with datafd := { root.datafd with pos := w.size root.datafd.file + hdr.length } } out2
        (Or.inr (by simp [World.size, World.content])) (by rw [g4]; exact one_ne_zero)
      simp only [hdr] at g5
      rw [g5]
      simp only [one_ne_zero, if_false, true_and]
      have hb : w.size f + hdr.length + data.length ≤ OFF_MAX := by
        simp only [f, World.size, World.content] at *; simp at *; omega
      have hc : cond := ⟨h1, g1, h2, hb⟩
      refine ⟨fun _ => ⟨?_, ?_⟩, fun hn => absurd hc hn⟩
      · simp [sync_due]
      · simp [sync_due]
    · have g6 := data_write_fail _ _ _ _ _ _ g2
      simp only [hdr] at g2 g6
      rw [if_pos g2]
      refine ⟨?_, fun _ => ⟨g6.2, ?_⟩⟩
      · rintro ⟨c1, c2, c3, c4⟩
        exfalso
        rcases g1 with g1 | g1 | g1
        · rw [c2] at g1; exact Bool.noConfusion g1
        · have : root.datafd.writable = false := g1
          rw [c3] at this; exact Bool.noConfusion this
        · simp only [f, World.size, World.content] at *; simp at *; omega
      · show (data_write _ _ _ _ _ _).2.2.1.lastsync = _
        rw [g6.1]
  · have h6 := data_write_fail _ _ _ _ _ _ h2
    simp only [hdr] at h2 h6
    rw [if_pos h2]
    refine ⟨?_, fun _ => ⟨h6.2, ?_⟩⟩
    · rintro ⟨c1, c2, c3, c4⟩
      exfalso
      rcases h1 with h1 | h1 | h1
      · rw [c1] at h1; exact Bool.noConfusion h1
      · have : root.datafd.writable = false := h1
        rw [c3] at this; exact Bool.noConfusion this
      · have : OFF_MAX < w.size f + hdr.length := h1
        omega
    · show (data_write _ _ _ _ _ _).2.2.1.lastsync = _
      rw [h6.1]

/-- On a writable file system `data_initialize` changes one file, putting the
header at its start. -/
theorem data_initialize_files {L : Layout} (filename : Nat) (root : data_root_t)
    (w : World) (out : WriteOutcome) (root1 : data_root_t) (w1 : World) (hr : w.rofs = false)
    (h : data_initialize L filename root w out = some (root1, w1)) :
    w1.files = Function.update w.files filename
      (some (file_pwrite (w.content filename) 0 (L.data_header w.now root.dataid))) := by
  unfold data_initialize sys_open at h
  simp only [hr, Bool.and_false, Bool.false_eq_true, if_false, if_true] at h
  have key : ∀ w0 : World, w0.now = w.now →
      (let x := data_write w0 ⟨filename, 0, false, true⟩ (L.data_header w0.now root.dataid)
          true root out
       (if x.1 = 0 then none else some (x.2.2.1, x.2.2.2)) = some (root1, w1)) →
      w1.files = Function.update w0.files filename
        (some (file_pwrite (w0.content filename) 0 (L.data_header w.now root.dataid))) := by
    intro w0 hn hx
    simp only at hx
    by_cases h0 : (data_write w0 ⟨filename, 0, false, true⟩ (L.data_header w0.now root.dataid)
        true root out).1 = 0
    · rw [if_pos h0] at hx; simp at hx
    · rw [if_neg h0] at hx
      have hresp := data_write_ok_resp _ _ _ _ _ _ h0
      have hwh := sys_write_whole w0 ⟨filename, 0, false, true⟩ _ out rfl hresp
      unfold data_write at hx
      rw [hwh] at hx
      simp only [Int.natCast_nonneg, not_lt.mpr, if_false, ne_eq, not_true_eq_false,
        if_true, Option.some.injEq, Prod.mk.injEq] at hx
      obtain ⟨r, ls, fs, hsc⟩ := data_sync_check_eq root
        { w0 with files := Function.update w0.files filename (some (file_pwrite (w0.content filename) 0 (L.data_header w0.now root.dataid))) }
      simp only at hsc
      rw [hsc] at hx
      obtain ⟨_, rfl⟩ := hx
      rw [hn]
  cases hf : w.files filename with
  | some file =>
    rw [hf] at h
    exact key w rfl h
  | none =>
    rw [hf] at h
    have := key { w with files := Function.update w.files filename (some []), rofs := false } rfl h
    rw [this]
    simp [World.content, hf]

/-- Writing a header that is not empty at offset 0 replaces the first bytes
of the file and keeps the rest. -/
theorem file_pwrite_zero (file : File) (bs : List Byte) (h : bs ≠ []) :
    file_pwrite file 0 bs = bs ++ file.drop bs.length := by
  unfold file_pwrite
  rw [if_neg h]
  simp

/-- What opening a segment does on a writable file system (`data_initialize`,
then `data_open_final`): the file `fn` gets a header with the time of the
clock and keeps what it held after `sizeof(data_header_t)` bytes, every other
file is the same, the descriptor is at `fn` in append mode, and `previous` is
`sizeof(data_header_t)` when the file held no more than a header. -/
theorem open_segment {L : Layout} (hL : L.wf) (fn : Nat) (root root2 root3 : data_root_t)
    (w w1 w2 : World) (out : WriteOutcome) (hrw : w.rofs = false) (hfn : root.datafile = fn)
    (hi : data_initialize L fn root w out = some (root2, w1))
    (ho : data_open_final L root2 w1 = some (root3, w2)) :
    w2.files = Function.update w.files fn (some (L.data_header w.now root.dataid
      ++ (w.content fn).drop L.sizeof_data_header_t)) ∧
    root3.dataid = root.dataid ∧ root3.datafd.file = fn ∧
    ((w.content fn).length ≤ L.sizeof_data_header_t → root3.previous = L.sizeof_data_header_t) := by
  have hE : 0 < L.sizeof_data_entry_header_t := by have := hL.flags_in; omega
  have hmagic := hL.magic_in
  have hlenH := hL.header_len w.now root.dataid
  have hne : L.data_header w.now root.dataid ≠ [] := by
    intro h; rw [h] at hlenH; simp at hlenH; omega
  have hfiles := data_initialize_files fn root w out root2 w1 hrw hi
  rw [file_pwrite_zero _ _ hne, hlenH] at hfiles
  obtain ⟨⟨ls, hr2⟩, hro1, _, _⟩ := data_initialize_spec hL _ _ _ _ _ _ hi
  have hf2 : root2.datafile = fn := by rw [hr2]; exact hfn
  have hd2 : root2.dataid = root.dataid := by rw [hr2]
  have hsome : (w1.files root2.datafile).isSome = true := by
    rw [hf2, hfiles, Function.update_same]; rfl
  rw [data_open_final_eq L root2 w1 (by rw [hro1, hrw]) hsome] at ho
  simp only [Option.some.injEq, Prod.mk.injEq] at ho
  obtain ⟨h3, rfl⟩ := ho
  obtain ⟨pos, prev, hl⟩ := data_open_final_loop_frame L w1 (w1.size root2.datafile + 1)
    { root2 with datafd := ⟨root2.datafile, L.sizeof_data_header_t, true, true⟩, previous := L.sizeof_data_header_t }
  refine ⟨hfiles, ?_, ?_, ?_⟩
  · rw [← h3, hl]; exact hd2
  · rw [← h3, hl]; exact hf2
  · intro hshort
    rw [← h3]
    apply data_open_final_loop_stop
    have hc : w1.content fn = L.data_header w.now root.dataid := by
      unfold World.content
      rw [hfiles, Function.update_same]
      simp [List.drop_eq_nil_of_le hshort]
    simp only [hf2, hc]
    have : (peek (L.data_header w.now root.dataid) L.sizeof_data_header_t
        L.sizeof_data_entry_header_t).length = 0 := by
      simp [peek, List.length_take, List.length_drop, hlenH]
    omega

/-- On a read-only file system a segment that does not exist cannot be opened. -/
theorem data_open_final_rofs (L : Layout) (root : data_root_t) (w : World)
    (hr : w.rofs = true) (hf : w.files root.datafile = none) :
    data_open_final L root w = none := by
  unfold data_open_final sys_open
  simp [hr, hf]

/-- On a read-only file system `data_initialize` and `data_open_final` write
nothing. -/
theorem open_segment_rofs (L : Layout) (fn : Nat) (root root2 root3 : data_root_t)
    (w w1 w2 : World) (out : WriteOutcome) (hr : w.rofs = true)
    (hi : data_initialize L fn root w out = some (root2, w1))
    (ho : data_open_final L root2 w1 = some (root3, w2)) :
    w2 = w := by
  unfold data_initialize sys_open at hi
  simp only [hr, Bool.and_self, if_true, Option.some.injEq, Prod.mk.injEq] at hi
  obtain ⟨_, rfl⟩ := hi
  unfold data_open_final sys_open at ho
  simp only [hr, Bool.and_self, Bool.and_true, if_true, Bool.false_and, Bool.false_eq_true,
    if_false, ne_eq, not_true_eq_false] at ho
  cases hf : w.files root2.datafile with
  | none => rw [hf] at ho; simp at ho
  | some file =>
    rw [hf] at ho
    simp only [sys_lseek_set, Option.some.injEq, Prod.mk.injEq] at ho
    exact ho.2.symm

/-- Opening a segment whose file holds at least a header: on a writable file
system the header bytes are written again with the time of the clock, the
rest of the file, its length and the other files stay; on a read-only file
system nothing changes. -/
theorem reopen_world {L : Layout} (hL : L.wf) (fn : Nat) (root root2 root3 : data_root_t)
    (w w1 w2 : World) (out : WriteOutcome) (hfn : root.datafile = fn)
    (hH : L.sizeof_data_header_t ≤ w.size fn)
    (hi : data_initialize L fn root w out = some (root2, w1))
    (ho : data_open_final L root2 w1 = some (root3, w2)) :
    (w.rofs = true → w2 = w) ∧
    (w.rofs = false →
      w2.content fn = L.data_header w.now root.dataid
        ++ (w.content fn).drop L.sizeof_data_header_t ∧
      w2.size fn = w.size fn ∧ ∀ s, s ≠ fn → w2.files s = w.files s) := by
  constructor
  · intro hr
    exact open_segment_rofs L fn root root2 root3 w w1 w2 out hr hi ho
  · intro hr
    obtain ⟨hfiles, _, _, _⟩ := open_segment hL fn root root2 root3 w w1 w2 out hr hfn hi ho
    have hc : w2.content fn = L.data_header w.now root.dataid
        ++ (w.content fn).drop L.sizeof_data_header_t := by
      unfold World.content
      rw [hfiles, Function.update_same]
      rfl
    refine ⟨hc, ?_, ?_⟩
    · unfold World.size at hH ⊢
      rw [hc, List.length_append, hL.header_len, List.length_drop]
      omega
    · intro s hs
      rw [hfiles, Function.update_noteq hs]

/-! ### Chains of index entries -/

theorem Chain.congr_heap {h h2 : Heap} {s : Option Nat} {ptrs : List Nat}
    (hc : Chain h s ptrs) (hsame : ∀ p ∈ ptrs, (h2 p).next = (h p).next) :
    Chain h2 s ptrs := by
  induction ptrs generalizing s with
  | nil => exact hc
  | cons p ps ih =>
    obtain ⟨h1, h3⟩ := hc
    refine ⟨h1, ?_⟩
    rw [hsame p (List.mem_cons_self _ _)]
    exact ih h3 (fun q hq => hsame q (List.mem_cons_of_mem _ hq))

/-- The list that starts at a pointer is determined by the memory. -/
theorem Chain.det {h : Heap} {s : Option Nat} {l1 l2 : List Nat}
    (h1 : Chain h s l1) (h2 : Chain h s l2) : l1 = l2 := by
  induction l1 generalizing s l2 with
  | nil =>
    cases l2 with
    | nil => rfl
    | cons q qs =>
      have a : s = none := h1
      have b : s = some q := h2.1
      rw [a] at b
      exact Option.noConfusion b
  | cons p ps ih =>
    cases l2 with
    | nil =>
      have a : s = none := h2
      have b : s = some p := h1.1
      rw [a] at b
      exact Option.noConfusion b
    | cons q qs =>
      have a : s = some p := h1.1
      have b : s = some q := h2.1
      rw [a] at b
      have hpq : p = q := Option.some.inj b
      subst hpq
      rw [ih h1.2 h2.2]

/-- The tail of a chain from one of its nodes is a chain from that node. -/
theorem Chain.suffix {h : Heap} {s : Option Nat} {pre post : List Nat} {e : Nat}
    (hc : Chain h s (pre ++ e :: post)) : Chain h (some e) (e :: post) := by
  induction pre generalizing s with
  | nil =>
    obtain ⟨_, h2⟩ := hc
    exact ⟨rfl, h2⟩
  | cons p ps ih => exact ih hc.2

/-- A chain ends: no node is in it twice. -/
theorem Chain.nodup {h : Heap} {s : Option Nat} {ptrs : List Nat}
    (hc : Chain h s ptrs) : ptrs.Nodup := by
  induction ptrs generalizing s with
  | nil => exact List.nodup_nil
  | cons p ps ih =>
    refine List.nodup_cons.mpr ⟨?_, ih hc.2⟩
    intro hmem
    obtain ⟨pre, post, hsplit⟩ := List.append_of_mem hmem
    have h1 : Chain h (some p) (p :: ps) := ⟨rfl, hc.2⟩
    have h2 : Chain h (some p) (p :: post) := by
      have := hc.2
      rw [hsplit] at this
      exact this.suffix
    have := Chain.det h1 h2
    have hl := congrArg List.length this
    rw [hsplit] at hl
    simp at hl
    omega

theorem Chain.head_eq {h : Heap} {s : Option Nat} {ptrs : List Nat}
    (hc : Chain h s ptrs) : s = ptrs.head? := by
  cases ptrs with
  | nil => exact hc
  | cons p ps => exact hc.1

/-- Appending: the node `e`, which is not in the chain, is linked after the
last node and its own link is reset. -/
theorem Chain.snoc {h : Heap} {s : Option Nat} {ptrs : List Nat} (e : Nat)
    (hc : Chain h s ptrs) (he : e ∉ ptrs) :
    Chain
      (Function.update
        (match ptrs.getLast? with
          | some last => Function.update h last { h last with next := some e }
          | none => h)
        e { (match ptrs.getLast? with
          | some last => Function.update h last { h last with next := some e }
          | none => h) e with next := none })
      (if s = none then some e else s) (ptrs ++ [e]) := by
  have hnd := hc.nodup
  induction ptrs generalizing s with
  | nil =>
    have hs : s = none := hc
    rw [if_pos hs]
    exact ⟨rfl, by simp [Chain]⟩
  | cons p ps ih =>
    obtain ⟨hs, hrest⟩ := hc
    have hpe : p ≠ e := fun hpe => he (by rw [hpe]; exact List.mem_cons_self _ _)
    have heps : e ∉ ps := fun hmem => he (List.mem_cons_of_mem _ hmem)
    rw [if_neg (by rw [hs]; exact fun hn => Option.noConfusion hn)]
    refine ⟨hs, ?_⟩
    cases ps with
    | nil =>
      simp only [List.getLast?_singleton, List.nil_append]
      rw [Function.update_noteq hpe, Function.update_same]
      exact ⟨rfl, by simp [Chain]⟩
    | cons q qs =>
      have hq := ih hrest heps (List.nodup_cons.mp hnd).2
      have hlast : (p :: q :: qs).getLast? = (q :: qs).getLast? := by
        simp [List.getLast?_cons_cons]
      rw [hlast]
      have hne : (h p).next ≠ none := by
        rw [hrest.1]; exact fun hn => Option.noConfusion hn
      rw [if_neg hne] at hq
      have hpl : ∀ l, (q :: qs).getLast? = some l → p ≠ l := by
        intro l hl hpl
        have hm : l ∈ q :: qs := List.mem_of_mem_getLast? hl
        rw [← hpl] at hm
        exact (List.nodup_cons.mp hnd).1 hm
      have hnext : (Function.update
        (match (q :: qs).getLast? with
          | some last => Function.update h last { h last with next := some e }
          | none => h)
        e { (match (q :: qs).getLast? with
          | some last => Function.update h last { h last with next := some e }
          | none => h) e with next := none } p).next = (h p).next := by
        rw [Function.update_noteq hpe]
        cases hl : (q :: qs).getLast? with
        | none => rfl
        | some l => simp only; rw [Function.update_noteq (hpl l hl)]
      rw [hnext]
      exact hq

/-- Removing: the predecessor of `e` is linked to the successor of `e`. -/
theorem Chain.unlink {h : Heap} {s : Option Nat} {pre post : List Nat} {e : Nat}
    (hc : Chain h s (pre ++ e :: post)) :
    Chain
      (match pre.getLast? with
        | some q => Function.update h q { h q with next := (h e).next }
        | none => h)
      (if s = some e then (h e).next else s) (pre ++ post) := by
  have hnd := hc.nodup
  induction pre generalizing s with
  | nil =>
    obtain ⟨hs, hrest⟩ := hc
    rw [if_pos hs]
    exact hrest
  | cons p ps ih =>
    obtain ⟨hs, hrest⟩ := hc
    have hnd2 := (List.nodup_cons.mp hnd).2
    have hp_notin : p ∉ ps ++ e :: post := (List.nodup_cons.mp hnd).1
    have hpe : p ≠ e := fun hpe => hp_notin (by rw [hpe]; simp)
    rw [if_neg (by rw [hs]; exact fun hn => hpe (Option.some.inj hn))]
    refine ⟨hs, ?_⟩
    cases ps with
    | nil =>
      simp only [List.getLast?_singleton, List.nil_append]
      rw [Function.update_same]
      obtain ⟨_, hpost⟩ := hrest
      refine hpost.congr_heap ?_
      intro x hx
      have hxp : x ≠ p := by
        intro hxp
        apply hp_notin
        rw [← hxp]
        simp [hx]
      rw [Function.update_noteq hxp]
    | cons q qs =>
      have hq := ih hrest hnd2
      have hlast : (p :: q :: qs).getLast? = (q :: qs).getLast? := by
        simp [List.getLast?_cons_cons]
      rw [hlast]
      have hqe : q ≠ e := by
        intro hqe
        have := (List.nodup_cons.mp hnd2).1
        apply this
        rw [hqe]
        simp
      have hne : (h p).next ≠ some e := by
        rw [hrest.1]; exact fun hn => hqe (Option.some.inj hn)
      rw [if_neg hne] at hq
      have hnext : ((match (q :: qs).getLast? with
        | some l => Function.update h l { h l with next := (h e).next }
        | none => h) p).next = (h p).next := by
        cases hl : (q :: qs).getLast? with
        | none => rfl
        | some l =>
          simp only
          have hm : l ∈ q :: qs := List.mem_of_mem_getLast? hl
          have hpl : p ≠ l := by
            intro hpl
            apply hp_notin
            rw [hpl]
            exact List.mem_append_left _ hm
          rw [Function.update_noteq hpl]
      rw [hnext]
      exact hq

/-- The loop of `index_entry_get` on a chain, with fuel for its nodes: the
first node that matches, in the order of the chain. -/
theorem index_entry_get_loop_chain (h : Heap) (ns : Nat) (id : List Byte) (fuel : Nat)
    (s : Option Nat) (ptrs : List Nat) (hc : Chain h s ptrs) (hfuel : ptrs.length ≤ fuel) :
    index_entry_get_loop h ns id fuel s = some (ptrs.find? (entry_matches h ns id)) := by
  induction ptrs generalizing s fuel with
  | nil =>
    have hs : s = none := hc
    rw [hs]
    cases fuel <;> rfl
  | cons p ps ih =>
    obtain ⟨hs, hrest⟩ := hc
    rw [hs]
    cases fuel with
    | zero => simp at hfuel
    | succ f =>
      have hf : ps.length ≤ f := by simp at hfuel; omega
      unfold index_entry_get_loop
      rw [List.find?_cons]
      by_cases h1 : (h p).idlength ≠ id.length
      · rw [if_pos h1]
        have hm : entry_matches h ns id p = false := by simp [entry_matches, h1]
        rw [hm]
        exact ih f _ hrest hf
      · rw [if_neg h1]
        by_cases h2 : (h p).ns ≠ ns
        · rw [if_pos h2]
          have hm : entry_matches h ns id p = false := by simp [entry_matches, h2]
          rw [hm]
          exact ih f _ hrest hf
        · rw [if_neg h2]
          by_cases h3 : (h p).id.take id.length = id
          · rw [if_pos h3]
            have hm : entry_matches h ns id p = true := by
              simp only [ne_eq, not_not] at h1 h2
              simp [entry_matches, h1, h2, h3]
            rw [hm]
          · rw [if_neg h3]
            have hm : entry_matches h ns id p = false := by simp [entry_matches, h3]
            rw [hm]
            exact ih f _ hrest hf

/-! ### `index_branch_append` -/

/-- What `index_branch_append` does on an array that is not NULL, in one
equation. -/
theorem index_branch_append_eq (h : Heap) (bs : Branches) (branchid e : Nat) :
    index_branch_append h (some bs) branchid e =
      (some e,
        some (Function.update bs branchid (some
          { length := (bucket_of bs branchid).length + 1,
            list := if (bucket_of bs branchid).list = none then some e
              else (bucket_of bs branchid).list,
            last := some e })),
        append_heap h (bucket_of bs branchid).last e) := by
  cases hb : bs branchid with
  | none =>
    simp [index_branch_append, index_branch_get_allocate, index_branch_init, bucket_of,
      append_heap, hb]
  | some b =>
    by_cases hl : b.list = none
    · simp [index_branch_append, index_branch_get_allocate, bucket_of, append_heap, hb, hl]
    · simp [index_branch_append, index_branch_get_allocate, bucket_of, append_heap, hb, hl]

/-- The fields of an entry other than the link are not written by
`index_branch_append`. -/
theorem append_heap_fields (h : Heap) (last : Option Nat) (e p : Nat) :
    (append_heap h last e p).ns = (h p).ns ∧ (append_heap h last e p).idlength = (h p).idlength ∧
    (append_heap h last e p).id = (h p).id := by
  unfold append_heap
  by_cases hpe : p = e
  · subst hpe
    rw [Function.update_same]
    cases last with
    | none => exact ⟨rfl, rfl, rfl⟩
    | some l =>
      simp only
      by_cases hpl : p = l
      · subst hpl; rw [Function.update_same]; exact ⟨rfl, rfl, rfl⟩
      · rw [Function.update_noteq hpl]; exact ⟨rfl, rfl, rfl⟩
  · rw [Function.update_noteq hpe]
    cases last with
    | none => exact ⟨rfl, rfl, rfl⟩
    | some l =>
      simp only
      by_cases hpl : p = l
      · subst hpl; rw [Function.update_same]; exact ⟨rfl, rfl, rfl⟩
      · rw [Function.update_noteq hpl]; exact ⟨rfl, rfl, rfl⟩

/-- Only the old last node and the appended node are written. -/
theorem append_heap_other (h : Heap) (last : Option Nat) (e p : Nat) (hpe : p ≠ e)
    (hpl : last ≠ some p) : append_heap h last e p = h p := by
  unfold append_heap
  rw [Function.update_noteq hpe]
  cases last with
  | none => rfl
  | some l =>
    simp only
    rw [Function.update_noteq (fun hp => hpl (by rw [hp]))]

theorem BranchOK.mem_last {h : Heap} {b : index_branch_t} {ptrs : List Nat} {p : Nat}
    (hb : BranchOK h b ptrs) (hl : b.last = some p) : p ∈ ptrs := by
  rw [hb.2.1] at hl
  exact List.mem_of_mem_getLast? hl

/-- The empty bucket is well formed with the empty chain. -/
theorem BranchOK.empty_branch (h : Heap) : BranchOK h { length := 0, list := none, last := none } [] :=
  ⟨rfl, rfl, rfl⟩

/-- A well-formed bucket after the append of a node that is not in its chain. -/
theorem BranchOK.append_entry {h : Heap} {b : index_branch_t} {ptrs : List Nat} (e : Nat)
    (hb : BranchOK h b ptrs) (he : e ∉ ptrs) :
    BranchOK (append_heap h b.last e)
      { length := b.length + 1, list := if b.list = none then some e else b.list, last := some e }
      (ptrs ++ [e]) := by
  obtain ⟨hc, hlast, hlen⟩ := hb
  refine ⟨?_, ?_, ?_⟩
  · have := hc.snoc e he
    rw [← hlast] at this
    exact this
  · simp
  · simp [hlen]

/-- A well-formed bucket is not touched by writes outside its chain. -/
theorem BranchOK.congr_branch {h h2 : Heap} {b : index_branch_t} {ptrs : List Nat}
    (hb : BranchOK h b ptrs) (hsame : ∀ p ∈ ptrs, (h2 p).next = (h p).next) :
    BranchOK h2 b ptrs :=
  ⟨hb.1.congr_heap hsame, hb.2.1, hb.2.2⟩

theorem IndexOK.bucket {h : Heap} {bs : Branches} {chains : Nat → List Nat}
    (hok : IndexOK h bs chains) (i : Nat) : BranchOK h (bucket_of bs i) (chains i) := by
  have := hok.1 i
  unfold bucket_of
  cases hb : bs i with
  | none => rw [hb] at this; simp only at this; rw [this]; exact BranchOK.empty_branch h
  | some b => rw [hb] at this; exact this

/-- The zero-initialised array is a well-formed index with no chains. -/
theorem IndexOK.init_index (h : Heap) : IndexOK h index_buckets_init (fun _ => []) :=
  ⟨fun _ => rfl, fun _ _ _ _ hp => by simp at hp⟩

/-- A well-formed index after the append of a node that is in none of its
chains. -/
theorem IndexOK.append_index {h : Heap} {bs : Branches} {chains : Nat → List Nat}
    (hok : IndexOK h bs chains) (branchid e : Nat) (he : ∀ i, e ∉ chains i) :
    IndexOK (append_heap h (bucket_of bs branchid).last e)
      (Function.update bs branchid (some
          { length := (bucket_of bs branchid).length + 1,
            list := if (bucket_of bs branchid).list = none then some e
              else (bucket_of bs branchid).list,
            last := some e }))
      (Function.update chains branchid (chains branchid ++ [e])) := by
  have hb := hok.bucket branchid
  constructor
  · intro i
    by_cases hi : i = branchid
    · subst hi
      rw [Function.update_same, Function.update_same]
      exact hb.append_entry e (he i)
    · rw [Function.update_noteq hi, Function.update_noteq hi]
      have hbi := hok.1 i
      cases hbs : bs i with
      | none => rw [hbs] at hbi; exact hbi
      | some b =>
        rw [hbs] at hbi
        simp only at hbi ⊢
        refine hbi.congr_branch ?_
        intro p hp
        rw [append_heap_other h _ e p (fun hpe => he i (by rw [← hpe]; exact hp))]
        intro hl
        exact hok.2 i branchid hi p hp (hb.mem_last hl)
  · intro i j hij p hp hq
    by_cases hi : i = branchid
    · subst hi
      rw [Function.update_same] at hp
      rw [Function.update_noteq (Ne.symm hij)] at hq
      rcases List.mem_append.mp hp with hp | hp
      · exact hok.2 i j hij p hp hq
      · simp only [List.mem_singleton] at hp
        rw [hp] at hq
        exact he j hq
    · rw [Function.update_noteq hi] at hp
      by_cases hj : j = branchid
      · subst hj
        rw [Function.update_same] at hq
        rcases List.mem_append.mp hq with hq | hq
        · exact hok.2 i j hij p hp hq
        · simp only [List.mem_singleton] at hq
          rw [hq] at hp
          exact he i hp
      · rw [Function.update_noteq hj] at hq
        exact hok.2 i j hij p hp hq

/-! ### `index_branch_remove` -/

/-- What `index_branch_remove` does, in one equation. -/
theorem index_branch_remove_eq (h : Heap) (b : index_branch_t) (e : Nat) (previous : Option Nat) :
    index_branch_remove h b e previous =
      (e,
        { length := b.length - 1,
          list := if b.list = some e then (h e).next else b.list,
          last := if b.last = some e then previous else b.last },
        unlink_heap h previous e) := by
  unfold index_branch_remove unlink_heap
  by_cases h1 : b.list = some e <;> by_cases h2 : b.last = some e <;> simp [h1, h2]

/-- The fields of an entry other than the link are not written by
`index_branch_remove`. -/
theorem unlink_heap_fields (h : Heap) (previous : Option Nat) (e p : Nat) :
    (unlink_heap h previous e p).ns = (h p).ns ∧
    (unlink_heap h previous e p).idlength = (h p).idlength ∧
    (unlink_heap h previous e p).id = (h p).id := by
  unfold unlink_heap
  cases previous with
  | none => exact ⟨rfl, rfl, rfl⟩
  | some q =>
    simp only
    by_cases hpq : p = q
    · subst hpq; rw [Function.update_same]; exact ⟨rfl, rfl, rfl⟩
    · rw [Function.update_noteq hpq]; exact ⟨rfl, rfl, rfl⟩

/-- Only the predecessor is written. -/
theorem unlink_heap_other (h : Heap) (previous : Option Nat) (e p : Nat)
    (hp : previous ≠ some p) : unlink_heap h previous e p = h p := by
  unfold unlink_heap
  cases previous with
  | none => rfl
  | some q =>
    simp only
    rw [Function.update_noteq (fun hpq => hp (by rw [hpq]))]

/-- A well-formed bucket after the removal of a node of its chain, with the
predecessor of the node in the chain. -/
theorem BranchOK.remove_entry {h : Heap} {b : index_branch_t} {pre post : List Nat} {e : Nat}
    (hb : BranchOK h b (pre ++ e :: post)) :
    BranchOK (unlink_heap h pre.getLast? e)
      { length := b.length - 1,
        list := if b.list = some e then (h e).next else b.list,
        last := if b.last = some e then pre.getLast? else b.last }
      (pre ++ post) := by
  obtain ⟨hc, hlast, hlen⟩ := hb
  have hnd := hc.nodup
  refine ⟨hc.unlink, ?_, ?_⟩
  · simp only
    rw [hlast]
    cases post with
    | nil =>
      have : (pre ++ [e]).getLast? = some e := by simp
      rw [this, if_pos rfl, List.append_nil]
    | cons q qs =>
      have h1 : (pre ++ e :: q :: qs).getLast? = (q :: qs).getLast? := by
        rw [List.getLast?_append_of_ne_nil _ (List.cons_ne_nil _ _), List.getLast?_cons_cons]
      have h2 : (pre ++ q :: qs).getLast? = (q :: qs).getLast? := by
        rw [List.getLast?_append_of_ne_nil _ (List.cons_ne_nil _ _)]
      rw [h1, h2]
      rw [if_neg]
      intro hl
      have hm : e ∈ q :: qs := List.mem_of_mem_getLast? hl
      have hnd2 : (e :: q :: qs).Nodup := (List.nodup_append.mp hnd).2.1
      exact (List.nodup_cons.mp hnd2).1 hm
  · simp only
    rw [hlen]
    simp only [List.length_append, List.length_cons]
    omega

/-- A well-formed index after the removal of a node from the chain of its
bucket. -/
theorem IndexOK.remove_index {h : Heap} {bs : Branches} {chains : Nat → List Nat}
    (hok : IndexOK h bs chains) (branchid e : Nat) (b : index_branch_t) (pre post : List Nat)
    (hb : bs branchid = some b) (hch : chains branchid = pre ++ e :: post) :
    IndexOK (unlink_heap h pre.getLast? e)
      (Function.update bs branchid (some
        { length := b.length - 1,
          list := if b.list = some e then (h e).next else b.list,
          last := if b.last = some e then pre.getLast? else b.last }))
      (Function.update chains branchid (pre ++ post)) := by
  have hbo : BranchOK h b (pre ++ e :: post) := by
    have := hok.1 branchid
    rw [hb, hch] at this
    exact this
  constructor
  · intro i
    by_cases hi : i = branchid
    · subst hi
      rw [Function.update_same, Function.update_same]
      exact hbo.remove_entry
    · rw [Function.update_noteq hi, Function.update_noteq hi]
      have hbi := hok.1 i
      cases hbs : bs i with
      | none => rw [hbs] at hbi; exact hbi
      | some b2 =>
        rw [hbs] at hbi
        simp only at hbi ⊢
        refine hbi.congr_branch ?_
        intro p hp
        rw [unlink_heap_other h _ e p]
        intro hl
        have hm : p ∈ pre := List.mem_of_mem_getLast? hl
        exact hok.2 i branchid hi p hp (by rw [hch]; exact List.mem_append_left _ hm)
  · have hsub : ∀ p, p ∈ pre ++ post → p ∈ chains branchid := by
      intro p hp
      rw [hch]
      rcases List.mem_append.mp hp with hp | hp
      · exact List.mem_append_left _ hp
      · exact List.mem_append_right _ (List.mem_cons_of_mem _ hp)
    intro i j hij p hp hq
    by_cases hi : i = branchid
    · subst hi
      rw [Function.update_same] at hp
      rw [Function.update_noteq (Ne.symm hij)] at hq
      exact hok.2 i j hij p (hsub p hp) hq
    · rw [Function.update_noteq hi] at hp
      by_cases hj : j = branchid
      · subst hj
        rw [Function.update_same] at hq
        exact hok.2 i j hij p hp (hsub p hq)
      · rw [Function.update_noteq hj] at hq
        exact hok.2 i j hij p hp hq

/-- What `index_remove_at` leaves, for an allocated bucket. -/
theorem index_remove_at_eq (h : Heap) (bs : Branches) (branchid e : Nat)
    (previous : Option Nat) (b : index_branch_t) (hb : bs branchid = some b) :
    index_remove_at h bs branchid e previous =
      (Function.update bs branchid (some
        { length := b.length - 1,
          list := if b.list = some e then (h e).next else b.list,
          last := if b.last = some e then previous else b.last }),
        unlink_heap h previous e) := by
  unfold index_remove_at
  rw [hb]
  simp only [index_branch_remove_eq]

/-- The entry the loop of `index_entry_get` returns is a node of the chain. -/
theorem index_entry_get_loop_mem (h : Heap) (ns : Nat) (id : List Byte) (fuel : Nat)
    (s : Option Nat) (ptrs : List Nat) (hc : Chain h s ptrs) (e : Nat)
    (hget : index_entry_get_loop h ns id fuel s = some (some e)) : e ∈ ptrs := by
  induction ptrs generalizing s fuel with
  | nil =>
    have hs : s = none := hc
    rw [hs] at hget
    cases fuel <;> simp [index_entry_get_loop] at hget
  | cons p ps ih =>
    obtain ⟨hs, hrest⟩ := hc
    rw [hs] at hget
    cases fuel with
    | zero => simp [index_entry_get_loop] at hget
    | succ f =>
      unfold index_entry_get_loop at hget
      split_ifs at hget with h1 h2 h3
      · exact List.mem_cons_of_mem _ (ih f _ hrest hget)
      · exact List.mem_cons_of_mem _ (ih f _ hrest hget)
      · have : p = e := Option.some.inj (Option.some.inj hget)
        rw [this]
        exact List.mem_cons_self _ _
      · exact List.mem_cons_of_mem _ (ih f _ hrest hget)

/-- On a well-formed index `index_entry_get` returns a node of the chain of
the bucket of the key. -/
theorem index_entry_get_mem (B : Buckets) {h : Heap} {bs : Branches} {chains : Nat → List Nat}
    (hok : IndexOK h bs chains) (ns : Nat) (id : List Byte) (fuel e : Nat)
    (hget : index_entry_get B h ⟨some bs, ns⟩ id fuel = some (some e)) :
    e ∈ chains (index_key_hash B id) := by
  unfold index_entry_get index_branch_get at hget
  simp only at hget
  have hb := hok.1 (index_key_hash B id)
  cases hbs : bs (index_key_hash B id) with
  | none =>
    rw [hbs] at hget
    simp at hget
  | some b =>
    rw [hbs] at hget hb
    simp only at hget hb
    exact index_entry_get_loop_mem h ns id fuel b.list _ hb.1 e hget

/-- The last node of a chain has no successor. -/
theorem Chain.last_next {h : Heap} {s : Option Nat} {ptrs : List Nat} {l : Nat}
    (hc : Chain h s ptrs) (hl : ptrs.getLast? = some l) : (h l).next = none := by
  induction ptrs generalizing s with
  | nil => simp at hl
  | cons p ps ih =>
    cases ps with
    | nil =>
      simp only [List.getLast?_singleton, Option.some.injEq] at hl
      rw [← hl]
      exact hc.2
    | cons q qs =>
      rw [List.getLast?_cons_cons] at hl
      exact ih hc.2 hl

/-- Every reachable state of the index is a well-formed index. -/
theorem IndexReach.ok {bs : Branches} {h : Heap} (hr : IndexReach bs h) :
    ∃ chains, IndexOK h bs chains := by
  induction hr with
  | init h => exact ⟨_, IndexOK.init_index h⟩
  | append bs h branchid e _ hfresh ih =>
    obtain ⟨chains, hok⟩ := ih
    have he : ∀ i, e ∉ chains i := by
      intro i
      have hi := hok.1 i
      cases hb : bs i with
      | none => rw [hb] at hi; simp only at hi; rw [hi]; simp
      | some b => rw [hb] at hi; exact hfresh i b _ hb hi.1
    rw [index_branch_append_eq]
    exact ⟨_, hok.append_index branchid e he⟩
  | remove bs h branchid e b pre post _ hb hc ih =>
    obtain ⟨chains, hok⟩ := ih
    have hi := hok.1 branchid
    rw [hb] at hi
    have hch : chains branchid = pre ++ e :: post := Chain.det hi.1 hc
    rw [index_remove_at_eq h bs branchid e _ b hb]
    exact ⟨_, hok.remove_index branchid e b pre post hb hch⟩

/-! ### Appending many entries -/

/-- The globals `index_set_buckets_bits` leaves, when it has a value. -/
theorem index_set_buckets_bits_some (bits : Nat) (r : Int) (B : Buckets)
    (hb : index_set_buckets_bits bits = some (r, B)) :
    bits ≤ 31 ∧ B = ⟨2 ^ bits, 2 ^ bits - 1⟩ := by
  have hle : bits ≤ 31 := by
    by_contra hgt
    unfold index_set_buckets_bits at hb
    rw [if_pos (by omega)] at hb
    exact Option.noConfusion hb
  refine ⟨hle, ?_⟩
  have key : ∃ r2, index_set_buckets_bits bits = some (r2, ⟨2 ^ bits, 2 ^ bits - 1⟩) := by
    interval_cases bits <;> exact ⟨_, rfl⟩
  obtain ⟨r2, h2⟩ := key
  rw [h2] at hb
  simp only [Option.some.injEq, Prod.mk.injEq] at hb
  exact hb.2.symm

/-- The hash of a key is below the count of buckets, for globals that
`index_set_buckets_bits` set. -/
theorem index_key_hash_lt (bits : Nat) (r : Int) (B : Buckets)
    (hb : index_set_buckets_bits bits = some (r, B)) (id : List Byte) :
    index_key_hash B id < B.buckets_branches := by
  obtain ⟨_, rfl⟩ := index_set_buckets_bits_some bits r B hb
  unfold index_key_hash
  simp only
  rw [Nat.and_pow_two_sub_one_eq_mod]
  exact Nat.mod_lt _ (by positivity)

theorem find?_unique {α : Type} (p : α → Bool) (l : List α) (e : α) (he : e ∈ l)
    (hp : p e = true) (huniq : ∀ x ∈ l, p x = true → x = e) : l.find? p = some e := by
  induction l with
  | nil => simp at he
  | cons x xs ih =>
    rw [List.find?_cons]
    cases hx : p x with
    | true =>
      simp only
      rw [huniq x (List.mem_cons_self _ _) hx]
    | false =>
      simp only
      rcases List.mem_cons.mp he with hex | hex
      · rw [hex, hx] at hp
        exact Bool.noConfusion hp
      · exact ih hex (fun y hy => huniq y (List.mem_cons_of_mem _ hy))

theorem filter_length_split (f : Nat → Nat) (N : Nat) (l : List Nat) :
    (l.filter (fun p => decide (f p < N + 1))).length
      = (l.filter (fun p => decide (f p < N))).length
        + (l.filter (fun p => decide (f p = N))).length := by
  induction l with
  | nil => rfl
  | cons x xs ih =>
    simp only [List.filter_cons, decide_eq_true_eq]
    split_ifs <;> simp only [List.length_cons] at * <;> omega

/-- The nodes of a list, counted bucket by bucket. -/
theorem sum_filter_length (f : Nat → Nat) (N : Nat) (l : List Nat) :
    ((List.range N).map (fun i => (l.filter (fun p => decide (f p = i))).length)).sum
      = (l.filter (fun p => decide (f p < N))).length := by
  induction N with
  | zero => simp
  | succ n ih =>
    rw [List.range_succ, List.map_append, List.sum_append, ih, filter_length_split]
    simp

theorem bucket_chain_snoc (B : Buckets) (h : Heap) (done : List Nat) (e : Nat) :
    Function.update (bucket_chain B h done) (index_key_hash B (h e).id)
        (bucket_chain B h done (index_key_hash B (h e).id) ++ [e])
      = bucket_chain B h (done ++ [e]) := by
  funext i
  unfold bucket_chain
  rw [List.filter_append]
  by_cases hi : i = index_key_hash B (h e).id
  · subst hi
    rw [Function.update_same]
    simp
  · rw [Function.update_noteq hi]
    have : ¬ index_key_hash B (h e).id = i := fun hk => hi hk.symm
    simp [this]

/-- Appending the entries at `es`, which are in no chain yet, keeps the index
well formed: the chain of each bucket is the entries of its hash, in the
order of the appends. -/
theorem append_all_inv (B : Buckets) (h : Heap) (es : List Nat) :
    ∀ (done : List Nat) (bs : Branches) (hp : Heap),
      IndexOK hp bs (bucket_chain B h done) →
      (∀ p, (hp p).ns = (h p).ns ∧ (hp p).idlength = (h p).idlength ∧ (hp p).id = (h p).id) →
      (done ++ es).Nodup →
      ∃ bs2 h2, append_all B es (some bs, hp) = (some bs2, h2) ∧
        IndexOK h2 bs2 (bucket_chain B h (done ++ es)) ∧
        (∀ p, (h2 p).ns = (h p).ns ∧ (h2 p).idlength = (h p).idlength ∧ (h2 p).id = (h p).id) := by
  induction es with
  | nil =>
    intro done bs hp hok hf _
    refine ⟨bs, hp, rfl, ?_, hf⟩
    rw [List.append_nil]
    exact hok
  | cons e es ih =>
    intro done bs hp hok hf hnd
    unfold append_all
    simp only
    rw [index_branch_append_eq, (hf e).2.2]
    have hnd2 : (done ++ [e] ++ es).Nodup := by
      rw [List.append_assoc]
      exact hnd
    have he : ∀ i, e ∉ bucket_chain B h done i := by
      intro i hmem
      have hd : e ∈ done := (List.mem_filter.mp hmem).1
      have := (List.nodup_append.mp hnd).2.2 hd (List.mem_cons_self _ _)
      exact this
    have hok2 := hok.append_index (index_key_hash B (h e).id) e he
    rw [bucket_chain_snoc] at hok2
    obtain ⟨bs2, h2, h3, h4, h5⟩ := ih (done ++ [e]) _ _ hok2
      (fun p => by
        obtain ⟨a1, a2, a3⟩ := append_heap_fields hp (bucket_of bs (index_key_hash B (h e).id)).last e p
        obtain ⟨b1, b2, b3⟩ := hf p
        exact ⟨a1.trans b1, a2.trans b2, a3.trans b3⟩)
      hnd2
    refine ⟨bs2, h2, h3, ?_, h5⟩
    rw [List.append_assoc] at h4
    exact h4

/-- The sum of the `length` fields of a well-formed index counts the nodes
of the chains of its buckets. -/
theorem total_length_eq (B : Buckets) (h : Heap) (bs : Branches) (chains : Nat → List Nat)
    (hok : IndexOK h bs chains) :
    total_length B bs = ((List.range B.buckets_branches).map (fun i => (chains i).length)).sum := by
  unfold total_length
  congr 1
  apply List.map_congr_left
  intro i _
  have hi := hok.1 i
  cases hb : bs i with
  | none => rw [hb] at hi; simp only at hi ⊢; rw [hi]; rfl
  | some b => rw [hb] at hi; exact hi.2.2

/-! ### The CRC: words and bytes -/

theorem add_eq_xor_of_lt (b v n : Nat) (hb : b < 2 ^ n) : b + 2 ^ n * v = b ^^^ (2 ^ n * v) := by
  apply Nat.eq_of_testBit_eq
  intro j
  rw [Nat.add_comm, Nat.testBit_mul_pow_two_add v hb, Nat.testBit_xor, Nat.testBit_mul_pow_two]
  by_cases hj : j < n
  · simp [hj, Nat.not_le.mpr hj]
  · have : b.testBit j = false :=
      Nat.testBit_lt_two_pow (Nat.lt_of_lt_of_le hb
        (Nat.pow_le_pow_right (by decide) (Nat.le_of_not_lt hj)))
    simp [hj, this, Nat.le_of_not_lt hj]

theorem xor_mod_two_iff (a b : Nat) : (a ^^^ b) % 2 = 1 ↔ ¬ (a % 2 = 1 ↔ b % 2 = 1) := by
  have := Nat.testBit_xor a b 0
  simp only [Nat.testBit_zero] at this
  by_cases ha : a % 2 = 1 <;> by_cases hb : b % 2 = 1 <;> simp [ha, hb] at this ⊢ <;> omega

/-- The division step is linear over the exclusive or. -/
theorem crc_shift_xor (a b : Nat) : crc_shift (a ^^^ b) = crc_shift a ^^^ crc_shift b := by
  unfold crc_shift
  have hx := xor_mod_two_iff a b
  rw [Nat.xor_div_two]
  by_cases ha : a % 2 = 1 <;> by_cases hb : b % 2 = 1
  · have hn : ¬ (a ^^^ b) % 2 = 1 := by rw [hx]; simp [ha, hb]
    rw [if_pos ha, if_pos hb, if_neg hn]
    rw [Nat.xor_assoc, Nat.xor_comm (b / 2), ← Nat.xor_assoc (0x82F63B78), Nat.xor_self,
      Nat.zero_xor]
  · have hn : (a ^^^ b) % 2 = 1 := by rw [hx]; simp [ha, hb]
    rw [if_pos ha, if_neg hb, if_pos hn]
    rw [Nat.xor_assoc, Nat.xor_comm (b / 2), ← Nat.xor_assoc]
  · have hn : (a ^^^ b) % 2 = 1 := by rw [hx]; simp [ha, hb]
    rw [if_neg ha, if_pos hb, if_pos hn]
    rw [Nat.xor_assoc]
  · have hn : ¬ (a ^^^ b) % 2 = 1 := by rw [hx]; simp [ha, hb]
    rw [if_neg ha, if_neg hb, if_neg hn]

theorem crc_shift_double (y : Nat) : crc_shift (2 * y) = y := by
  unfold crc_shift
  rw [if_neg (by omega)]
  omega

theorem crc_bits_xor (n a b : Nat) : crc_bits n (a ^^^ b) = crc_bits n a ^^^ crc_bits n b := by
  induction n generalizing a b with
  | zero => rfl
  | succ n ih =>
    unfold crc_bits
    rw [crc_shift_xor, ih]

theorem crc_bits_pow (n y : Nat) : crc_bits n (2 ^ n * y) = y := by
  induction n generalizing y with
  | zero => simp [crc_bits]
  | succ n ih =>
    unfold crc_bits
    have : 2 ^ (n + 1) * y = 2 * (2 ^ n * y) := by rw [Nat.pow_succ]; ring
    rw [this, crc_shift_double, ih]

theorem crc_bits_add (m n c : Nat) : crc_bits (m + n) c = crc_bits n (crc_bits m c) := by
  induction m generalizing c with
  | zero => simp [crc_bits]
  | succ m ih =>
    have : m + 1 + n = (m + n) + 1 := by omega
    rw [this]
    show crc_bits (m + n) (crc_shift c) = crc_bits n (crc_bits m (crc_shift c))
    exact ih _

/-- The bytes of a word past the first wait in the high bits of the register
while the first byte is divided out. -/
theorem crc_bits_byte (crc b v : Nat) (hb : b < 256) :
    crc_bits 8 (crc ^^^ (b + 256 * v)) = _mm_crc32_u8 crc b ^^^ v := by
  have h := add_eq_xor_of_lt b v 8 (by simpa using hb)
  have h256 : (2 : Nat) ^ 8 = 256 := by norm_num
  rw [h256] at h
  rw [h, ← Nat.xor_assoc, crc_bits_xor]
  have := crc_bits_pow 8 v
  rw [h256] at this
  rw [this]
  rfl

/-- The CRC instruction on a word of `n` bytes does what the byte instruction
does on its bytes in turn, least significant first. -/
theorem crc_bits_bytes (bytes : List Byte) (crc : Nat) :
    crc_bits (8 * bytes.length) (crc ^^^ ofLE bytes)
      = bytes.foldl (fun hash b => _mm_crc32_u8 hash b.val) crc := by
  induction bytes generalizing crc with
  | nil => simp [crc_bits, ofLE]
  | cons b bs ih =>
    have hl : 8 * (b :: bs).length = 8 + 8 * bs.length := by simp; omega
    rw [hl, crc_bits_add, List.foldl_cons]
    unfold ofLE
    rw [crc_bits_byte crc b.val (ofLE bs) b.isLt]
    exact ih _

theorem _mm_crc32_u64_bytes (crc : Nat) (bytes : List Byte) (h : bytes.length = 8) :
    _mm_crc32_u64 crc (ofLE bytes) = bytes.foldl (fun hash b => _mm_crc32_u8 hash b.val) crc := by
  have := crc_bits_bytes bytes crc
  rw [h] at this
  exact this

theorem crc_shift_lt (c : Nat) (h : c < 2 ^ 32) : crc_shift c < 2 ^ 32 := by
  unfold crc_shift
  have h2 : c / 2 < 2 ^ 32 := by omega
  split
  · exact Nat.xor_lt_two_pow h2 (by norm_num)
  · exact h2

theorem crc_bits_lt (n c : Nat) (h : c < 2 ^ 32) : crc_bits n c < 2 ^ 32 := by
  induction n generalizing c with
  | zero => exact h
  | succ n ih =>
    unfold crc_bits
    exact ih _ (crc_shift_lt c h)

theorem _mm_crc32_u8_lt (crc : Nat) (b : Byte) (h : crc < 2 ^ 32) :
    _mm_crc32_u8 crc b.val < 2 ^ 32 := by
  unfold _mm_crc32_u8
  apply crc_bits_lt
  exact Nat.xor_lt_two_pow h (Nat.lt_of_lt_of_le b.isLt (by norm_num))

theorem foldl_crc_lt (bytes : List Byte) (crc : Nat) (h : crc < 2 ^ 32) :
    bytes.foldl (fun hash b => _mm_crc32_u8 hash b.val) crc < 2 ^ 32 := by
  induction bytes generalizing crc with
  | nil => exact h
  | cons b bs ih => exact ih _ (_mm_crc32_u8_lt crc b h)

/-- The first loop of `data_crc32` has fuel for all its rounds, leaves at most
8 bytes, and the byte instruction folded over them gives what it gives over
all the bytes. -/
theorem data_crc32_words_spec (fuel : Nat) (hash : Nat) (bytes : List Byte)
    (hfuel : bytes.length ≤ fuel) (hh : hash < 2 ^ 32) :
    (data_crc32_words fuel hash bytes).2.length ≤ 8 ∧
    (data_crc32_words fuel hash bytes).1 < 2 ^ 32 ∧
    (data_crc32_words fuel hash bytes).2.foldl (fun hash b => _mm_crc32_u8 hash b.val)
        (data_crc32_words fuel hash bytes).1
      = bytes.foldl (fun hash b => _mm_crc32_u8 hash b.val) hash := by
  induction fuel generalizing hash bytes with
  | zero =>
    have : bytes = [] := List.length_eq_zero.mp (Nat.le_zero.mp hfuel)
    subst this
    exact ⟨by simp [data_crc32_words], hh, rfl⟩
  | succ n ih =>
    unfold data_crc32_words
    by_cases h8 : 8 < bytes.length
    · rw [if_pos h8]
      have hlen : (bytes.take 8).length = 8 := by rw [List.length_take]; omega
      have hstep := _mm_crc32_u64_bytes hash (bytes.take 8) hlen
      have hlt := foldl_crc_lt (bytes.take 8) hash hh
      rw [hstep, Nat.mod_eq_of_lt hlt]
      have hdrop : (bytes.drop 8).length ≤ n := by rw [List.length_drop]; omega
      obtain ⟨h1, h2, h3⟩ := ih _ (bytes.drop 8) hdrop hlt
      refine ⟨h1, h2, ?_⟩
      rw [h3, ← List.foldl_append, List.take_append_drop]
    · rw [if_neg h8]
      exact ⟨by simp only; omega, hh, rfl⟩

/-- Function `data_crc32` is the byte instruction folded over all the bytes. -/
theorem data_crc32_bytes (bytes : List Byte) :
    data_crc32 bytes = bytes.foldl (fun hash b => _mm_crc32_u8 hash b.val) 0 := by
  unfold data_crc32
  obtain ⟨_, _, h3⟩ := data_crc32_words_spec bytes.length 0 bytes (Nat.le_refl _) (by norm_num)
  simp only
  rw [h3]
  exact Nat.mod_eq_of_lt (foldl_crc_lt bytes 0 (by norm_num))

theorem crc32c_bit_eq (c : Nat) : crc32c_bit c = crc_shift c := by
  unfold crc32c_bit crc_shift
  rw [Nat.and_one_is_mod]
  rfl

theorem crc_bits_iterate (n c : Nat) : Nat.iterate crc32c_bit n c = crc_bits n c := by
  induction n generalizing c with
  | zero => rfl
  | succ n ih =>
    rw [Function.iterate_succ_apply, crc32c_bit_eq, ih]
    rfl

theorem crc32c_byte_eq (crc : Nat) (b : Byte) : crc32c_byte crc b = _mm_crc32_u8 crc b.val := by
  unfold crc32c_byte _mm_crc32_u8
  exact crc_bits_iterate 8 _

/-! ### The key hash -/

theorem index_key_hash_words_eq (fuel hash : Nat) (id : List Byte) :
    index_key_hash_words fuel hash id = data_crc32_words fuel hash id := by
  induction fuel generalizing hash id with
  | zero => rfl
  | succ n ih =>
    unfold index_key_hash_words data_crc32_words
    split
    · exact ih _ _
    · rfl

/-- The key hash is the CRC of the data log under the mask. -/
theorem index_key_hash_crc (B : Buckets) (id : List Byte) :
    index_key_hash B id = data_crc32 id &&& B.buckets_mask := by
  unfold index_key_hash data_crc32
  simp only [index_key_hash_words_eq]

/-! ### The sync policy at the opening of a segment -/

/-- The policy reads the clock of the world and nothing else of it. -/
theorem sync_due_now (root : data_root_t) (w w2 : World) (h : w2.now = w.now) :
    sync_due root w2 ↔ sync_due root w := by
  unfold sync_due
  rw [h]

/-- On a writable file system the header write of `data_initialize` evaluates
the sync policy: the root and the counter of `fsync` after it. -/
theorem data_initialize_sync {L : Layout} (filename : Nat) (root : data_root_t)
    (w : World) (out : WriteOutcome) (root1 : data_root_t) (w1 : World) (hr : w.rofs = false)
    (h : data_initialize L filename root w out = some (root1, w1)) :
    root1 = { root with lastsync := if sync_due root w then w.now else root.lastsync } ∧
    w1.fsyncs = w.fsyncs + (if sync_due root w then 1 else 0) ∧ w1.now = w.now ∧
    w1.rofs = false := by
  unfold data_initialize sys_open at h
  simp only [hr, Bool.and_false, Bool.false_eq_true, if_false, if_true] at h
  have key : ∀ w0 : World, w0.now = w.now → w0.fsyncs = w.fsyncs → w0.rofs = false →
      (let x := data_write w0 ⟨filename, 0, false, true⟩ (L.data_header w0.now root.dataid)
          true root out
       (if x.1 = 0 then none else some (x.2.2.1, x.2.2.2)) = some (root1, w1)) →
      root1 = { root with lastsync := if sync_due root w then w.now else root.lastsync } ∧
      w1.fsyncs = w.fsyncs + (if sync_due root w then 1 else 0) ∧ w1.now = w.now ∧
      w1.rofs = false := by
    intro w0 hn hfs hro hx
    simp only at hx
    by_cases h0 : (data_write w0 ⟨filename, 0, false, true⟩ (L.data_header w0.now root.dataid)
        true root out).1 = 0
    · rw [if_pos h0] at hx; simp at hx
    · rw [if_neg h0] at hx
      have hresp := data_write_ok_resp _ _ _ _ _ _ h0
      have hwh := sys_write_whole w0 ⟨filename, 0, false, true⟩ _ out rfl hresp
      unfold data_write at hx
      rw [hwh] at hx
      simp only [Int.natCast_nonneg, not_lt.mpr, if_false, ne_eq, not_true_eq_false,
        if_true, Option.some.injEq, Prod.mk.injEq] at hx
      obtain ⟨r, hsc⟩ := data_sync_check_spec root
        { w0 with files := Function.update w0.files filename (some (file_pwrite (w0.content filename) 0 (L.data_header w0.now root.dataid))) }
      rw [hsc] at hx
      obtain ⟨rfl, rfl⟩ := hx
      refine ⟨?_, ?_, ?_, ?_⟩ <;> simp only [sync_due, hn, hfs, hro]
  cases hf : w.files filename with
  | some file =>
    rw [hf] at h
    exact key w rfl rfl hr h
  | none =>
    rw [hf] at h
    exact key { w with files := Function.update w.files filename (some []), rofs := false } rfl
      rfl rfl h

/-- What `data_init` leaves of the sync state on a writable file system: the
settings, and a `lastsync` that is the clock when the header write synced. -/
theorem data_init_sync {L : Layout} (settings : settings_t) (w0 : World) (dataid : Nat)
    (out0 : WriteOutcome) (root : data_root_t) (w : World) (hrw : w0.rofs = false)
    (hinit : data_init L settings w0 dataid out0 = some (root, w)) :
    root.sync = settings.sync ∧ root.synctime = settings.synctime ∧ w.now = w0.now ∧
    (root.lastsync = if settings.sync = true ∨
        (settings.synctime ≠ 0 ∧ ((w0.now : Int) - 0) > (settings.synctime : Int))
      then w0.now else 0) ∧
    (w.fsyncs = w0.fsyncs + if settings.sync = true ∨
        (settings.synctime ≠ 0 ∧ ((w0.now : Int) - 0) > (settings.synctime : Int))
      then 1 else 0) := by
  unfold data_init data_set_id at hinit
  simp only at hinit
  cases hi : data_initialize L dataid { datafile := dataid, dataid := dataid, datafd := ⟨0, 0, false, false⟩, previous := 0, sync := settings.sync, synctime := settings.synctime, lastsync := 0 } w0 out0 with
  | none => rw [hi] at hinit; simp at hinit
  | some p =>
    obtain ⟨root2, w1⟩ := p
    rw [hi] at hinit
    simp only at hinit
    obtain ⟨hr2, hfs, hnow, hro⟩ := data_initialize_sync _ _ _ _ _ _ hrw hi
    have hfiles := data_initialize_files _ _ _ _ _ _ hrw hi
    have hf2 : root2.datafile = dataid := by rw [hr2]
    have hsome : (w1.files root2.datafile).isSome = true := by
      rw [hf2, hfiles, Function.update_same]; rfl
    rw [data_open_final_eq L root2 w1 hro hsome] at hinit
    simp only [Option.some.injEq, Prod.mk.injEq] at hinit
    obtain ⟨h3, rfl⟩ := hinit
    obtain ⟨pos, prev, hl⟩ := data_open_final_loop_frame L w1 (w1.size root2.datafile + 1)
      { root2 with datafd := ⟨root2.datafile, L.sizeof_data_header_t, true, true⟩, previous := L.sizeof_data_header_t }
    rw [hl] at h3
    rw [← h3, hr2]
    simp only [sync_due] at hfs ⊢
    exact ⟨by trivial, by trivial, hnow, by trivial, hfs⟩

/-- A successful insert: the sync policy is evaluated once, and the settings
and the clock stay. -/
theorem data_insert_ok_sync (L : Layout) (root : data_root_t) (w : World) (data id : List Byte)
    (out1 out2 : WriteOutcome) (o : Nat) (root1 : data_root_t) (w1 : World)
    (hins : data_insert L root w data id out1 out2 = (o, root1, w1)) (hok : o ≠ 0) :
    w1.fsyncs = w.fsyncs + (if sync_due root w then 1 else 0) ∧
    root1.lastsync = (if sync_due root w then w.now else root.lastsync) ∧
    root1.sync = root.sync ∧ root1.synctime = root.synctime ∧ w1.now = w.now := by
  have hs := data_insert_sync L root w data id out1 out2
  have hcases := data_insert_cases L root w data id out1 out2
  simp only at hs hcases
  rw [hins] at hs hcases
  simp only at hs hcases
  rcases hcases with ⟨hc, ls, fs, heq⟩ | ⟨_, h0⟩
  · obtain ⟨h1, h2⟩ := hs.1 hc
    simp only [Prod.mk.injEq] at heq
    obtain ⟨_, hr1, hw1⟩ := heq
    refine ⟨h1, h2, ?_, ?_, ?_⟩
    · rw [hr1]
    · rw [hr1]
    · rw [hw1]
  · exact absurd h0 hok

/-- A segment that does not exist is not opened on a read-only file system. -/
theorem data_init_fresh_writable {L : Layout} (settings : settings_t) (w0 : World) (dataid : Nat)
    (out0 : WriteOutcome) (st : State) (hfresh : w0.files dataid = none)
    (hinit : data_init L settings w0 dataid out0 = some st) : w0.rofs = false := by
  cases hr : w0.rofs with
  | false => rfl
  | true =>
    exfalso
    unfold data_init data_set_id at hinit
    simp only at hinit
    unfold data_initialize sys_open at hinit
    simp only [hr, Bool.and_self, if_true] at hinit
    rw [data_open_final_rofs L _ w0 hr hfresh] at hinit
    exact Option.noConfusion hinit

set_option maxRecDepth 100000 in
theorem data_init_timed :
    data_init specLayout ⟨false, 1⟩ emptyWorld 0 (.upto 11) = some (timedRoot, timedWorld) := by
  simp [data_init, data_initialize, data_open_final, data_set_id, sys_open, emptyWorld, data_write,
    sys_write, data_sync_check, data_sync, sys_fsync, file_pwrite, specLayout, toLE, OFF_MAX,
    World.content, sys_lseek_set, World.size, data_open_final_loop, sys_read, peek, freshRoot,
    freshWorld, timedRoot, timedWorld]

/-! # The claims -/

/-- C1: a successful insert is read back by `data_get`: the payload returned
has the length of the inserted payload and its buffer holds the same bytes
(for the empty payload, `data_get` returns its NULL buffer with length 0). -/
theorem data_get_after_insert (L : Layout) (hL : L.wf) (root : data_root_t) (w : World)
    (data id : List Byte) (out1 out2 : WriteOutcome) (o : Nat) (root1 : data_root_t) (w1 : World)
    (hins : data_insert L root w data id out1 out2 = (o, root1, w1)) (hok : o ≠ 0) :
    (data_get L root1 w1 o data.length root1.dataid id.length).1
      = { buffer := if data = [] then none else some data, length := data.length } := by
  obtain ⟨ls, fs, pos, h⟩ := data_insert_ok L root w data id out1 out2 (by rw [hins]; exact hok)
  rw [h] at hins
  simp only [Prod.mk.injEq] at hins
  obtain ⟨rfl, rfl, rfl⟩ := hins
  have hs := data_insert_header_spec hL id.length data.length root.previous (data_crc32 data)
  have he := EntryAt.of_append L (w.content root.datafd.file) _ id data hs.1
  rw [data_get_current]
  exact data_get_real_entry _ _ _ _ id data (by simpa [content_update, World.size] using he)
    (by intro hd; rw [hs.2.2.1, hd]; rfl)

set_option maxRecDepth 100000 in
theorem data_get_after_insert_witness :
    (data_get specLayout helloInserted.2.1 helloInserted.2.2 11 5 0 5).1
      = { buffer := some worldData, length := 5 } :=
  data_get_after_insert specLayout specLayout_wf freshRoot freshWorld worldData helloKey
    (.upto 24) (.upto 5) 11 _ _ rfl (by decide)

/-- C2 (counterexample): a payload of 8 MiB + 1 bytes is inserted with
success at offset 11 of the fresh segment, and `data_match` with its key
then returns 0, not the length of the payload. -/
theorem data_match_big_payload :
    (data_insert specLayout freshRoot freshWorld bigData helloKey (.upto 24) (.upto 8388609)).1 = 11 ∧
    (data_match specLayout
      (data_insert specLayout freshRoot freshWorld bigData helloKey (.upto 24) (.upto 8388609)).2.1
      (data_insert specLayout freshRoot freshWorld bigData helloKey (.upto 24) (.upto 8388609)).2.2
      helloKey 11 0).1 ≠ bigData.length := by
  have hlen := (data_insert_header_spec specLayout_wf helloKey.length bigData.length
    freshRoot.previous (data_crc32 bigData)).1
  have hE : specLayout.sizeof_data_entry_header_t = 19 := rfl
  rw [hE] at hlen
  have h1 : (data_insert specLayout freshRoot freshWorld bigData helloKey (.upto 24)
      (.upto 8388609)).1 = 11 := by
    rw [data_insert_succeeds specLayout freshRoot freshWorld bigData helloKey (.upto 24)
      (.upto 8388609) (by rw [hlen]; decide) (by rw [bigData_length]; decide) rfl
      (by rw [hlen, bigData_length]; show freshWorld.size 0 + _ + _ ≤ _; rw [freshWorld_size]; decide)]
    exact freshWorld_size
  refine ⟨h1, ?_⟩
  obtain ⟨_, ⟨pos, ls, hr⟩, _, he, _⟩ := data_insert_world specLayout_wf freshRoot freshWorld
    bigData helloKey (.upto 24) (.upto 8388609) 11 _ _ ((triple_eta _).trans (by rw [h1]))
    (by decide)
  have hs := data_insert_header_spec specLayout_wf helloKey.length bigData.length
    freshRoot.previous (data_crc32 bigData)
  have hm := data_match_current specLayout
    (data_insert specLayout freshRoot freshWorld bigData helloKey (.upto 24) (.upto 8388609)).2.1
    (data_insert specLayout freshRoot freshWorld bigData helloKey (.upto 24) (.upto 8388609)).2.2
    helloKey 11
  have hd : (data_insert specLayout freshRoot freshWorld bigData helloKey (.upto 24)
      (.upto 8388609)).2.1.dataid = 0 := by rw [hr]; rfl
  have hfile : (data_insert specLayout freshRoot freshWorld bigData helloKey (.upto 24)
      (.upto 8388609)).2.1.datafd.file = freshRoot.datafd.file := by rw [hr]
  rw [hd] at hm
  rw [hm, data_match_real_entry _ _ 11 _ helloKey bigData helloKey (by rw [hfile]; exact he)
    (by rw [hs.2.2.1, bigData_length]; rfl) (by rw [hs.2.1]; rfl), bigData_length]
  decide

/-- C2 (amended): after a successful insert, `data_match` with the same key
at the returned offset of the same segment returns the length of the payload
when that length is at most `DATA_MAXSIZE`, and 0 when it is larger. -/
theorem data_match_after_insert (L : Layout) (hL : L.wf) (root : data_root_t) (w : World)
    (data id : List Byte) (out1 out2 : WriteOutcome) (o : Nat) (root1 : data_root_t) (w1 : World)
    (hid : id.length < 2 ^ 8) (hdata : data.length < 2 ^ 32)
    (hins : data_insert L root w data id out1 out2 = (o, root1, w1)) (hok : o ≠ 0) :
    (data_match L root1 w1 id o root1.dataid).1
      = if data.length ≤ L.DATA_MAXSIZE then data.length else 0 := by
  obtain ⟨ls, fs, pos, h⟩ := data_insert_ok L root w data id out1 out2 (by rw [hins]; exact hok)
  rw [h] at hins
  simp only [Prod.mk.injEq] at hins
  obtain ⟨rfl, rfl, rfl⟩ := hins
  have hs := data_insert_header_spec hL id.length data.length root.previous (data_crc32 data)
  have he := EntryAt.of_append L (w.content root.datafd.file) _ id data hs.1
  rw [data_match_current]
  rw [data_match_real_entry _ _ _ _ id data id (by simpa [content_update, World.size] using he)
    (by rw [hs.2.2.1]; exact Nat.mod_eq_of_lt (by norm_num; exact hdata))
    (by rw [hs.2.1]; exact Nat.mod_eq_of_lt (by norm_num; exact hid))]
  rw [hs.2.2.2.2.2]
  simp

set_option maxRecDepth 100000 in
theorem data_match_after_insert_witness :
    (data_match specLayout helloInserted.2.1 helloInserted.2.2 helloKey 11 0).1 = 5 :=
  data_match_after_insert specLayout specLayout_wf freshRoot freshWorld worldData helloKey
    (.upto 24) (.upto 5) 11 _ _ (by decide) (by decide) rfl (by decide)

/-- C3: after a successful insert, `data_check` at the returned offset of the
same segment returns 1: the CRC computed over the payload bytes read back
after the header and the key equals the `integrity` field of the header. -/
theorem data_check_after_insert (L : Layout) (hL : L.wf) (root : data_root_t) (w : World)
    (data id : List Byte) (out1 out2 : WriteOutcome) (o : Nat) (root1 : data_root_t) (w1 : World)
    (hid : id.length < 2 ^ 8) (hdata : data.length < 2 ^ 32)
    (hins : data_insert L root w data id out1 out2 = (o, root1, w1)) (hok : o ≠ 0) :
    (data_check L root1 w1 o root1.dataid).1 = 1 := by
  obtain ⟨ls, fs, pos, h⟩ := data_insert_ok L root w data id out1 out2 (by rw [hins]; exact hok)
  rw [h] at hins
  simp only [Prod.mk.injEq] at hins
  obtain ⟨rfl, rfl, rfl⟩ := hins
  have hs := data_insert_header_spec hL id.length data.length root.previous (data_crc32 data)
  have he := EntryAt.of_append L (w.content root.datafd.file) _ id data hs.1
  rw [data_check_current]
  rw [data_check_real_entry _ _ _ _ id data (by simpa [content_update, World.size] using he)
    (by rw [hs.2.2.1]; exact Nat.mod_eq_of_lt (by norm_num; exact hdata))
    (by rw [hs.2.1]; exact Nat.mod_eq_of_lt (by norm_num; exact hid))]
  rw [hs.2.2.2.2.1, data_crc32_mod]
  simp

set_option maxRecDepth 100000 in
theorem data_check_after_insert_witness :
    (data_check specLayout helloInserted.2.1 helloInserted.2.2 11 0).1 = 1 :=
  data_check_after_insert specLayout specLayout_wf freshRoot freshWorld worldData helloKey
    (.upto 24) (.upto 5) 11 _ _ (by decide) (by decide) rfl (by decide)

/-- C4: after `data_init` and any history of calls, a `data_insert` that
succeeds returns the size the current segment file had before the call, and
that offset is larger than every offset an earlier successful insert into the
same segment returned. -/
theorem data_insert_offset_monotone (L : Layout) (hL : L.wf) (settings : settings_t) (w0 : World)
    (dataid : Nat) (out0 : WriteOutcome) (st0 st : State) (ops : List Op)
    (log : List (Nat × Nat)) (data id : List Byte) (out1 out2 : WriteOutcome) (o : Nat)
    (root1 : data_root_t) (w1 : World)
    (hinit : data_init L settings w0 dataid out0 = some st0)
    (hrun : run L ops st0 = some (st, log))
    (hins : data_insert L st.1 st.2 data id out1 out2 = (o, root1, w1)) (hok : o ≠ 0) :
    o = st.2.size st.1.dataid ∧ ∀ p ∈ log, p.1 = st.1.dataid → p.2 < o := by
  obtain ⟨hi, _⟩ := data_init_inv hL settings w0 dataid out0 st0 hinit
  obtain ⟨hi2, _, _, hlog⟩ := run_inv hL ops st0 st log hrun hi
  obtain ⟨ho, _⟩ := data_insert_world hL st.1 st.2 data id out1 out2 o root1 w1 hins hok
  rw [hi2.1] at ho
  refine ⟨ho, fun p hp hseg => ?_⟩
  rw [ho, ← hseg]
  exact hlog p hp

set_option maxRecDepth 100000 in
theorem data_insert_offset_monotone_witness :
    (data_insert specLayout helloInserted.2.1 helloInserted.2.2 helloKey worldData
      (.upto 24) (.upto 5)).1 = helloInserted.2.2.size 0 ∧
    ∀ p ∈ [((0 : Nat), (11 : Nat))], p.1 = 0 →
      p.2 < (data_insert specLayout helloInserted.2.1 helloInserted.2.2 helloKey worldData
        (.upto 24) (.upto 5)).1 :=
  data_insert_offset_monotone specLayout specLayout_wf ⟨false, 0⟩ emptyWorld 0 (.upto 11)
    (freshRoot, freshWorld) helloInserted.2
    [Op.insert worldData helloKey (.upto 24) (.upto 5)] [(0, 11)] helloKey worldData
    (.upto 24) (.upto 5) _ _ _ data_init_fresh rfl rfl (by decide)

set_option maxRecDepth 100000 in
/-- C5 (the code at the failing input): "hello"/"world" is inserted into the
fresh segment 0 and `previous` is 11, the offset of the entry; `data_init` on
the same directory then leaves `previous` at 19, that is 11 + 19 - 11, the
end of the entry header less `sizeof(data_header_t)`. -/
theorem reopen_previous_differs :
    helloInserted.1 = 11 ∧ helloInserted.2.1.previous = 11 ∧
    (data_init specLayout ⟨false, 0⟩ helloInserted.2.2 0 (.upto 11)).map
      (fun st => st.1.previous) = some 19 := by
  decide

/-- C6: once `data_delete` has returned 1 for an offset of a segment,
`data_match` returns 0 there, whatever the key (the key of the entry
included). -/
theorem data_match_after_delete (L : Layout) (hL : L.wf) (root : data_root_t) (w : World)
    (o dataid : Nat) (out : WriteOutcome) (root1 : data_root_t) (w1 : World) (key : List Byte)
    (hroot : root.datafd.file = root.dataid)
    (hdel : data_delete L root w o dataid out = (1, root1, w1)) :
    (data_match L root1 w1 key o dataid).1 = 0 := by
  obtain ⟨hlen, rfl, hx, _, hc, _, _⟩ := data_delete_world hL root w o dataid out root1 w1 hdel
  have hE : 0 < L.sizeof_data_entry_header_t := by have := hL.flags_in; omega
  have hb := peek_length_eq hlen hE
  obtain ⟨fd, hf, hm⟩ := data_match_value L root1 w1 key o dataid hroot hx
  rw [hm]
  apply data_match_real_deleted
  have hs := set_flags_spec hL _ (hdr_flags L (peek (w.content dataid) o
    L.sizeof_data_entry_header_t) ||| DATA_ENTRY_DELETED) hlen
  rw [hf, hc, peek_poke_same _ _ _ _ (by rw [hs.1]; exact hb) hs.1.symm, hs.2.2.2.2.2]
  exact or_deleted_and _

set_option maxRecDepth 100000 in
theorem data_match_after_delete_witness :
    (data_match specLayout helloDeleted.2.1 helloDeleted.2.2 helloKey 11 0).1 = 0 :=
  data_match_after_delete specLayout specLayout_wf helloInserted.2.1 helloInserted.2.2
    11 0 (.upto 19) _ _ helloKey rfl rfl

/-- C7: deleting an inserted entry is a tombstone: the segment keeps its
length, every byte of it but the flags byte of the entry is the same, that byte
goes from 0 to `DATA_ENTRY_DELETED`, the other segments are untouched, and
`data_check` and `data_get` answer as before the deletion. -/
theorem data_delete_tombstone (L : Layout) (hL : L.wf) (root : data_root_t) (w : World)
    (data id : List Byte) (out1 out2 out3 : WriteOutcome) (o : Nat) (root1 root2 : data_root_t)
    (w1 w2 : World) (hroot : root.datafd.file = root.dataid)
    (hid : id.length < 2 ^ 8) (hdata : data.length < 2 ^ 32)
    (hins : data_insert L root w data id out1 out2 = (o, root1, w1)) (hok : o ≠ 0)
    (hdel : data_delete L root1 w1 o root1.dataid out3 = (1, root2, w2)) :
    w2.size root1.dataid = w1.size root1.dataid ∧
    (∀ i, i ≠ o + L.off_flags → (w2.content root1.dataid)[i]? = (w1.content root1.dataid)[i]?) ∧
    (w1.content root1.dataid)[o + L.off_flags]? = some 0 ∧
    (w2.content root1.dataid)[o + L.off_flags]? = some 1 ∧
    (∀ s, s ≠ root1.dataid → w2.files s = w1.files s) ∧
    (data_check L root2 w2 o root1.dataid).1 = 1 ∧
    (data_get L root2 w2 o data.length root1.dataid id.length).1
      = { buffer := if data = [] then none else some data, length := data.length } := by
  obtain ⟨_, ⟨pos, ls, hr1⟩, _, he, _, _, _, _⟩ :=
    data_insert_world hL root w data id out1 out2 o root1 w1 hins hok
  have hd1 : root1.dataid = root.datafd.file := by rw [hr1]; exact hroot.symm
  have hroot1 : root1.datafd.file = root1.dataid := by rw [hd1, hr1]
  rw [hd1] at hdel ⊢
  obtain ⟨hlen, rfl, hx, _, hc, hothers, _⟩ :=
    data_delete_world hL root1 w1 o root.datafd.file out3 root2 w2 hdel
  have hs := data_insert_header_spec hL id.length data.length root.previous (data_crc32 data)
  generalize data_insert_header L id.length data.length root.previous (data_crc32 data) = hdr
    at he hs
  rw [he.read_hdr, hs.2.2.2.2.2] at hc
  have hf := set_flags_spec hL hdr (0 ||| DATA_ENTRY_DELETED) hs.1
  have hbound := he.bound
  have he2 := he.poke_hdr _ hf.1
  rw [← hc] at he2
  have hfin := hL.flags_in
  have hpk : ∀ j, j < L.sizeof_data_entry_header_t →
      hdr[j]? = (w1.content root.datafd.file)[o + j]? := by
    intro j hj
    rw [← he.read_hdr, peek_getElem? _ _ _ _ hj]
  have hbyte : ∀ i, (w2.content root.datafd.file)[i]? =
      if i = o + L.off_flags then some 1 else (w1.content root.datafd.file)[i]? := by
    intro i
    rw [hc, poke_getElem? _ _ _ _ (by rw [hf.1]; omega), hf.1]
    by_cases h1 : o ≤ i ∧ i < o + L.sizeof_data_entry_header_t
    · rw [if_pos h1]
      unfold set_flags
      rw [poke_getElem? _ _ _ _ (by rw [hs.1]; simpa [toLE] using hfin)]
      by_cases h2 : i = o + L.off_flags
      · rw [if_pos (by simp [toLE]; omega), if_pos h2]
        have : i - o - L.off_flags = 0 := by omega
        rw [this]; rfl
      · rw [if_neg (by simp [toLE]; omega), if_neg h2, hpk _ (by omega)]
        congr 1; omega
    · rw [if_neg h1, if_neg (by omega)]
  refine ⟨?_, ?_, ?_, ?_, hothers, ?_, ?_⟩
  · unfold World.size
    rw [hc, poke_length _ _ _ (by rw [hf.1]; omega)]
  · intro i hi
    rw [hbyte, if_neg hi]
  · rw [← hpk _ (by omega)]
    have h0 := hs.2.2.2.2.2
    unfold hdr_flags at h0
    have hl : (peek hdr L.off_flags 1).length = 1 := by
      simp [peek, List.length_take, List.length_drop]; omega
    have hg := peek_getElem? hdr L.off_flags 1 0 (by omega)
    rw [Nat.add_zero] at hg
    rw [← hg]
    match hp : peek hdr L.off_flags 1, hl with
    | [b], _ =>
      rw [hp] at h0
      simp only [ofLE, Nat.mul_zero, Nat.add_zero] at h0
      simp only [List.getElem?_cons_zero, Option.some.injEq]
      exact Fin.ext h0
  · rw [hbyte, if_pos rfl]
  · obtain ⟨fd, hfd, hv⟩ := data_check_value L root2 w2 o root.datafd.file hroot1 hx
    rw [hv, data_check_real_entry w2 fd o _ id data (by rw [hfd]; exact he2)
      (by rw [hf.2.2.1, hs.2.2.1]; exact Nat.mod_eq_of_lt (by norm_num; exact hdata))
      (by rw [hf.2.1, hs.2.1]; exact Nat.mod_eq_of_lt (by norm_num; exact hid))]
    rw [hf.2.2.2.2.1, hs.2.2.2.2.1, data_crc32_mod]
    simp
  · obtain ⟨fd, hfd, hv⟩ := data_get_value L root2 w2 o data.length root.datafd.file id.length
      hroot1 hx
    rw [hv]
    exact data_get_real_entry w2 fd o _ id data (by rw [hfd]; exact he2)
      (by intro hd; rw [hf.2.2.1, hs.2.2.1, hd]; rfl)

set_option maxRecDepth 100000 in
theorem data_delete_tombstone_witness :
    (data_check specLayout helloDeleted.2.1 helloDeleted.2.2 11 0).1 = 1 ∧
    (helloDeleted.2.2.content 0)[11 + 17]? = some 1 :=
  have h := data_delete_tombstone specLayout specLayout_wf freshRoot freshWorld worldData helloKey
    (.upto 24) (.upto 5) (.upto 19) 11 helloInserted.2.1 helloDeleted.2.1 helloInserted.2.2
    helloDeleted.2.2 rfl (by decide) (by decide) rfl (by decide) rfl
  ⟨h.2.2.2.2.2.1, h.2.2.2.1⟩

/-- C8: `data_match` with a key other than the one inserted (of the same
length or not) returns 0; the call leaves the world as it was, and of the
root it can only move the offset of the descriptor: `previous` and `dataid`
are the same. -/
theorem data_match_other_key (L : Layout) (hL : L.wf) (root : data_root_t) (w : World)
    (data id key : List Byte) (out1 out2 : WriteOutcome) (o : Nat) (root1 : data_root_t)
    (w1 : World) (hid : id.length < 2 ^ 8) (hdata : data.length < 2 ^ 32)
    (hins : data_insert L root w data id out1 out2 = (o, root1, w1)) (hok : o ≠ 0)
    (hne : key ≠ id) :
    (data_match L root1 w1 key o root1.dataid).1 = 0 ∧
    (data_match L root1 w1 key o root1.dataid).2.2 = w1 ∧
    (data_match L root1 w1 key o root1.dataid).2.1.previous = root1.previous ∧
    (data_match L root1 w1 key o root1.dataid).2.1.dataid = root1.dataid := by
  obtain ⟨_, ⟨pos, ls, hr1⟩, _, he, _, _, _, _⟩ :=
    data_insert_world hL root w data id out1 out2 o root1 w1 hins hok
  have hs := data_insert_header_spec hL id.length data.length root.previous (data_crc32 data)
  obtain ⟨hw, fd, hr⟩ := data_match_frame L root1 w1 key o root1.dataid
  refine ⟨?_, hw, by rw [hr], by rw [hr]⟩
  rw [data_match_current]
  have hfile : root1.datafd.file = root.datafd.file := by rw [hr1]
  rw [data_match_real_entry w1 root1.datafd o _ id data key (by rw [hfile]; exact he)
    (by rw [hs.2.2.1]; exact Nat.mod_eq_of_lt (by norm_num; exact hdata))
    (by rw [hs.2.1]; exact Nat.mod_eq_of_lt (by norm_num; exact hid))]
  rw [if_neg (fun h => hne h.1)]

set_option maxRecDepth 100000 in
theorem data_match_other_key_witness :
    (data_match specLayout helloInserted.2.1 helloInserted.2.2 worldData 11 0).1 = 0 :=
  (data_match_other_key specLayout specLayout_wf freshRoot freshWorld worldData helloKey worldData
    (.upto 24) (.upto 5) 11 _ _ (by decide) (by decide) rfl (by decide) (by decide)).1

/-- C9: after `data_init` on a segment that did not exist and any number of
inserts that all succeeded, at the offsets `offs` (oldest first): `previous`
of the root is the last offset (`sizeof(data_header_t)` when there was no
insert); the offsets increase and the header at each offset stores in
`previous` the offset before it; the first offset is `sizeof(data_header_t)`
and its header stores that same value; and walking the `previous` fields from
the root visits exactly the offsets returned, in reverse order of insertion,
ending at `sizeof(data_header_t)`. -/
theorem back_pointer_chain (L : Layout) (hL : L.wf) (settings : settings_t) (w0 : World)
    (dataid : Nat) (out0 : WriteOutcome) (st0 st : State)
    (items : List (List Byte × List Byte × WriteOutcome × WriteOutcome)) (offs : List Nat)
    (hfresh : w0.files dataid = none) (hrw : w0.rofs = false)
    (hinit : data_init L settings w0 dataid out0 = some st0)
    (hall : insert_all L items st0 = some (st, offs)) :
    offs.length = items.length ∧
    st.1.previous = (offs.getLast?).getD L.sizeof_data_header_t ∧
    List.Chain' (fun a b => a < b ∧
      hdr_previous L (peek (st.2.content dataid) b L.sizeof_data_entry_header_t) = a) offs ∧
    (∀ o1 ∈ offs.head?, o1 = L.sizeof_data_header_t ∧
      hdr_previous L (peek (st.2.content dataid) o1 L.sizeof_data_entry_header_t)
        = L.sizeof_data_header_t) ∧
    ∀ fuel, offs.length ≤ fuel →
      chain L (st.2.content dataid) fuel st.1.previous = offs.reverse := by
  obtain ⟨hc0, hd0, _⟩ := data_init_new hL settings w0 dataid out0 st0 hfresh hrw hinit
  obtain ⟨hi0, _⟩ := data_init_inv hL settings w0 dataid out0 st0 hinit
  obtain ⟨hc, hd⟩ := insert_all_chain hL items st0 st [] offs hall hc0 hi0
  rw [List.append_nil] at hc
  obtain ⟨c1, c2, c3, c4, c5, c6, c7⟩ := hc
  rw [hd, hd0] at c2 c3 c4 c7
  refine ⟨?_, ?_, ?_, ?_, ?_⟩
  · exact insert_all_length items st0 st offs hall
  · rw [c1, List.head?_reverse]
  · have := List.chain'_reverse.mp c2
    exact this.imp (fun {a b} h => ⟨h.1, h.2.2⟩)
  · intro o1 ho1
    exact c4 o1 (by rw [List.getLast?_reverse]; exact ho1)
  · intro fuel hfuel
    rw [c1]
    exact chain_walk hL _ _ c2 c3 (fun o1 ho1 => (c4 o1 ho1).1)
      (fun h => c7 h) fuel (by simpa using hfuel)

set_option maxRecDepth 100000 in
theorem back_pointer_chain_witness :
    twoInserted.2.1.previous = 40 ∧
    chain specLayout (twoInserted.2.2.content 0) 2 twoInserted.2.1.previous = [40, 11] :=
  have h := back_pointer_chain specLayout specLayout_wf ⟨false, 0⟩ emptyWorld 0 (.upto 11)
    (freshRoot, freshWorld) twoInserted.2 twoItems [11, 40] rfl rfl data_init_fresh rfl
  ⟨h.2.1, h.2.2.2.2 2 (Nat.le_refl 2)⟩

/-- C10: on a root produced by `data_init` on a writable file system, after
any history of calls and as long as the segment stays below the largest file
offset, `data_insert` returns 0 exactly when the header write or the payload
write is not completed (error or short write); an insert that succeeds
returns an offset of at least `sizeof(data_header_t)`, hence not 0, and
leaves it in `previous`. -/
theorem data_insert_zero_iff (L : Layout) (hL : L.wf) (settings : settings_t) (w0 : World)
    (dataid : Nat) (out0 : WriteOutcome) (st0 st : State) (ops : List Op)
    (log : List (Nat × Nat)) (data id : List Byte) (out1 out2 : WriteOutcome) (o : Nat)
    (root1 : data_root_t) (w1 : World) (hrw : w0.rofs = false)
    (hinit : data_init L settings w0 dataid out0 = some st0)
    (hrun : run L ops st0 = some (st, log))
    (hfit : st.2.size st.1.dataid + (L.sizeof_data_entry_header_t + id.length) + data.length
      ≤ OFF_MAX)
    (hins : data_insert L st.1 st.2 data id out1 out2 = (o, root1, w1)) :
    (o = 0 ↔ (out1.complete (L.sizeof_data_entry_header_t + id.length) = false ∨
      out2.complete data.length = false)) ∧
    (o ≠ 0 → L.sizeof_data_header_t ≤ o ∧ root1.previous = o) := by
  obtain ⟨hi, hro⟩ := data_init_inv hL settings w0 dataid out0 st0 hinit
  obtain ⟨hi2, hro2, _, _⟩ := run_inv hL ops st0 st log hrun hi
  obtain ⟨hw, hH⟩ := hi2.2 (by rw [hro2, hro, hrw])
  have hmagic := hL.magic_in
  have hlen := (data_insert_header_spec hL id.length data.length st.1.previous
    (data_crc32 data)).1
  have hcases := data_insert_cases L st.1 st.2 data id out1 out2
  simp only [List.length_append, hlen, hi2.1] at hcases
  constructor
  · rcases hcases with ⟨⟨c1, c2, _, _⟩, ls, fs, h⟩ | ⟨hn, h⟩
    · rw [h] at hins
      simp only [Prod.mk.injEq] at hins
      constructor
      · intro h0
        rw [← hins.1] at h0
        omega
      · intro hf
        rcases hf with hf | hf
        · rw [c1] at hf; exact absurd hf (by simp)
        · rw [c2] at hf; exact absurd hf (by simp)
    · rw [hins] at h
      simp only at h
      refine ⟨fun _ => ?_, fun _ => h⟩
      by_contra hcon
      simp only [not_or, Bool.not_eq_false] at hcon
      exact hn ⟨hcon.1, hcon.2, hw, hfit⟩
  · intro hok
    obtain ⟨ho, ⟨pos, ls, hr⟩, _⟩ := data_insert_world hL st.1 st.2 data id out1 out2 o root1 w1
      hins hok
    rw [hi2.1] at ho
    exact ⟨by rw [ho]; exact hH, by rw [hr]⟩

set_option maxRecDepth 100000 in
theorem data_insert_zero_iff_witness :
    (helloInserted.1 = 0 ↔ (WriteOutcome.complete (.upto 24) (19 + 5) = false ∨
      WriteOutcome.complete (.upto 5) 5 = false)) ∧
    (helloInserted.1 ≠ 0 → 11 ≤ helloInserted.1 ∧ helloInserted.2.1.previous = helloInserted.1) :=
  data_insert_zero_iff specLayout specLayout_wf ⟨false, 0⟩ emptyWorld 0 (.upto 11)
    (freshRoot, freshWorld) (freshRoot, freshWorld) [] [] worldData helloKey (.upto 24) (.upto 5)
    helloInserted.1 helloInserted.2.1 helloInserted.2.2 rfl data_init_fresh rfl
    (by show freshWorld.size 0 + (19 + 5) + 5 ≤ OFF_MAX; rw [freshWorld_size]; decide) rfl

/-- C11: a successful `data_insert` of key `id` and payload `data` appends to
the segment file exactly one entry header of `sizeof(data_entry_header_t)`
bytes (idlength the key length, datalength the payload length, previous the
old `root->previous`, integrity the CRC of the payload, flags 0), then the
key, then the payload; the bytes before them and the other files are
unchanged; and the first insert after `data_init` made a new segment returns
`sizeof(data_header_t)` and leaves the file at header + entry header + key +
payload bytes. -/
theorem data_insert_layout {L : Layout} (hL : L.wf) (root : data_root_t) (w : World)
    (data id : List Byte) (out1 out2 : WriteOutcome) (o : Nat) (root1 : data_root_t) (w1 : World)
    (hid : id.length < 2 ^ 8) (hdata : data.length < 2 ^ 32) (hprev : root.previous < 2 ^ 64)
    (hins : data_insert L root w data id out1 out2 = (o, root1, w1)) (hok : o ≠ 0) :
    (∃ hdr : List Byte, hdr.length = L.sizeof_data_entry_header_t ∧
      hdr_idlength L hdr = id.length ∧ hdr_datalength L hdr = data.length ∧
      hdr_previous L hdr = root.previous ∧ hdr_integrity L hdr = data_crc32 data ∧
      hdr_flags L hdr = 0 ∧
      w1.content root.datafd.file = w.content root.datafd.file ++ hdr ++ id ++ data) ∧
    w1.size root.datafd.file
      = w.size root.datafd.file + (L.sizeof_data_entry_header_t + id.length + data.length) ∧
    (∀ s, s ≠ root.datafd.file → w1.files s = w.files s) ∧
    (∀ settings w0 dataid out0, w0.files dataid = none → w0.rofs = false →
      data_init L settings w0 dataid out0 = some (root, w) →
      o = L.sizeof_data_header_t ∧
      w1.size dataid
        = L.sizeof_data_header_t + L.sizeof_data_entry_header_t + id.length + data.length) := by
  obtain ⟨ho, _, hc, _, _, hoth, _, _⟩ := data_insert_world hL root w data id out1 out2 o root1 w1 hins hok
  obtain ⟨s1, s2, s3, s4, s5, s6⟩ :=
    data_insert_header_spec hL id.length data.length root.previous (data_crc32 data)
  have hsize : w1.size root.datafd.file
      = w.size root.datafd.file + (L.sizeof_data_entry_header_t + id.length + data.length) := by
    unfold World.size
    rw [hc]
    simp only [List.length_append, s1]
    omega
  refine ⟨⟨_, s1, ?_, ?_, ?_, ?_, s6, ?_⟩, hsize, hoth, ?_⟩
  · rw [s2]; exact Nat.mod_eq_of_lt (by simpa using hid)
  · rw [s3]; exact Nat.mod_eq_of_lt (by norm_num at hdata ⊢; exact hdata)
  · rw [s4]; exact Nat.mod_eq_of_lt (by norm_num at hprev ⊢; exact hprev)
  · rw [s5]; exact data_crc32_mod data
  · rw [hc]; simp only [List.append_assoc]
  · intro settings w0 dataid out0 hfresh hrw hinit
    obtain ⟨hch, hd, hcont⟩ := data_init_new hL settings w0 dataid out0 (root, w) hfresh hrw hinit
    obtain ⟨hinv, _⟩ := data_init_inv hL settings w0 dataid out0 (root, w) hinit
    have hf : root.datafd.file = dataid := by rw [← hd]; exact hinv.1
    have hsz : w.size dataid = L.sizeof_data_header_t := by
      unfold World.size
      have := hch.2.2.2.2.2.2 rfl
      simp only at hd this
      rw [hd] at this
      exact this
    rw [hf] at hsize ho
    rw [hsize, ho, hsz]
    exact ⟨rfl, by omega⟩

set_option maxRecDepth 100000 in
theorem data_insert_layout_witness :
    helloInserted.1 = 11 ∧ helloInserted.2.2.size 0 = 40 :=
  (data_insert_layout specLayout_wf freshRoot freshWorld worldData helloKey (.upto 24) (.upto 5)
    helloInserted.1 helloInserted.2.1 helloInserted.2.2 (by decide) (by decide) (by decide)
    rfl (by decide)).2.2.2 ⟨false, 0⟩ emptyWorld 0 (.upto 11) rfl rfl data_init_fresh

/-- C12 (counterexample): `data_init` on the segment that holds the entry
"hello"/"world", at a later time of the clock, writes the header again: the
`created` field of the file changes from 100 to 200. -/
theorem reopen_rewrites_header :
    ∃ st, helloReopened = some st ∧
      st.2.content 0 ≠ helloInserted.2.2.content 0 ∧
      peek (helloInserted.2.2.content 0) 5 4 = toLE 4 100 ∧
      peek (st.2.content 0) 5 4 = toLE 4 200 := by
  refine ⟨helloReopened.get (by decide), by simp, by decide, by decide, by decide⟩

/-- C12 (amended): `data_init` and `data_jump_next` write the segment header
whether or not the segment is new.  On a file id whose file already holds a
header (and possibly entries), on a writable file system, the first
`sizeof(data_header_t)` bytes become a header with the current time, and the
bytes after them, the length of the file and every other file are unchanged;
on a read-only file system nothing is written. -/
theorem open_existing_segment {L : Layout} (hL : L.wf) (w : World) (id : Nat)
    (out : WriteOutcome) (hH : L.sizeof_data_header_t ≤ w.size id) :
    (∀ settings st, data_init L settings w id out = some st →
      (w.rofs = true → st.2 = w) ∧
      (w.rofs = false →
        st.2.content id = L.data_header w.now id ++ (w.content id).drop L.sizeof_data_header_t ∧
        st.2.size id = w.size id ∧ ∀ s, s ≠ id → st.2.files s = w.files s)) ∧
    (∀ root r, data_jump_next L root w id out = some r →
      (w.rofs = true → r.2.2 = w) ∧
      (w.rofs = false →
        r.2.2.content id = L.data_header w.now id ++ (w.content id).drop L.sizeof_data_header_t ∧
        r.2.2.size id = w.size id ∧ ∀ s, s ≠ id → r.2.2.files s = w.files s)) := by
  constructor
  · intro settings st h
    unfold data_init data_set_id at h
    simp only at h
    cases hi : data_initialize L id { datafile := id, dataid := id, datafd := ⟨0, 0, false, false⟩, previous := 0, sync := settings.sync, synctime := settings.synctime, lastsync := 0 } w out with
    | none => rw [hi] at h; simp at h
    | some p =>
      obtain ⟨root2, w1⟩ := p
      rw [hi] at h
      simp only at h
      obtain ⟨root3, w2⟩ := st
      exact reopen_world hL id _ root2 root3 w w1 w2 out rfl hH hi h
  · intro root r h
    unfold data_jump_next data_set_id at h
    simp only at h
    cases hi : data_initialize L id { root with dataid := id, datafile := id } w out with
    | none => rw [hi] at h; simp at h
    | some p =>
      obtain ⟨root2, w1⟩ := p
      rw [hi] at h
      simp only at h
      cases ho : data_open_final L root2 w1 with
      | none => rw [ho] at h; simp at h
      | some q =>
        obtain ⟨root3, w2⟩ := q
        rw [ho] at h
        simp only [Option.some.injEq] at h
        subst h
        exact reopen_world hL id _ root2 root3 w w1 w2 out rfl hH hi ho

set_option maxRecDepth 100000 in
theorem open_existing_segment_witness :
    ∃ st, helloReopened = some st ∧ st.2.size 0 = 40 ∧
      st.2.content 0 = specLayout.data_header 200 0 ++ (helloInserted.2.2.content 0).drop 11 :=
  ⟨helloReopened.get (by decide), by simp,
    (((open_existing_segment specLayout_wf (helloInserted.2.2.at 200) 0 (.upto 11)
      (by decide)).1 ⟨false, 0⟩ (helloReopened.get (by decide))
      (Option.some_get _).symm).2 rfl).2.1,
    (((open_existing_segment specLayout_wf (helloInserted.2.2.at 200) 0 (.upto 11)
      (by decide)).1 ⟨false, 0⟩ (helloReopened.get (by decide))
      (Option.some_get _).symm).2 rfl).1⟩

/-- C13: `data_jump_next(newid)` returns `newid` and leaves `dataid = newid`.
When it follows a successful insert and the segment `newid` did not exist,
`previous` becomes `sizeof(data_header_t)`, the files of the other segments
are unchanged, `data_get` on the old segment id still returns the payload
inserted there, and the next successful insert returns the offset
`sizeof(data_header_t)` and leaves the old segment unchanged. -/
theorem data_jump_next_new {L : Layout} (hL : L.wf) (root : data_root_t) (w : World)
    (data id : List Byte) (out1 out2 : WriteOutcome) (o : Nat) (root1 : data_root_t) (w1 : World)
    (newid : Nat) (out3 : WriteOutcome) (r : Nat) (root2 : data_root_t) (w2 : World)
    (hroot : root.datafd.file = root.dataid)
    (hins : data_insert L root w data id out1 out2 = (o, root1, w1)) (hok : o ≠ 0)
    (hjump : data_jump_next L root1 w1 newid out3 = some (r, root2, w2)) :
    (r = newid ∧ root2.dataid = newid) ∧
    (w1.files newid = none →
      root2.previous = L.sizeof_data_header_t ∧
      (∀ s, s ≠ newid → w2.files s = w1.files s) ∧
      (data_get L root2 w2 o data.length root.dataid id.length).1
        = { buffer := if data = [] then none else some data, length := data.length } ∧
      (∀ data2 id2 o1 o2 p root3 w3,
        data_insert L root2 w2 data2 id2 o1 o2 = (p, root3, w3) → p ≠ 0 →
        p = L.sizeof_data_header_t ∧ w3.files root.dataid = w1.files root.dataid)) := by
  obtain ⟨_, _, hc1, he1, hsome1, _, _, _⟩ :=
    data_insert_world hL root w data id out1 out2 o root1 w1 hins hok
  rw [hroot] at hc1 he1 hsome1
  have hinv := (data_jump_next_inv hL (root1, w1) newid out3 (r, root2, w2) hjump).1
  unfold data_jump_next data_set_id at hjump
  simp only at hjump
  cases hi : data_initialize L newid { root1 with dataid := newid, datafile := newid } w1 out3 with
  | none => rw [hi] at hjump; simp at hjump
  | some p =>
    obtain ⟨rootA, wA⟩ := p
    rw [hi] at hjump
    simp only at hjump
    cases ho : data_open_final L rootA wA with
    | none => rw [ho] at hjump; simp at hjump
    | some q =>
      obtain ⟨rootB, wB⟩ := q
      rw [ho] at hjump
      simp only [Option.some.injEq, Prod.mk.injEq] at hjump
      obtain ⟨hr, rfl, rfl⟩ := hjump
      obtain ⟨⟨ls, hrA⟩, hroA, _, _⟩ := data_initialize_spec hL _ _ _ _ _ _ hi
      obtain ⟨hdB, hfB, _, _, _⟩ := data_open_final_spec L rootA wA rootB wB ho
      have hd : rootB.dataid = newid := by rw [hdB, hrA]
      refine ⟨⟨by rw [← hr, hd], hd⟩, ?_⟩
      intro hnew
      have hrw : w1.rofs = false := by
        cases hr1 : w1.rofs with
        | false => rfl
        | true =>
          exfalso
          have hw := open_segment_rofs L newid _ rootA rootB w1 wA wB out3 hr1 hi ho
          have hwA : wA = w1 := by
            unfold data_initialize sys_open at hi
            simp only [hr1, Bool.and_self, if_true, Option.some.injEq, Prod.mk.injEq] at hi
            exact hi.2.symm
          have hfA : rootA.datafile = newid := by rw [hrA]
          rw [data_open_final_rofs L rootA wA (by rw [hwA]; exact hr1)
            (by rw [hwA, hfA]; exact hnew)] at ho
          exact Option.noConfusion ho
      obtain ⟨hfiles, _, hfile, hprev⟩ :=
        open_segment hL newid _ rootA rootB w1 wA wB out3 hrw rfl hi ho
      have hc0 : w1.content newid = [] := by simp [World.content, hnew]
      have hne : root.dataid ≠ newid := by
        intro h
        rw [h, hnew] at hsome1
        exact Bool.noConfusion hsome1
      have hoth : ∀ s, s ≠ newid → wB.files s = w1.files s := by
        intro s hs
        rw [hfiles, Function.update_noteq hs]
      have hold : wB.files root.dataid = w1.files root.dataid := hoth _ hne
      refine ⟨hprev (by rw [hc0]; exact Nat.zero_le _), hoth, ?_, ?_⟩
      · obtain ⟨fd, hfd, hg⟩ := data_get_value L rootB wB o data.length root.dataid id.length
          hinv.1 (by rw [hold]; exact hsome1)
        rw [hg]
        have hs := data_insert_header_spec hL id.length data.length root.previous (data_crc32 data)
        refine data_get_real_entry wB fd o _ id data ?_ (by intro hd0; rw [hs.2.2.1, hd0]; rfl)
        rw [hfd]
        unfold World.content at he1 ⊢
        rw [hold]
        exact he1
      · intro data2 id2 o1 o2 p root3 w3 hins2 hok2
        obtain ⟨hp, _, _, _, _, hoth2, _, _⟩ :=
          data_insert_world hL rootB wB data2 id2 o1 o2 p root3 w3 hins2 hok2
        rw [hfile] at hp hoth2
        refine ⟨?_, ?_⟩
        · rw [hp]
          unfold World.size World.content
          rw [hfiles, Function.update_same, hc0]
          simp [hL.header_len]
        · rw [hoth2 _ hne, hold]

set_option maxRecDepth 100000 in
theorem data_jump_next_new_witness :
    ∃ r, helloJumped = some r ∧ r.1 = 1 ∧ r.2.1.previous = 11 ∧
      (data_get specLayout r.2.1 r.2.2 11 5 0 5).1 = { buffer := some worldData, length := 5 } :=
  ⟨helloJumped.get (by decide), by simp,
    (data_jump_next_new specLayout_wf freshRoot freshWorld worldData helloKey (.upto 24) (.upto 5)
      helloInserted.1 helloInserted.2.1 helloInserted.2.2 1 (.upto 11)
      (helloJumped.get (by decide)).1 (helloJumped.get (by decide)).2.1
      (helloJumped.get (by decide)).2.2 rfl rfl (by decide) rfl).1.1,
    ((data_jump_next_new specLayout_wf freshRoot freshWorld worldData helloKey (.upto 24) (.upto 5)
      helloInserted.1 helloInserted.2.1 helloInserted.2.2 1 (.upto 11)
      (helloJumped.get (by decide)).1 (helloJumped.get (by decide)).2.1
      (helloJumped.get (by decide)).2.2 rfl rfl (by decide) rfl).2 rfl).1,
    ((data_jump_next_new specLayout_wf freshRoot freshWorld worldData helloKey (.upto 24) (.upto 5)
      helloInserted.1 helloInserted.2.1 helloInserted.2.2 1 (.upto 11)
      (helloJumped.get (by decide)).1 (helloJumped.get (by decide)).2.1
      (helloJumped.get (by decide)).2.2 rfl rfl (by decide) rfl).2 rfl).2.2.1⟩

/-- C14: `data_insert` evaluates the sync policy once, on the payload write
and not on the header write.  When the insert succeeds the `fsync` counter
grows by one exactly when the policy is due (sync-always, or a period that is
not zero and is exceeded by the time since `lastsync`), and `lastsync` is then
the clock, otherwise unchanged; so there is one `fsync` under sync-always and
none when sync is off and the period is zero.  An insert whose header write or
payload write is not completed syncs nothing. -/
theorem data_insert_sync_policy {L : Layout} (hL : L.wf) (root : data_root_t) (w : World)
    (data id : List Byte) (out1 out2 : WriteOutcome) (o : Nat) (root1 : data_root_t) (w1 : World)
    (hins : data_insert L root w data id out1 out2 = (o, root1, w1)) :
    (o ≠ 0 →
      w1.fsyncs = w.fsyncs + (if sync_due root w then 1 else 0) ∧
      root1.lastsync = (if sync_due root w then w.now else root.lastsync) ∧
      (root.sync = true → w1.fsyncs = w.fsyncs + 1) ∧
      (root.sync = false → root.synctime = 0 → w1.fsyncs = w.fsyncs)) ∧
    (out1.complete (L.sizeof_data_entry_header_t + id.length) = false ∨
        out2.complete data.length = false →
      o = 0 ∧ w1.fsyncs = w.fsyncs ∧ root1.lastsync = root.lastsync) := by
  have hs := data_insert_sync L root w data id out1 out2
  have hcases := data_insert_cases L root w data id out1 out2
  simp only at hs hcases
  rw [hins] at hs hcases
  simp only at hs hcases
  constructor
  · intro hok
    rcases hcases with ⟨hc, _⟩ | ⟨_, h0⟩
    · obtain ⟨h1, h2⟩ := hs.1 hc
      refine ⟨h1, h2, ?_, ?_⟩
      · intro hsync
        have hd : sync_due root w := Or.inl hsync
        rw [h1, if_pos hd]
      · intro hsync hper
        have hd : ¬ sync_due root w := by
          rintro (h | ⟨h, _⟩)
          · rw [hsync] at h; exact Bool.noConfusion h
          · exact h hper
        rw [h1, if_neg hd]
        rfl
    · exact absurd h0 hok
  · intro hfail
    have hn : ¬ ((out1.complete (data_insert_header L id.length data.length root.previous
          (data_crc32 data) ++ id).length = true) ∧ out2.complete data.length = true ∧
        root.datafd.writable = true ∧
        w.size root.datafd.file + (data_insert_header L id.length data.length root.previous
          (data_crc32 data) ++ id).length + data.length ≤ OFF_MAX) := by
      rintro ⟨c1, c2, _, _⟩
      have hl : (data_insert_header L id.length data.length root.previous
          (data_crc32 data) ++ id).length = L.sizeof_data_entry_header_t + id.length := by
        rw [List.length_append,
          (data_insert_header_spec hL id.length data.length root.previous (data_crc32 data)).1]
      rw [hl] at c1
      rcases hfail with h | h
      · rw [c1] at h; exact Bool.noConfusion h
      · rw [c2] at h; exact Bool.noConfusion h
    rcases hcases with ⟨hc, _⟩ | ⟨_, h0⟩
    · exact absurd hc hn
    · exact ⟨h0, hs.2 hn⟩

set_option maxRecDepth 100000 in
theorem data_insert_sync_policy_witness : syncInserted.2.2.fsyncs = 1 :=
  ((data_insert_sync_policy specLayout_wf syncRoot freshWorld worldData helloKey (.upto 24)
    (.upto 5) syncInserted.1 syncInserted.2.1 syncInserted.2.2 rfl).1 (by decide)).2.2.1 rfl

/-- C15: `index_entry_get` returns NULL when the bucket of the key is not
allocated (or the array is NULL), or when no entry of the chain matches;
otherwise it returns the first entry, in the order of the chain, whose
`idlength` is the length of the key, whose namespace is that of the root and
whose key bytes are those of the key.  An entry of another namespace is never
returned. -/
theorem index_entry_get_spec (B : Buckets) (h : Heap) (root : index_root_t) (id : List Byte)
    (fuel : Nat) :
    (index_branch_get root.branches (index_key_hash B id) = none →
      index_entry_get B h root id fuel = some none) ∧
    (∀ b ptrs, index_branch_get root.branches (index_key_hash B id) = some b →
      Chain h b.list ptrs → ptrs.length ≤ fuel →
      index_entry_get B h root id fuel = some (ptrs.find? (entry_matches h root.ns id)) ∧
      ((∀ p ∈ ptrs, entry_matches h root.ns id p = false) →
        index_entry_get B h root id fuel = some none) ∧
      (∀ e, index_entry_get B h root id fuel = some (some e) →
        (h e).idlength = id.length ∧ (h e).ns = root.ns ∧ (h e).id.take id.length = id ∧
        ∃ pre post, ptrs = pre ++ e :: post ∧ ∀ p ∈ pre, entry_matches h root.ns id p = false)) := by
  constructor
  · intro hb
    unfold index_entry_get
    simp only
    rw [hb]
  · intro b ptrs hb hc hfuel
    have hget : index_entry_get B h root id fuel
        = some (ptrs.find? (entry_matches h root.ns id)) := by
      unfold index_entry_get
      simp only
      rw [hb]
      exact index_entry_get_loop_chain h root.ns id fuel b.list ptrs hc hfuel
    refine ⟨hget, ?_, ?_⟩
    · intro hall
      rw [hget, List.find?_eq_none.mpr]
      intro p hp
      rw [hall p hp]
      exact Bool.false_ne_true
    · intro e he
      rw [hget] at he
      have hf := Option.some.inj he
      obtain ⟨hm, pre, post, hsplit, hpre⟩ := List.find?_eq_some.mp hf
      simp only [entry_matches, Bool.and_eq_true, decide_eq_true_eq] at hm
      refine ⟨hm.1.1, hm.1.2, hm.2, pre, post, hsplit, ?_⟩
      intro p hp
      have := hpre p hp
      simpa using this

set_option maxRecDepth 100000 in
theorem index_entry_get_spec_witness :
    index_entry_get demoBuckets demoIndex.2 ⟨demoIndex.1, 7⟩ helloKey 3 = some (some 1) :=
  ((index_entry_get_spec demoBuckets demoIndex.2 ⟨demoIndex.1, 7⟩ helloKey 3).2
    ⟨3, some 3, some 2⟩ [3, 1, 2] (by decide) (by decide) (by decide)).1.trans
    (by decide)

/-- C16: for the globals of any bucket-bits setting that has a value, and
entries with pairwise distinct keys in one namespace, each key of the length
its entry records, appended in turn to the bucket of its key on the
zero-initialised array: `index_entry_get` of each key returns the entry
appended for it, and the `length` fields of the buckets sum to the number of
entries. -/
theorem append_all_get (bits : Nat) (r : Int) (B : Buckets) (h : Heap) (es : List Nat) (ns : Nat)
    (hbits : index_set_buckets_bits bits = some (r, B)) (hnd : es.Nodup)
    (hwf : ∀ e ∈ es, (h e).ns = ns ∧ (h e).id.length = (h e).idlength)
    (hkeys : ∀ e1 ∈ es, ∀ e2 ∈ es, (h e1).id = (h e2).id → e1 = e2) :
    ∃ bs2 h2, append_all B es (some index_buckets_init, h) = (some bs2, h2) ∧
      (∀ e ∈ es, ∀ fuel, es.length ≤ fuel →
        index_entry_get B h2 ⟨some bs2, ns⟩ (h e).id fuel = some (some e)) ∧
      total_length B bs2 = es.length := by
  obtain ⟨bs2, h2, happ, hok, hf⟩ := append_all_inv B h es [] index_buckets_init h
    (by
      have := IndexOK.init_index h
      exact this)
    (fun p => ⟨rfl, rfl, rfl⟩) (by simpa using hnd)
  rw [List.nil_append] at hok
  refine ⟨bs2, h2, happ, ?_, ?_⟩
  · intro e he fuel hfuel
    have hmem : e ∈ bucket_chain B h es (index_key_hash B (h e).id) :=
      List.mem_filter.mpr ⟨he, by simp⟩
    have hi := hok.1 (index_key_hash B (h e).id)
    unfold index_entry_get index_branch_get
    simp only
    cases hb : bs2 (index_key_hash B (h e).id) with
    | none =>
      rw [hb] at hi
      simp only at hi
      rw [hi] at hmem
      simp at hmem
    | some b =>
      rw [hb] at hi
      simp only at hi ⊢
      have hlen : (bucket_chain B h es (index_key_hash B (h e).id)).length ≤ fuel :=
        Nat.le_trans (List.length_filter_le _ _) hfuel
      rw [index_entry_get_loop_chain h2 ns (h e).id fuel b.list _ hi.1 hlen]
      congr 1
      apply find?_unique _ _ e hmem
      · obtain ⟨f1, f2, f3⟩ := hf e
        obtain ⟨w1, w2⟩ := hwf e he
        simp [entry_matches, f1, f2, f3, w1, w2]
      · intro x hx hm
        have hxe : x ∈ es := (List.mem_filter.mp hx).1
        obtain ⟨f1, f2, f3⟩ := hf x
        obtain ⟨w1, w2⟩ := hwf x hxe
        simp only [entry_matches, Bool.and_eq_true, decide_eq_true_eq, f1, f2, f3] at hm
        obtain ⟨⟨m1, _⟩, m3⟩ := hm
        have hfull : (h x).id.take (h e).id.length = (h x).id := by
          rw [← m1, ← w2]
          exact List.take_length _
        rw [hfull] at m3
        exact hkeys x hxe e he m3
  · rw [total_length_eq B h2 bs2 _ hok]
    have := sum_filter_length (fun p => index_key_hash B (h p).id) B.buckets_branches es
    unfold bucket_chain
    rw [this]
    congr 1
    apply List.filter_eq_self.mpr
    intro p _
    simp only [decide_eq_true_eq]
    exact index_key_hash_lt bits r B hbits _

set_option maxRecDepth 100000 in
theorem append_all_get_witness :
    ∃ bs2 h2, append_all demoBuckets [1, 2] (some index_buckets_init, demoHeap) = (some bs2, h2) ∧
      index_entry_get demoBuckets h2 ⟨some bs2, 7⟩ worldData 2 = some (some 2) ∧
      total_length demoBuckets bs2 = 2 :=
  (append_all_get 1 2 demoBuckets demoHeap [1, 2] 7 rfl (by decide) (by decide)
    (by decide)).elim fun bs2 hbs => hbs.elim fun h2 hh =>
      ⟨bs2, h2, hh.1, hh.2.1 2 (by decide) 2 (by decide), hh.2.2⟩

/-- C17: `index_branch_append(branches, id, e)` on an array that is not NULL
returns `e`, leaves the bucket `id` allocated and every other slot unchanged,
and makes the `length` of the bucket one more (from 0 for a bucket that was
not allocated), `last = e` and `e->next = NULL`; when the bucket was well
formed with the chain `ptrs` (the empty chain for a bucket that was not
allocated) and `e` was not in it, the bucket is well formed with the chain
`ptrs` followed by `e`, and `e` is the head when the chain was empty. -/
theorem index_branch_append_spec (h : Heap) (bs : Branches) (branchid e : Nat) :
    ∃ bs2 b2 h2, index_branch_append h (some bs) branchid e = (some e, some bs2, h2) ∧
      bs2 branchid = some b2 ∧ (∀ j, j ≠ branchid → bs2 j = bs j) ∧
      b2.length = (bucket_of bs branchid).length + 1 ∧ b2.last = some e ∧
      (h2 e).next = none ∧
      (∀ ptrs, BranchOK h (bucket_of bs branchid) ptrs → e ∉ ptrs →
        BranchOK h2 b2 (ptrs ++ [e]) ∧ (ptrs = [] → b2.list = some e)) := by
  refine ⟨_, { length := (bucket_of bs branchid).length + 1, list := if (bucket_of bs branchid).list = none then some e else (bucket_of bs branchid).list, last := some e }, _, index_branch_append_eq h bs branchid e, ?_, ?_, rfl, rfl, ?_, ?_⟩
  · rw [Function.update_same]
  · intro j hj
    rw [Function.update_noteq hj]
  · unfold append_heap
    rw [Function.update_same]
  · intro ptrs hb he
    refine ⟨hb.append_entry e he, ?_⟩
    intro hnil
    have hl : (bucket_of bs branchid).list = none := by
      have := hb.1
      rw [hnil] at this
      exact this
    simp only
    rw [if_pos hl]

theorem index_branch_append_spec_witness :
    ∃ bs2 b2 h2, index_branch_append demoHeap (some index_buckets_init) 1 3
        = (some 3, some bs2, h2) ∧
      bs2 1 = some b2 ∧ BranchOK h2 b2 [3] ∧ b2.list = some 3 :=
  (index_branch_append_spec demoHeap index_buckets_init 1 3).elim fun bs2 hbs2 =>
    hbs2.elim fun b2 hb2 => hb2.elim fun h2 hh =>
      ⟨bs2, b2, h2, hh.1, hh.2.1,
        (hh.2.2.2.2.2.2 [] (BranchOK.empty_branch demoHeap) (by decide)).1,
        (hh.2.2.2.2.2.2 [] (BranchOK.empty_branch demoHeap) (by decide)).2 rfl⟩

/-- C18: for a well-formed bucket, an entry `e` of its chain and `previous`
the predecessor of `e` in the chain (NULL exactly when `e` is the head),
`index_branch_remove` returns `e` and leaves the bucket well formed with the
old chain without `e`, in the old order: `list` and `last` are the head and
the last node of that chain and `length` is one less.  In a well-formed
index, no `index_entry_get` that follows returns `e`. -/
theorem index_branch_remove_spec (h : Heap) (b : index_branch_t) (pre post : List Nat) (e : Nat)
    (hb : BranchOK h b (pre ++ e :: post)) :
    ∃ b2 h2, index_branch_remove h b e pre.getLast? = (e, b2, h2) ∧
      BranchOK h2 b2 (pre ++ post) ∧ b2.length + 1 = b.length ∧
      b2.list = (pre ++ post).head? ∧ b2.last = (pre ++ post).getLast? ∧
      (∀ bs chains branchid, IndexOK h bs chains → bs branchid = some b →
        index_remove_at h bs branchid e pre.getLast?
          = (Function.update bs branchid (some b2), h2) ∧
        ∀ B ns id fuel,
          index_entry_get B h2 ⟨some (Function.update bs branchid (some b2)), ns⟩ id fuel
            ≠ some (some e)) := by
  have hrem := hb.remove_entry
  refine ⟨_, _, index_branch_remove_eq h b e pre.getLast?, hrem, ?_, hrem.1.head_eq, hrem.2.1, ?_⟩
  · simp only
    rw [hb.2.2]
    simp only [List.length_append, List.length_cons]
    omega
  · intro bs chains branchid hok hbs
    refine ⟨index_remove_at_eq h bs branchid e _ b hbs, ?_⟩
    intro B ns id fuel hget
    have hi := hok.1 branchid
    rw [hbs] at hi
    have hch : chains branchid = pre ++ e :: post := Chain.det hi.1 hb.1
    have hok2 := hok.remove_index branchid e b pre post hbs hch
    have hmem := index_entry_get_mem B hok2 ns id fuel e hget
    have hnd : (pre ++ e :: post).Nodup := hb.1.nodup
    by_cases hk : index_key_hash B id = branchid
    · rw [hk, Function.update_same] at hmem
      have hnd2 := List.nodup_append.mp hnd
      rcases List.mem_append.mp hmem with hm | hm
      · exact hnd2.2.2 hm (List.mem_cons_self _ _)
      · exact (List.nodup_cons.mp hnd2.2.1).1 hm
    · rw [Function.update_noteq hk] at hmem
      exact hok.2 _ _ hk e hmem (by rw [hch]; simp)

set_option maxRecDepth 100000 in
theorem index_branch_remove_spec_witness :
    ∃ b2 h2, index_branch_remove demoIndex.2 ⟨3, some 3, some 2⟩ 1 (some 3) = (1, b2, h2) ∧
      BranchOK h2 b2 [3, 2] :=
  (index_branch_remove_spec demoIndex.2 ⟨3, some 3, some 2⟩ [3] [2] 1
    (by unfold BranchOK; decide)).elim fun b2 hb2 => hb2.elim fun h2 hh => ⟨b2, h2, hh.1, hh.2.1⟩

/-- C19 (counterexample): with 32 bits `index_set_buckets_bits` has no value
(the shift `1 << 32` of an `int` is undefined, and a 32-bit count cannot be
`2^32`), and with 31 bits the `int` returned is `-2^31`, not the count. -/
theorem index_set_buckets_bits_top :
    index_set_buckets_bits 32 = none ∧
    index_set_buckets_bits 31 = some (-(2 ^ 31), ⟨2 ^ 31, 2 ^ 31 - 1⟩) := by
  constructor <;> rfl

/-- C19 (amended): for every number of bits up to 31,
`index_set_buckets_bits` sets the count of buckets to `2^bits` and the mask
to `2^bits - 1`; it returns the count when `bits` is at most 30, and `-2^31`
when `bits` is 31. -/
theorem index_set_buckets_bits_spec (bits : Nat) (hb : bits ≤ 31) :
    ∃ r, index_set_buckets_bits bits = some (r, ⟨2 ^ bits, 2 ^ bits - 1⟩) ∧
      (bits ≤ 30 → r = 2 ^ bits) ∧ (bits = 31 → r = -(2 ^ 31)) := by
  interval_cases bits <;> exact ⟨_, rfl, by decide, by decide⟩

theorem index_set_buckets_bits_spec_witness :
    ∃ r, index_set_buckets_bits 1 = some (r, ⟨2, 1⟩) ∧ r = 2 :=
  (index_set_buckets_bits_spec 1 (by decide)).elim fun r hr => ⟨r, hr.1, hr.2.1 (by decide)⟩

/-- C20: in every state reachable from the zero-initialised array by
`index_branch_append` of entries that are in no chain and by
`index_branch_remove` of an entry of the bucket with its predecessor, every
allocated bucket has a chain from `list` that `length` counts; when the chain
is not empty `last` is a node of it and `last->next` is NULL; when it is
empty `list` and `last` are NULL. -/
theorem index_invariant (bs : Branches) (h : Heap) (hr : IndexReach bs h) :
    ∀ i b, bs i = some b →
      ∃ ptrs, Chain h b.list ptrs ∧ b.length = ptrs.length ∧
        (ptrs ≠ [] → ∃ l, b.last = some l ∧ l ∈ ptrs ∧ (h l).next = none) ∧
        (ptrs = [] → b.list = none ∧ b.last = none) := by
  obtain ⟨chains, hok⟩ := hr.ok
  intro i b hb
  have hi := hok.1 i
  rw [hb] at hi
  obtain ⟨hc, hlast, hlen⟩ := hi
  refine ⟨chains i, hc, hlen, ?_, ?_⟩
  · intro hne
    have hl : (chains i).getLast? = some ((chains i).getLast hne) := List.getLast?_eq_getLast _ hne
    exact ⟨_, hlast.trans hl, List.getLast_mem hne, hc.last_next hl⟩
  · intro hnil
    rw [hnil] at hc hlast
    exact ⟨hc, hlast⟩

set_option maxRecDepth 100000 in
theorem index_invariant_witness :
    ∃ ptrs, Chain (index_branch_append demoHeap (some index_buckets_init) 1 3).2.2 (some 3) ptrs ∧
      1 = ptrs.length :=
  (index_invariant _ _
    (IndexReach.append index_buckets_init demoHeap 1 3 (IndexReach.init demoHeap)
      (fun _ _ _ hb => Option.noConfusion hb))
    1 ⟨1, some 3, some 3⟩ (by decide)).elim fun ptrs hp => ⟨ptrs, hp.1, hp.2.1⟩

/-- C21: for every byte sequence, of every length, `data_crc32` (8-byte
little-endian words while more than 8 bytes remain, then single bytes)
returns what the single-byte CRC32C step of the spec gives when folded over
all the bytes in order from the initial value 0, which is also what the byte
instruction gives; the word loop has fuel for every length; on the empty
sequence the value is 0. -/
theorem data_crc32_exact (bytes : List Byte) :
    data_crc32 bytes = crc32c_bytewise bytes ∧
    data_crc32 bytes = bytes.foldl (fun hash b => _mm_crc32_u8 hash b.val) 0 ∧
    (data_crc32_words bytes.length 0 bytes).2.length ≤ 8 ∧
    data_crc32 [] = 0 := by
  refine ⟨?_, data_crc32_bytes bytes, ?_, ?_⟩
  · rw [data_crc32_bytes]
    unfold crc32c_bytewise
    congr 1
    funext crc b
    exact (crc32c_byte_eq crc b).symm
  · exact (data_crc32_words_spec bytes.length 0 bytes (Nat.le_refl _) (by norm_num)).1
  · rw [data_crc32_bytes]
    rfl

theorem data_crc32_exact_witness :
    data_crc32 (helloKey ++ worldData) = crc32c_bytewise (helloKey ++ worldData) :=
  (data_crc32_exact (helloKey ++ worldData)).1

/-- C22: for the globals of every bit count for which
`index_set_buckets_bits` has a value, and for the initial globals (24 bits),
`index_key_hash` of a key of any length is `data_crc32` of the same bytes with
only the low bits kept, and is less than the count of buckets, the size of
the array `index_buckets_init` allocates. -/
theorem index_key_hash_spec (bits : Nat) (r : Int) (B : Buckets)
    (hbits : index_set_buckets_bits bits = some (r, B)) (id : List Byte) :
    index_key_hash B id = data_crc32 id % 2 ^ bits ∧ B.buckets_branches = 2 ^ bits ∧
    index_key_hash B id < B.buckets_branches ∧
    index_key_hash Buckets.default id = data_crc32 id % 2 ^ 24 ∧
    index_key_hash Buckets.default id < Buckets.default.buckets_branches := by
  have hlt := index_key_hash_lt bits r B hbits id
  obtain ⟨_, rfl⟩ := index_set_buckets_bits_some bits r B hbits
  refine ⟨?_, rfl, hlt, ?_, ?_⟩
  · rw [index_key_hash_crc]
    exact Nat.and_pow_two_sub_one_eq_mod _ _
  · rw [index_key_hash_crc]
    exact Nat.and_pow_two_sub_one_eq_mod _ 24
  · rw [index_key_hash_crc]
    show data_crc32 id &&& 2 ^ 24 - 1 < 2 ^ 24
    rw [Nat.and_pow_two_sub_one_eq_mod]
    exact Nat.mod_lt _ (by norm_num)

set_option maxRecDepth 100000 in
theorem index_key_hash_spec_witness :
    index_key_hash demoBuckets helloKey = data_crc32 helloKey % 2 ^ 1 ∧
    index_key_hash demoBuckets helloKey < 2 :=
  ⟨(index_key_hash_spec 1 2 demoBuckets rfl helloKey).1,
    (index_key_hash_spec 1 2 demoBuckets rfl helloKey).2.2.1⟩

/-- C23: with sync off and a period of 1 second, after `data_init` opened a
segment that did not exist, a successful insert makes no `fsync`, and a second
successful insert, after the clock advanced by 2 seconds (or more), makes
one.  The first insert does not sync because the header write of the opening
has already evaluated the policy: `lastsync` is the time of the opening when
that is later than 1, and 0 otherwise. -/
theorem sync_timed_firing {L : Layout} (w0 : World) (dataid : Nat) (out0 : WriteOutcome)
    (root : data_root_t) (w : World) (data id : List Byte) (out1 out2 : WriteOutcome) (o : Nat)
    (root1 : data_root_t) (w1 : World) (d : Nat) (data2 id2 : List Byte)
    (out3 out4 : WriteOutcome) (p : Nat) (root2 : data_root_t) (w2 : World)
    (hfresh : w0.files dataid = none)
    (hinit : data_init L ⟨false, 1⟩ w0 dataid out0 = some (root, w))
    (hins1 : data_insert L root w data id out1 out2 = (o, root1, w1)) (hok1 : o ≠ 0)
    (hd : 2 ≤ d)
    (hins2 : data_insert L root1 (w1.at (w1.now + d)) data2 id2 out3 out4 = (p, root2, w2))
    (hok2 : p ≠ 0) :
    w1.fsyncs = w.fsyncs ∧ w2.fsyncs = w1.fsyncs + 1 ∧
    root.lastsync = (if 1 < w0.now then w0.now else 0) ∧
    w.fsyncs = w0.fsyncs + (if 1 < w0.now then 1 else 0) := by
  have hrw := data_init_fresh_writable ⟨false, 1⟩ w0 dataid out0 (root, w) hfresh hinit
  obtain ⟨hsync, hper, hnow, hls, hfs⟩ := data_init_sync ⟨false, 1⟩ w0 dataid out0 root w hrw hinit
  simp only [Bool.false_eq_true, false_or, ne_eq, one_ne_zero, not_false_eq_true, true_and,
    sub_zero, Nat.cast_one, gt_iff_lt, Nat.one_lt_cast] at hls hfs
  simp only at hsync hper
  obtain ⟨a1, a2, a3, a4, a5⟩ := data_insert_ok_sync L root w data id out1 out2 o root1 w1 hins1 hok1
  obtain ⟨b1, _, _, _, _⟩ :=
    data_insert_ok_sync L root1 (w1.at (w1.now + d)) data2 id2 out3 out4 p root2 w2 hins2 hok2
  have hnot : ¬ sync_due root w := by
    unfold sync_due
    rw [hsync, hper, hnow, hls]
    rintro (h | ⟨_, h⟩)
    · exact Bool.noConfusion h
    · split_ifs at h <;> simp at h
      omega
  have hdue : sync_due root1 (w1.at (w1.now + d)) := by
    unfold sync_due
    right
    rw [a4, hper, a2, if_neg hnot, hls]
    refine ⟨one_ne_zero, ?_⟩
    show ((w1.now + d : Nat) : Int) - _ > _
    rw [a5, hnow]
    split_ifs <;> push_cast <;> omega
  rw [if_neg hnot] at a1
  rw [if_pos hdue] at b1
  exact ⟨a1, b1, hls, hfs⟩

set_option maxRecDepth 100000 in
theorem sync_timed_firing_witness :
    timedFirst.2.2.fsyncs = 1 ∧ timedSecond.2.2.fsyncs = 2 :=
  ⟨(sync_timed_firing emptyWorld 0 (.upto 11) timedRoot timedWorld worldData helloKey (.upto 24)
      (.upto 5) timedFirst.1 timedFirst.2.1 timedFirst.2.2 2 helloKey worldData (.upto 24)
      (.upto 5) timedSecond.1 timedSecond.2.1 timedSecond.2.2 rfl data_init_timed rfl
      (by decide) (by decide) rfl (by decide)).1,
   (sync_timed_firing emptyWorld 0 (.upto 11) timedRoot timedWorld worldData helloKey (.upto 24)
      (.upto 5) timedFirst.1 timedFirst.2.1 timedFirst.2.2 2 helloKey worldData (.upto 24)
      (.upto 5) timedSecond.1 timedSecond.2.1 timedSecond.2.2 rfl data_init_timed rfl
      (by decide) (by decide) rfl (by decide)).2.1⟩

end ZeroDB
